import Mathlib

/-!
Shallow embedding of the CGR routing kernel (src/src/cgr_live.c, src/src/heap.c,
src/include/cgr.h and the contact header) and proofs about the claims of the
specification.  Times, rates and byte counts are C doubles in the source; they
are modelled as exact rationals.  The DBL_MAX sentinel used by the source for
an unreachable or infeasible value is modelled as the value none of Option Rat.
Null pointers of the C API are modelled as none of Option types where the
source tests them.  Array indices are natural numbers; the int prev_idx field
with its -1 sentinel is modelled as Option Nat.
-/

set_option maxRecDepth 10000

attribute [local semireducible] Rat.add Rat.mul Rat.inv Rat.sub

namespace CgrLive

/-- Tolerancia temporal, source constant EPS_TIME = 1e-12. -/
def EPS_TIME : ℚ := 1 / 1000000000000

/-- Tolerancia de capacidad, source constant EPS_BYTES = 1e-9. -/
def EPS_BYTES : ℚ := 1 / 1000000000

/-- One directed transmission window, struct Contact of the contact header.
The C fields named from and to clash with Lean keywords and notation and are
written cfrom and cto here. -/
structure Contact where
  id : Int
  cfrom : Int
  cto : Int
  t_start : ℚ
  t_end : ℚ
  owlt : ℚ
  rate_bps : ℚ
  setup_s : ℚ
  residual_bytes : ℚ
  deriving DecidableEq, Repr

/-- Parameters of one routing request, struct CgrParams. -/
structure CgrParams where
  src_node : Int
  dst_node : Int
  t0 : ℚ
  bundle_bytes : ℚ
  expiry : ℚ
  deriving DecidableEq, Repr

/-- Dijkstra state label, struct Label.  eta none models DBL_MAX, prev_idx
none models the -1 root sentinel. -/
structure Label where
  contact_idx : Nat
  eta : Option ℚ
  prev_idx : Option Nat
  deriving DecidableEq, Repr

/-- Result of one route, struct Route. -/
structure Route where
  contact_ids : List Int
  hops : Nat
  eta : Option ℚ
  found : Bool
  deriving DecidableEq, Repr

/-- Set of routes, struct Routes.  The count field of the source always equals
the number of valid entries, so the embedding keeps just the list. -/
structure Routes where
  items : List Route
  deriving DecidableEq, Repr

/-- Filters for the search, struct CgrFilters.  The source stores possibly
null pointers with counts; the embedding stores the two id lists. -/
structure CgrFilters where
  banned_ids : List Int
  forced_prefix_ids : List Int
  deriving DecidableEq, Repr

/-- IndexList and NeighborIndex: by_from is indexed by node number and holds
contact indices. -/
structure NeighborIndex where
  by_from : List (List Nat)
  node_cap : Nat
  deriving DecidableEq, Repr

/-- Order on Option Rat with none as plus infinity, matching comparisons the
source makes against DBL_MAX. -/
def oleq : Option ℚ → Option ℚ → Prop
  | _, none => True
  | none, some _ => False
  | some a, some b => a ≤ b

instance : ∀ a b : Option ℚ, Decidable (oleq a b)
  | none, none => Decidable.isTrue trivial
  | some _, none => Decidable.isTrue trivial
  | none, some _ => Decidable.isFalse (fun h => h)
  | some a, some b => inferInstanceAs (Decidable (a ≤ b))

/-- Strict version of oleq. -/
def olt : Option ℚ → Option ℚ → Prop
  | none, _ => False
  | some _, none => True
  | some a, some b => a < b

instance : ∀ a b : Option ℚ, Decidable (olt a b)
  | none, none => Decidable.isFalse (fun h => h)
  | none, some _ => Decidable.isFalse (fun h => h)
  | some _, none => Decidable.isTrue trivial
  | some a, some b => inferInstanceAs (Decidable (a < b))

/-- Helper max3 of the source. -/
def max3 (a b c : Int) : Int := max (max a b) c

/-- The start_tx local of the source: transmission start time. -/
def start_tx (c : Contact) (t_in : ℚ) : ℚ :=
  if t_in < c.t_start then c.t_start else t_in

/-- The rate local of the source: rate floored at one. -/
def rate_floor (c : Contact) : ℚ :=
  if c.rate_bps > 1 then c.rate_bps else 1

/-- The window local of the source. -/
def window_of (c : Contact) (t_in : ℚ) : ℚ :=
  c.t_end - start_tx c t_in - c.setup_s

/-- The tx_time local of the source. -/
def tx_time (c : Contact) (bundle_bytes : ℚ) : ℚ :=
  bundle_bytes / rate_floor c

/-- The finish local of the source. -/
def finish_of (c : Contact) (t_in bundle_bytes : ℚ) : ℚ :=
  start_tx c t_in + c.setup_s + tx_time c bundle_bytes

/-- Source function available_bytes_window. -/
def available_bytes_window (c : Contact) (t_in : ℚ) : ℚ :=
  if t_in > c.t_end + EPS_TIME then 0
  else if window_of c t_in ≤ EPS_TIME then 0
  else window_of c t_in * rate_floor c

/-- The cap local of eta_contact: min of residual and window capacity. -/
def cap_of (c : Contact) (t_in : ℚ) : ℚ :=
  if c.residual_bytes < available_bytes_window c t_in then c.residual_bytes
  else available_bytes_window c t_in

/-- Source function contact_is_viable, the quick viability pre-check. -/
def contact_is_viable (c : Contact) (t_arrival bundle_bytes : ℚ) : Bool :=
  if t_arrival > c.t_end + EPS_TIME then false
  else if window_of c t_arrival ≤ EPS_TIME then false
  else if (if c.residual_bytes < window_of c t_arrival * rate_floor c then
      c.residual_bytes else window_of c t_arrival * rate_floor c) + EPS_BYTES <
      bundle_bytes then false
  else if finish_of c t_arrival bundle_bytes > c.t_end + EPS_TIME then false
  else true

/-- Source function eta_contact: ETA at the end of the contact given the
arrival time t_in at its entry node, or none (DBL_MAX) if infeasible. -/
def eta_contact (c : Contact) (t_in bundle_bytes expiry_abs : ℚ) : Option ℚ :=
  if t_in > c.t_end + EPS_TIME then none
  else if cap_of c t_in + EPS_BYTES < bundle_bytes then none
  else if finish_of c t_in bundle_bytes > c.t_end + EPS_TIME then none
  else if expiry_abs > 0 ∧
      finish_of c t_in bundle_bytes + c.owlt > expiry_abs + EPS_TIME then none
  else some (finish_of c t_in bundle_bytes + c.owlt)

/-! ### Binary min-heap over labels, src/src/heap.c -/

/-- Default label used for out of range reads (never hit on the paths the
source exercises). -/
def hdef : Label := ⟨0, none, none⟩

/-- Read of items[i]. -/
def lget (l : List Label) (i : Nat) : Label := (l[i]?).getD hdef

/-- Source helper swap on the items array. -/
def lswap (l : List Label) (i j : Nat) : List Label :=
  (l.set i (lget l j)).set j (lget l i)

theorem lswap_length (l : List Label) (i j : Nat) :
    (lswap l i j).length = l.length := by
  simp [lswap]

theorem lget_set (l : List Label) (v : Label) (i j : Nat) :
    lget (l.set i v) j = if i = j ∧ i < l.length then v else lget l j := by
  simp only [lget, List.getElem?_set]
  by_cases hij : i = j
  · subst hij
    by_cases hlen : i < l.length
    · simp [hlen]
    · have : l[i]? = none := List.getElem?_eq_none (by omega)
      simp [hlen, this]
  · simp [hij]

theorem lget_lswap (l : List Label) (i j k : Nat)
    (hi : i < l.length) (hj : j < l.length) :
    lget (lswap l i j) k =
      if k = j then lget l i else if k = i then lget l j else lget l k := by
  unfold lswap
  rw [lget_set]
  simp only [List.length_set]
  by_cases hkj : k = j
  · rw [if_pos ⟨hkj.symm, hj⟩, if_pos hkj]
  · rw [if_neg (fun hc => hkj hc.1.symm), lget_set, if_neg hkj]
    by_cases hki : k = i
    · rw [if_pos ⟨hki.symm, hi⟩, if_pos hki]
    · rw [if_neg (fun hc => hki hc.1.symm), if_neg hki]

theorem mem_iff_lget (x : Label) (l : List Label) :
    x ∈ l ↔ ∃ k, k < l.length ∧ lget l k = x := by
  rw [List.mem_iff_getElem?]
  constructor
  · rintro ⟨n, hn⟩
    refine ⟨n, ?_, ?_⟩
    · exact (List.getElem?_eq_some.mp hn).1
    · simp [lget, hn]
  · rintro ⟨k, hk, hval⟩
    refine ⟨k, ?_⟩
    rw [List.getElem?_eq_getElem hk]
    rw [← hval]
    simp [lget, List.getElem?_eq_getElem hk]

/-- Comparison of the source cmp: ordering on the eta field only. -/
theorem oleq_refl (a : Option ℚ) : oleq a a := by
  cases a <;> simp [oleq]

theorem oleq_trans {a b c : Option ℚ} (h1 : oleq a b) (h2 : oleq b c) :
    oleq a c := by
  cases a <;> cases b <;> cases c <;> simp_all [oleq] <;> linarith

theorem olt_oleq (a b : Option ℚ) (h : olt a b) : oleq a b := by
  cases a <;> cases b <;> simp_all [olt, oleq] <;> linarith

theorem not_olt_oleq (a b : Option ℚ) (h : ¬ olt a b) : oleq b a := by
  cases a <;> cases b <;> simp_all [olt, oleq] <;> linarith

theorem olt_oleq_trans {a b c : Option ℚ} (h1 : olt a b) (h2 : oleq b c) :
    olt a c := by
  cases a <;> cases b <;> cases c <;> simp_all [olt, oleq] <;> linarith

theorem oleq_olt_trans {a b c : Option ℚ} (h1 : oleq a b) (h2 : olt b c) :
    olt a c := by
  cases a <;> cases b <;> cases c <;> simp_all [olt, oleq] <;> linarith

/-- Up-heap walk of heap_push.  The source loop runs while i is positive and
the parent is larger; the index strictly decreases, so a fuel of i + 1 steps
reproduces the loop exactly. -/
def siftUpF : Nat → List Label → Nat → List Label
  | 0, l, _ => l
  | fuel + 1, l, i =>
    if i = 0 then l
    else if olt (lget l i).eta (lget l ((i - 1) / 2)).eta then
      siftUpF fuel (lswap l i ((i - 1) / 2)) ((i - 1) / 2)
    else l

def siftUp (l : List Label) (i : Nat) : List Label := siftUpF (i + 1) l i

/-- Source function heap_push. -/
def heap_push (l : List Label) (v : Label) : List Label :=
  siftUp (l ++ [v]) l.length

/-- First step of the smaller child selection of heap_pop, the variable m
after the left child test. -/
def smallerChild1 (l : List Label) (i : Nat) : Nat :=
  if 2 * i + 1 < l.length ∧ olt (lget l (2 * i + 1)).eta (lget l i).eta
  then 2 * i + 1 else i

/-- Index of the smaller of position i and its children, the variable m of
the down-heap walk of heap_pop. -/
def smallerChild (l : List Label) (i : Nat) : Nat :=
  if 2 * i + 2 < l.length ∧
      olt (lget l (2 * i + 2)).eta (lget l (smallerChild1 l i)).eta
  then 2 * i + 2 else smallerChild1 l i

theorem smallerChild_cases (l : List Label) (i : Nat) :
    smallerChild l i = i ∨
      (i < smallerChild l i ∧ smallerChild l i < l.length) := by
  unfold smallerChild smallerChild1
  by_cases h1 : 2 * i + 1 < l.length ∧ olt (lget l (2 * i + 1)).eta (lget l i).eta
  · rw [if_pos h1]
    by_cases h2 : 2 * i + 2 < l.length ∧
        olt (lget l (2 * i + 2)).eta (lget l (2 * i + 1)).eta
    · rw [if_pos h2]
      right
      exact ⟨by omega, h2.1⟩
    · rw [if_neg h2]
      right
      exact ⟨by omega, h1.1⟩
  · rw [if_neg h1]
    by_cases h2 : 2 * i + 2 < l.length ∧ olt (lget l (2 * i + 2)).eta (lget l i).eta
    · rw [if_pos h2]
      right
      exact ⟨by omega, h2.1⟩
    · rw [if_neg h2]
      exact Or.inl rfl

/-- Down-heap walk of heap_pop.  The walked index strictly increases and
stays below the length, so a fuel of length + 1 steps reproduces the loop
exactly. -/
def siftDownF : Nat → List Label → Nat → List Label
  | 0, l, _ => l
  | fuel + 1, l, i =>
    if smallerChild l i = i then l
    else siftDownF fuel (lswap l i (smallerChild l i)) (smallerChild l i)

def siftDown (l : List Label) (i : Nat) : List Label :=
  siftDownF (l.length + 1) l i

/-- Source function heap_pop.  On an empty heap the source returns a sentinel
label; the embedded sentinel carries eta none. -/
def heap_pop (l : List Label) : Label × List Label :=
  if l.length = 0 then (hdef, [])
  else
    let ret := lget l 0
    let l2 := (l.set 0 (lget l (l.length - 1))).dropLast
    (ret, siftDown l2 0)

/-- Source function heap_empty. -/
def heap_empty (l : List Label) : Bool := l.length = 0

/-! ### Heap correctness -/

/-- The binary heap shape invariant: every non-root entry is at least its
parent in the eta order. -/
def IsHeap (l : List Label) : Prop :=
  ∀ k, 0 < k → k < l.length → oleq (lget l ((k - 1) / 2)).eta (lget l k).eta

theorem isHeap_root_min (l : List Label) (hl : IsHeap l) :
    ∀ k, k < l.length → oleq (lget l 0).eta (lget l k).eta := by
  intro k
  induction k using Nat.strong_induction_on with
  | _ k ih =>
    intro hk
    rcases Nat.eq_zero_or_pos k with h0 | h0
    · subst h0
      exact oleq_refl _
    · exact oleq_trans (ih ((k - 1) / 2) (by omega) (by omega)) (hl k h0 hk)

theorem mem_lswap (x : Label) (l : List Label) (i j : Nat)
    (hi : i < l.length) (hj : j < l.length) :
    x ∈ lswap l i j ↔ x ∈ l := by
  constructor
  · intro hx
    rcases (mem_iff_lget x _).mp hx with ⟨k, hk, hv⟩
    rw [lswap_length] at hk
    rw [lget_lswap l i j k hi hj] at hv
    by_cases h1 : k = j
    · rw [if_pos h1] at hv
      exact (mem_iff_lget x l).mpr ⟨i, hi, hv⟩
    · rw [if_neg h1] at hv
      by_cases h2 : k = i
      · rw [if_pos h2] at hv
        exact (mem_iff_lget x l).mpr ⟨j, hj, hv⟩
      · rw [if_neg h2] at hv
        exact (mem_iff_lget x l).mpr ⟨k, hk, hv⟩
  · intro hx
    rcases (mem_iff_lget x l).mp hx with ⟨k, hk, hv⟩
    by_cases h2 : k = i
    · refine (mem_iff_lget x _).mpr ⟨j, by rwa [lswap_length], ?_⟩
      rw [lget_lswap l i j j hi hj, if_pos rfl, ← h2]
      exact hv
    · by_cases h1 : k = j
      · refine (mem_iff_lget x _).mpr ⟨i, by rwa [lswap_length], ?_⟩
        rw [lget_lswap l i j i hi hj]
        by_cases hij : i = j
        · rw [if_pos hij, hij, ← h1]
          exact hv
        · rw [if_neg hij, if_pos rfl, ← h1]
          exact hv
      · refine (mem_iff_lget x _).mpr ⟨k, by rwa [lswap_length], ?_⟩
        rw [lget_lswap l i j k hi hj, if_neg h1, if_neg h2]
        exact hv

theorem siftUpF_succ_rec (fuel : Nat) (l : List Label) (i : Nat) (h0 : i ≠ 0)
    (hlt : olt (lget l i).eta (lget l ((i - 1) / 2)).eta) :
    siftUpF (fuel + 1) l i = siftUpF fuel (lswap l i ((i - 1) / 2)) ((i - 1) / 2) := by
  simp only [siftUpF]
  rw [if_neg h0, if_pos hlt]

theorem siftUpF_succ_stop (fuel : Nat) (l : List Label) (i : Nat) (h0 : i ≠ 0)
    (hlt : ¬ olt (lget l i).eta (lget l ((i - 1) / 2)).eta) :
    siftUpF (fuel + 1) l i = l := by
  simp only [siftUpF]
  rw [if_neg h0, if_neg hlt]

theorem siftUpF_succ_zero (fuel : Nat) (l : List Label) :
    siftUpF (fuel + 1) l 0 = l := by
  simp [siftUpF]

theorem siftUpF_mem (x : Label) :
    ∀ fuel l i, i < fuel → i < l.length → (x ∈ siftUpF fuel l i ↔ x ∈ l) := by
  intro fuel
  induction fuel with
  | zero =>
    intro l i hf
    omega
  | succ fuel ih =>
    intro l i hf hi
    by_cases h0 : i = 0
    · subst h0
      rw [siftUpF_succ_zero]
    · by_cases hlt : olt (lget l i).eta (lget l ((i - 1) / 2)).eta
      · have hp : (i - 1) / 2 < l.length := by omega
        rw [siftUpF_succ_rec fuel l i h0 hlt]
        rw [ih _ _ (by omega) (by rw [lswap_length]; omega)]
        exact mem_lswap x l i ((i - 1) / 2) hi hp
      · rw [siftUpF_succ_stop fuel l i h0 hlt]

theorem siftUp_mem (x : Label) (l : List Label) (i : Nat) :
    i < l.length → (x ∈ siftUp l i ↔ x ∈ l) := by
  intro hi
  exact siftUpF_mem x (i + 1) l i (by omega) hi

theorem siftUpF_length :
    ∀ fuel l i, (siftUpF fuel l i).length = l.length := by
  intro fuel
  induction fuel with
  | zero =>
    intro l i
    simp [siftUpF]
  | succ fuel ih =>
    intro l i
    by_cases h0 : i = 0
    · subst h0
      rw [siftUpF_succ_zero]
    · by_cases hlt : olt (lget l i).eta (lget l ((i - 1) / 2)).eta
      · rw [siftUpF_succ_rec fuel l i h0 hlt, ih, lswap_length]
      · rw [siftUpF_succ_stop fuel l i h0 hlt]

theorem siftUp_length (l : List Label) (i : Nat) :
    (siftUp l i).length = l.length :=
  siftUpF_length (i + 1) l i

/-- Heap except possibly at the edge into position i, plus domination of the
children of i by the parent of i. -/
def UpSafe (l : List Label) (i : Nat) : Prop :=
  (∀ k, 0 < k → k < l.length → k ≠ i →
    oleq (lget l ((k - 1) / 2)).eta (lget l k).eta) ∧
  (0 < i → ∀ c, c < l.length → (c - 1) / 2 = i →
    oleq (lget l ((i - 1) / 2)).eta (lget l c).eta)

theorem siftUpF_isHeap :
    ∀ fuel l i, i < fuel → i < l.length → UpSafe l i →
      IsHeap (siftUpF fuel l i) := by
  intro fuel
  induction fuel with
  | zero =>
    intro l i hf
    omega
  | succ fuel ih =>
    intro l i hf hi hs
    by_cases h0 : i = 0
    · subst h0
      rw [siftUpF_succ_zero]
      intro k hk0 hklen
      exact hs.1 k hk0 hklen (by omega)
    · by_cases hlt : olt (lget l i).eta (lget l ((i - 1) / 2)).eta
      · rw [siftUpF_succ_rec fuel l i h0 hlt]
        have hp : (i - 1) / 2 < l.length := by omega
        have hpi : (i - 1) / 2 < i := by omega
        apply ih
        · omega
        · rw [lswap_length]
          omega
        · -- UpSafe of the swapped array at the parent position
          set p := (i - 1) / 2 with hpdef
          have hval : ∀ k, lget (lswap l i p) k =
              if k = p then lget l i else if k = i then lget l p else lget l k :=
            fun k => lget_lswap l i p k hi hp
          constructor
          · intro k hk0 hklen hkp
            rw [lswap_length] at hklen
            rw [hval k, hval ((k - 1) / 2)]
            by_cases hki : k = i
            · subst hki
              rw [if_pos (show (k - 1) / 2 = p from rfl), if_neg hkp, if_pos rfl]
              exact olt_oleq _ _ hlt
            · rw [if_neg hkp, if_neg hki]
              by_cases hpk_i : (k - 1) / 2 = i
              · rw [if_neg (by omega), if_pos hpk_i]
                exact hs.2 (by omega) k hklen hpk_i
              · by_cases hpk_p : (k - 1) / 2 = p
                · rw [if_pos hpk_p]
                  exact oleq_trans (olt_oleq _ _ hlt)
                    (hpk_p ▸ hs.1 k hk0 hklen hki)
                · rw [if_neg hpk_p, if_neg hpk_i]
                  exact hs.1 k hk0 hklen hki
          · intro hp0 c hc hpc
            rw [lswap_length] at hc
            rw [hval c, hval ((p - 1) / 2)]
            have hppp : (p - 1) / 2 < p := by omega
            rw [if_neg (by omega), if_neg (by omega)]
            have hedge_p : oleq (lget l ((p - 1) / 2)).eta (lget l p).eta :=
              hs.1 p hp0 hp (by omega)
            by_cases hci : c = i
            · rw [if_neg (by omega), if_pos hci]
              exact hedge_p
            · rw [if_neg (by omega), if_neg hci]
              exact oleq_trans hedge_p (hpc ▸ hs.1 c (by omega) hc hci)
      · rw [siftUpF_succ_stop fuel l i h0 hlt]
        intro k hk0 hklen
        by_cases hki : k = i
        · subst hki
          exact not_olt_oleq _ _ hlt
        · exact hs.1 k hk0 hklen hki

theorem siftUp_isHeap (l : List Label) (i : Nat) :
    i < l.length → UpSafe l i → IsHeap (siftUp l i) := by
  intro hi hs
  exact siftUpF_isHeap (i + 1) l i (by omega) hi hs

theorem heap_push_isHeap (l : List Label) (v : Label) (hl : IsHeap l) :
    IsHeap (heap_push l v) := by
  unfold heap_push
  apply siftUp_isHeap
  · simp
  · constructor
    · intro k hk0 hklen hkne
      simp only [List.length_append, List.length_singleton] at hklen
      have hklt : k < l.length := by omega
      have h1 : lget (l ++ [v]) k = lget l k := by
        simp [lget, List.getElem?_append, hklt]
      have h2 : lget (l ++ [v]) ((k - 1) / 2) = lget l ((k - 1) / 2) := by
        have : (k - 1) / 2 < l.length := by omega
        simp [lget, List.getElem?_append, this]
      rw [h1, h2]
      exact hl k hk0 hklt
    · intro hi0 c hc hpc
      simp only [List.length_append, List.length_singleton] at hc
      omega

theorem heap_push_mem (x : Label) (l : List Label) (v : Label) :
    x ∈ heap_push l v ↔ x ∈ l ∨ x = v := by
  unfold heap_push
  rw [siftUp_mem x _ _ (by simp)]
  simp

theorem heap_push_length (l : List Label) (v : Label) :
    (heap_push l v).length = l.length + 1 := by
  unfold heap_push
  rw [siftUp_length]
  simp

theorem siftDownF_succ_stop (fuel : Nat) (l : List Label) (i : Nat)
    (hm : smallerChild l i = i) : siftDownF (fuel + 1) l i = l := by
  simp only [siftDownF]
  rw [if_pos hm]

theorem siftDownF_succ_rec (fuel : Nat) (l : List Label) (i : Nat)
    (hm : smallerChild l i ≠ i) :
    siftDownF (fuel + 1) l i =
      siftDownF fuel (lswap l i (smallerChild l i)) (smallerChild l i) := by
  simp only [siftDownF]
  rw [if_neg hm]

theorem siftDownF_mem (x : Label) :
    ∀ fuel l i, l.length - i < fuel → (x ∈ siftDownF fuel l i ↔ x ∈ l) := by
  intro fuel
  induction fuel with
  | zero =>
    intro l i hf
    omega
  | succ fuel ih =>
    intro l i hf
    by_cases hm : smallerChild l i = i
    · rw [siftDownF_succ_stop fuel l i hm]
    · rcases smallerChild_cases l i with hc | hc
      · exact absurd hc hm
      · rw [siftDownF_succ_rec fuel l i hm]
        rw [ih _ _ (by rw [lswap_length]; omega)]
        exact mem_lswap x l i (smallerChild l i) (by omega) hc.2

theorem siftDown_mem (x : Label) (l : List Label) (i : Nat) :
    x ∈ siftDown l i ↔ x ∈ l :=
  siftDownF_mem x (l.length + 1) l i (by omega)

theorem siftDownF_length :
    ∀ fuel l i, (siftDownF fuel l i).length = l.length := by
  intro fuel
  induction fuel with
  | zero =>
    intro l i
    simp [siftDownF]
  | succ fuel ih =>
    intro l i
    by_cases hm : smallerChild l i = i
    · rw [siftDownF_succ_stop fuel l i hm]
    · rw [siftDownF_succ_rec fuel l i hm, ih, lswap_length]

theorem siftDown_length (l : List Label) (i : Nat) :
    (siftDown l i).length = l.length :=
  siftDownF_length (l.length + 1) l i

theorem length_ne_zero_of_mem {x : Label} {l : List Label} (hx : x ∈ l) :
    l.length ≠ 0 := by
  intro h
  rw [List.length_eq_zero] at h
  subst h
  simp at hx

theorem smallerChild_self_facts (l : List Label) (i : Nat)
    (hm : smallerChild l i = i) :
    ∀ k, k < l.length → (k = 2 * i + 1 ∨ k = 2 * i + 2) →
      oleq (lget l i).eta (lget l k).eta := by
  intro k hk hk2
  unfold smallerChild smallerChild1 at hm
  by_cases h1 : 2 * i + 1 < l.length ∧ olt (lget l (2 * i + 1)).eta (lget l i).eta
  · rw [if_pos h1] at hm
    by_cases h2 : 2 * i + 2 < l.length ∧
        olt (lget l (2 * i + 2)).eta (lget l (2 * i + 1)).eta
    · rw [if_pos h2] at hm
      omega
    · rw [if_neg h2] at hm
      omega
  · rw [if_neg h1] at hm
    by_cases h2 : 2 * i + 2 < l.length ∧ olt (lget l (2 * i + 2)).eta (lget l i).eta
    · rw [if_pos h2] at hm
      omega
    · rcases hk2 with hkl | hkr
      · subst hkl
        have := fun h => h1 ⟨hk, h⟩
        exact not_olt_oleq _ _ this
      · subst hkr
        have := fun h => h2 ⟨hk, h⟩
        exact not_olt_oleq _ _ this

theorem smallerChild_ne_facts (l : List Label) (i : Nat)
    (hm : smallerChild l i ≠ i) :
    i < smallerChild l i ∧ smallerChild l i < l.length ∧
    olt (lget l (smallerChild l i)).eta (lget l i).eta ∧
    (smallerChild l i - 1) / 2 = i ∧
    (∀ s, s < l.length → (s = 2 * i + 1 ∨ s = 2 * i + 2) →
      oleq (lget l (smallerChild l i)).eta (lget l s).eta) := by
  unfold smallerChild smallerChild1 at hm ⊢
  by_cases h1 : 2 * i + 1 < l.length ∧ olt (lget l (2 * i + 1)).eta (lget l i).eta
  · rw [if_pos h1] at hm ⊢
    by_cases h2 : 2 * i + 2 < l.length ∧
        olt (lget l (2 * i + 2)).eta (lget l (2 * i + 1)).eta
    · rw [if_pos h2] at hm ⊢
      refine ⟨by omega, h2.1, olt_oleq_trans h2.2 (olt_oleq _ _ h1.2), by omega, ?_⟩
      intro s hs hs2
      rcases hs2 with h | h <;> subst h
      · exact olt_oleq _ _ h2.2
      · exact oleq_refl _
    · rw [if_neg h2] at hm ⊢
      refine ⟨by omega, h1.1, h1.2, by omega, ?_⟩
      intro s hs hs2
      rcases hs2 with h | h <;> subst h
      · exact oleq_refl _
      · exact not_olt_oleq _ _ (fun h => h2 ⟨hs, h⟩)
  · rw [if_neg h1] at hm ⊢
    by_cases h2 : 2 * i + 2 < l.length ∧ olt (lget l (2 * i + 2)).eta (lget l i).eta
    · rw [if_pos h2] at hm ⊢
      refine ⟨by omega, h2.1, h2.2, by omega, ?_⟩
      intro s hs hs2
      rcases hs2 with h | h <;> subst h
      · exact olt_oleq _ _ (olt_oleq_trans h2.2 (not_olt_oleq _ _ (fun h => h1 ⟨hs, h⟩)))
      · exact oleq_refl _
    · rw [if_neg h2] at hm
      exact absurd rfl hm

/-- Heap except possibly on the edges out of position i, plus domination of
the children of i by the parent of i. -/
def DownSafe (l : List Label) (i : Nat) : Prop :=
  (∀ k, 0 < k → k < l.length → (k - 1) / 2 ≠ i →
    oleq (lget l ((k - 1) / 2)).eta (lget l k).eta) ∧
  (0 < i → ∀ c, c < l.length → (c - 1) / 2 = i →
    oleq (lget l ((i - 1) / 2)).eta (lget l c).eta)

theorem siftDownF_isHeap :
    ∀ fuel l i, l.length - i < fuel → DownSafe l i →
      IsHeap (siftDownF fuel l i) := by
  intro fuel
  induction fuel with
  | zero =>
    intro l i hf
    omega
  | succ fuel ih =>
    intro l i hf hs
    by_cases hm : smallerChild l i = i
    · rw [siftDownF_succ_stop fuel l i hm]
      intro k hk0 hklen
      by_cases hpk : (k - 1) / 2 = i
      · have hk2 : k = 2 * i + 1 ∨ k = 2 * i + 2 := by omega
        rw [hpk]
        exact smallerChild_self_facts l i hm k hklen hk2
      · exact hs.1 k hk0 hklen hpk
    · rw [siftDownF_succ_rec fuel l i hm]
      rcases smallerChild_ne_facts l i hm with ⟨him, hmlen, hmlt, hmpar, hsib⟩
      set m := smallerChild l i with hmdef
      have hi : i < l.length := by omega
      have hval : ∀ k, lget (lswap l i m) k =
          if k = m then lget l i else if k = i then lget l m else lget l k :=
        fun k => lget_lswap l i m k hi hmlen
      apply ih
      · rw [lswap_length]
        omega
      constructor
      · intro k hk0 hklen hpk
        rw [lswap_length] at hklen
        rw [hval k, hval ((k - 1) / 2)]
        by_cases hkm : k = m
        · subst hkm
          rw [if_pos rfl, hmpar, if_neg (by omega), if_pos rfl]
          exact olt_oleq _ _ hmlt
        · rw [if_neg hkm]
          by_cases hki : k = i
          · subst hki
            have hk0' : 0 < k := hk0
            rw [if_pos rfl, if_neg (by omega), if_neg (by omega)]
            exact hs.2 hk0 m hmlen hmpar
          · rw [if_neg hki]
            by_cases hpki : (k - 1) / 2 = i
            · rw [if_neg (by omega), if_pos hpki]
              have hk2 : k = 2 * i + 1 ∨ k = 2 * i + 2 := by omega
              exact hsib k hklen hk2
            · rw [if_neg hpk, if_neg hpki]
              exact hs.1 k hk0 hklen hpki
      · intro hm0 c hc hpc
        rw [lswap_length] at hc
        rw [hval c, hval ((m - 1) / 2), hmpar]
        rw [if_neg (by omega), if_pos rfl]
        have hcm : c ≠ m := by omega
        have hci : c ≠ i := by omega
        rw [if_neg hcm, if_neg hci]
        have hedge := hs.1 c (by omega) hc (by omega)
        rw [hpc] at hedge
        exact hedge

theorem siftDown_isHeap (l : List Label) (i : Nat) :
    DownSafe l i → IsHeap (siftDown l i) := fun hs =>
  siftDownF_isHeap (l.length + 1) l i (by omega) hs

theorem lget_popbody (l : List Label) (w : Label) (k : Nat) (hk : k < l.length - 1) :
    lget ((l.set 0 w).dropLast) k = if k = 0 then w else lget l k := by
  have h1 : ((l.set 0 w).dropLast)[k]? = (l.set 0 w)[k]? := by
    rw [List.getElem?_dropLast, if_pos (by simpa using hk)]
  unfold lget
  rw [h1, List.getElem?_set]
  by_cases hk0 : k = 0
  · rw [if_pos hk0.symm, if_pos (by omega), if_pos hk0]
    rfl
  · rw [if_neg (fun h => hk0 h.symm), if_neg hk0]

theorem heap_pop_isHeap (l : List Label) (hl : IsHeap l) :
    IsHeap (heap_pop l).2 := by
  unfold heap_pop
  by_cases hemp : l.length = 0
  · simp only [if_pos hemp]
    intro k hk0 hklen
    simp at hklen
  · simp only [if_neg hemp]
    apply siftDown_isHeap
    constructor
    · intro k hk0 hklen hpk
      have hlen2 : ((l.set 0 (lget l (l.length - 1))).dropLast).length = l.length - 1 := by
        simp
      rw [hlen2] at hklen
      rw [lget_popbody l _ k hklen, if_neg (by omega : ¬ k = 0),
        lget_popbody l _ ((k - 1) / 2) (by omega), if_neg hpk]
      exact hl k hk0 (by omega)
    · intro h0
      omega

theorem heap_pop_length (l : List Label) (h : l.length ≠ 0) :
    (heap_pop l).2.length = l.length - 1 := by
  unfold heap_pop
  rw [if_neg h]
  simp only
  rw [siftDown_length]
  simp

theorem heap_pop_fst (l : List Label) (h : l.length ≠ 0) :
    (heap_pop l).1 = lget l 0 := by
  unfold heap_pop
  rw [if_neg h]

theorem heap_pop_fst_mem (l : List Label) (h : l.length ≠ 0) :
    (heap_pop l).1 ∈ l := by
  rw [heap_pop_fst l h]
  exact (mem_iff_lget _ l).mpr ⟨0, by omega, rfl⟩

theorem heap_pop_min (l : List Label) (hl : IsHeap l) (h : l.length ≠ 0) :
    ∀ x ∈ l, oleq (heap_pop l).1.eta x.eta := by
  intro x hx
  rcases (mem_iff_lget x l).mp hx with ⟨k, hk, hv⟩
  rw [heap_pop_fst l h, ← hv]
  exact isHeap_root_min l hl k hk

theorem heap_pop_mem (x : Label) (l : List Label) (hx : x ∈ l) :
    x = (heap_pop l).1 ∨ x ∈ (heap_pop l).2 := by
  unfold heap_pop
  have hne : l.length ≠ 0 := by
    intro h
    rw [List.length_eq_zero] at h
    subst h
    simp at hx
  rw [if_neg hne]
  rcases (mem_iff_lget x l).mp hx with ⟨k, hk, hv⟩
  by_cases hk0 : k = 0
  · subst hk0
    left
    exact hv.symm
  · right
    rw [siftDown_mem]
    by_cases hklast : k = l.length - 1
    · refine (mem_iff_lget x _).mpr ⟨0, by simp; omega, ?_⟩
      rw [lget_popbody l _ 0 (by omega), if_pos rfl, ← hklast]
      exact hv
    · refine (mem_iff_lget x _).mpr ⟨k, by simp; omega, ?_⟩
      rw [lget_popbody l _ k (by omega), if_neg hk0]
      exact hv

theorem heap_pop_subset (x : Label) (l : List Label)
    (hx : x ∈ (heap_pop l).2) : x ∈ l := by
  unfold heap_pop at hx
  by_cases hemp : l.length = 0
  · rw [if_pos hemp] at hx
    simp at hx
  · rw [if_neg hemp] at hx
    simp only at hx
    rw [siftDown_mem] at hx
    rcases (mem_iff_lget x _).mp hx with ⟨k, hk, hv⟩
    have hklen : k < l.length - 1 := by
      simpa using hk
    rw [lget_popbody l _ k hklen] at hv
    by_cases hk0 : k = 0
    · rw [if_pos hk0] at hv
      exact (mem_iff_lget x l).mpr ⟨l.length - 1, by omega, hv⟩
    · rw [if_neg hk0] at hv
      exact (mem_iff_lget x l).mpr ⟨k, by omega, hv⟩

/-! ### Neighbor index, source function build_neighbor_index -/

/-- Default contact for out of range reads. -/
def cdef : Contact := ⟨0, 0, 0, 0, 0, 0, 0, 0, 0⟩

/-- Read C[i]. -/
def cget (C : List Contact) (i : Nat) : Contact := C.getD i cdef

/-- Largest node number appearing in the plan, the maxNode loop of
build_neighbor_index. -/
def maxNode (C : List Contact) : Int :=
  C.foldl (fun m c => max3 m c.cfrom c.cto) 0

/-- The grouping loop of build_neighbor_index: append each contact index to
the slot of its origin node, skipping out of range origins. -/
def fillIndex (C : List Contact) (cap : Nat) :
    List Nat → List (List Nat) → List (List Nat)
  | [], tbl => tbl
  | i :: rest, tbl =>
    let f := (cget C i).cfrom
    if f < 0 ∨ (cap : Int) ≤ f then fillIndex C cap rest tbl
    else fillIndex C cap rest (tbl.set f.toNat (tbl.getD f.toNat [] ++ [i]))

/-- Source function build_neighbor_index.  Returns none exactly when the
source returns NULL for an empty plan.  Allocation failures are not modelled. -/
def build_neighbor_index (C : List Contact) : Option NeighborIndex :=
  if C.length = 0 then none
  else
    let cap := (maxNode C + 1).toNat
    some ⟨fillIndex C cap (List.range C.length) (List.replicate cap []), cap⟩

/-- Read by_from[n]. -/
def byFromGet (ni : NeighborIndex) (n : Nat) : List Nat := ni.by_from.getD n []

/-! ### Filters and forced prefix helpers -/

/-- Source function is_banned_id. -/
def is_banned_id (id : Int) (F : Option CgrFilters) : Bool :=
  match F with
  | none => false
  | some f => f.banned_ids.contains id

/-- Source function forced_id_at with its -1 sentinel for an absent entry. -/
def forced_id_at (F : Option CgrFilters) (k : Nat) : Int :=
  match F with
  | none => -1
  | some f =>
    if f.forced_prefix_ids = [] then -1
    else if k < f.forced_prefix_ids.length then f.forced_prefix_ids.getD k (-1)
    else -1

/-- Back-pointer walk shared by compute_prefix_done (with its 10000 element
cycle cap) and by the route reconstruction loop: the visited contact indices
starting at the given position, following prev_idx until the root. -/
def walkPrev (lab : List Label) : Nat → Option Nat → List Nat
  | _, none => []
  | 0, some _ => []
  | fuel + 1, some j => j :: walkPrev lab fuel (lget lab j).prev_idx

/-- The matched counting loop of compute_prefix_done. -/
def countMatch : List Int → List Int → Nat
  | a :: as, b :: bs => if a = b then countMatch as bs + 1 else 0
  | _, _ => 0

/-- Source function compute_prefix_done. -/
def compute_prefix_done (ci : Nat) (lab : List Label) (C : List Contact)
    (F : Option CgrFilters) : Nat :=
  match F with
  | none => 0
  | some f =>
    if f.forced_prefix_ids = [] then 0
    else
      countMatch
        (((walkPrev lab 10001 (some ci)).reverse).map (fun j => (cget C j).id))
        f.forced_prefix_ids

/-! ### The filtered search, source function cgr_best_route_filtered -/

/-- The empty route every failure path of the source returns (eta field
DBL_MAX, modelled none). -/
def routeEmpty : Route := ⟨[], 0, none, false⟩

/-- Seeding loop for the forced prefix mode: find the first contact with the
first forced id leaving the source node that is viable, and its eta. -/
def findSeed (C : List Contact) (P : CgrParams) (F : Option CgrFilters)
    (expiry_abs : ℚ) (first_id : Int) : List Nat → Option (Nat × ℚ)
  | [] => none
  | ci :: rest =>
    let c := cget C ci
    if c.id ≠ first_id then findSeed C P F expiry_abs first_id rest
    else if c.cfrom ≠ P.src_node then findSeed C P F expiry_abs first_id rest
    else if is_banned_id c.id F then findSeed C P F expiry_abs first_id rest
    else if ¬ contact_is_viable c P.t0 P.bundle_bytes then
      findSeed C P F expiry_abs first_id rest
    else
      match eta_contact c P.t0 P.bundle_bytes expiry_abs with
      | none => findSeed C P F expiry_abs first_id rest
      | some eta => some (ci, eta)

/-- Seeding loop for the normal mode over by_from[src_node]. -/
def seedNormal (C : List Contact) (P : CgrParams) (F : Option CgrFilters)
    (expiry_abs : ℚ) : List Nat → List Label × List Label →
    List Label × List Label
  | [], s => s
  | ci :: rest, (lab, pq) =>
    let c := cget C ci
    if is_banned_id c.id F then seedNormal C P F expiry_abs rest (lab, pq)
    else if ¬ contact_is_viable c P.t0 P.bundle_bytes then
      seedNormal C P F expiry_abs rest (lab, pq)
    else
      match eta_contact c P.t0 P.bundle_bytes expiry_abs with
      | none => seedNormal C P F expiry_abs rest (lab, pq)
      | some eta =>
        if olt (some eta) (lget lab ci).eta then
          seedNormal C P F expiry_abs rest
            (lab.set ci ⟨ci, some eta, none⟩,
              heap_push pq ⟨ci, some eta, none⟩)
        else seedNormal C P F expiry_abs rest (lab, pq)

/-- The need_forced_next computation of the expansion. -/
def neededForced (F : Option CgrFilters) (prefix_done : Nat) : Int :=
  match F with
  | none => -1
  | some f =>
    if f.forced_prefix_ids ≠ [] ∧ prefix_done < f.forced_prefix_ids.length then
      forced_id_at F prefix_done
    else -1

/-- Relaxation of the successors of the popped contact ci arrived at
eta_here. -/
def expandList (C : List Contact) (P : CgrParams) (F : Option CgrFilters)
    (expiry_abs : ℚ) (eta_here : ℚ) (ci : Nat) (need : Int) :
    List Nat → List Label × List Label → List Label × List Label
  | [], s => s
  | nj :: rest, (lab, pq) =>
    let c := cget C nj
    if need ≠ -1 ∧ c.id ≠ need then
      expandList C P F expiry_abs eta_here ci need rest (lab, pq)
    else if is_banned_id c.id F then
      expandList C P F expiry_abs eta_here ci need rest (lab, pq)
    else if ¬ contact_is_viable c eta_here P.bundle_bytes then
      expandList C P F expiry_abs eta_here ci need rest (lab, pq)
    else
      match eta_contact c eta_here P.bundle_bytes expiry_abs with
      | none => expandList C P F expiry_abs eta_here ci need rest (lab, pq)
      | some eta_n =>
        if olt (some (eta_n + EPS_TIME)) (lget lab nj).eta then
          expandList C P F expiry_abs eta_here ci need rest
            (lab.set nj ⟨nj, some eta_n, some ci⟩,
              heap_push pq ⟨nj, some eta_n, some ci⟩)
        else expandList C P F expiry_abs eta_here ci need rest (lab, pq)

/-- Completion test of the forced prefix used at the destination check. -/
def prefixComplete (F : Option CgrFilters) (prefix_done : Nat) : Prop :=
  match F with
  | none => True
  | some f => f.forced_prefix_ids = [] ∨ f.forced_prefix_ids.length ≤ prefix_done

instance : ∀ (F : Option CgrFilters) (n : Nat), Decidable (prefixComplete F n)
  | none, _ => Decidable.isTrue trivial
  | some f, n =>
    inferInstanceAs
      (Decidable (f.forced_prefix_ids = [] ∨ f.forced_prefix_ids.length ≤ n))

/-- The temporal Dijkstra main loop.  The source loop runs until the heap is
exhausted; the embedding carries a fuel counter large enough that under the
data model invariants the heap always empties first. -/
def searchLoop (C : List Contact) (P : CgrParams) (NI : NeighborIndex)
    (F : Option CgrFilters) (expiry_abs : ℚ) :
    Nat → List Label → List Label → List Label × Option (Nat × Option ℚ)
  | 0, lab, _ => (lab, none)
  | fuel + 1, lab, pq =>
    if pq.length = 0 then (lab, none)
    else
      let cur := (heap_pop pq).1
      let pq2 := (heap_pop pq).2
      let ci := cur.contact_idx
      if olt (Option.map (· + EPS_TIME) (lget lab ci).eta) cur.eta then
        searchLoop C P NI F expiry_abs fuel lab pq2
      else
        let prefix_done := compute_prefix_done ci lab C F
        if (cget C ci).cto = P.dst_node ∧ prefixComplete F prefix_done then
          (lab, some (ci, cur.eta))
        else
          let next_node := (cget C ci).cto
          if next_node < 0 ∨ (NI.node_cap : Int) ≤ next_node then
            searchLoop C P NI F expiry_abs fuel lab pq2
          else
            match cur.eta with
            | none => searchLoop C P NI F expiry_abs fuel lab pq2
            | some eta_here =>
              let st := expandList C P F expiry_abs eta_here ci
                (neededForced F prefix_done)
                (byFromGet NI next_node.toNat) (lab, pq2)
              searchLoop C P NI F expiry_abs fuel st.1 st.2

/-- Fuel bound for the main loop, generous over the push count bound. -/
def searchFuel (C : List Contact) : Nat := (C.length + 2) * (C.length + 2)

/-- The expiry_abs local of cgr_best_route_filtered. -/
def expiryAbs (P : CgrParams) : ℚ :=
  if P.expiry > 0 then P.t0 + P.expiry else 0

/-- The initial label array: one label per contact, eta DBL_MAX, no
predecessor. -/
def lab0 (C : List Contact) : List Label :=
  (List.range C.length).map (fun i => (⟨i, none, none⟩ : Label))

/-- The seeding phase of cgr_best_route_filtered: forced prefix mode seeds
the single first forced contact, normal mode relaxes every contact leaving
the source node. -/
def searchSeed (C : List Contact) (P : CgrParams) (ni : NeighborIndex)
    (F : Option CgrFilters) : List Label × List Label :=
  if (match F with
    | none => false
    | some f => !f.forced_prefix_ids.isEmpty) then
    match findSeed C P F (expiryAbs P) (forced_id_at F 0)
        (List.range C.length) with
    | none => (lab0 C, [])
    | some (ci, eta) =>
      ((lab0 C).set ci ⟨ci, some eta, none⟩, heap_push [] ⟨ci, some eta, none⟩)
  else
    seedNormal C P F (expiryAbs P) (byFromGet ni P.src_node.toNat) (lab0 C, [])

/-- Route reconstruction by backtracking prev_idx from the final contact,
reversing to root first order and mapping to ids. -/
def reconstructRoute (C : List Contact) (labF : List Label) (ci : Nat)
    (e : Option ℚ) : Route :=
  { contact_ids :=
      ((walkPrev labF (C.length + 1) (some ci)).reverse).map
        (fun j => (cget C j).id)
    hops := (walkPrev labF (C.length + 1) (some ci)).length
    eta := e
    found := true }

/-- Source function cgr_best_route_filtered. -/
def cgr_best_route_filtered (C : List Contact) (P : CgrParams)
    (NI : Option NeighborIndex) (F : Option CgrFilters) : Route :=
  match NI with
  | none => routeEmpty
  | some ni =>
    if C.length = 0 then routeEmpty
    else if P.src_node < 0 ∨ (ni.node_cap : Int) ≤ P.src_node then routeEmpty
    else if P.dst_node < 0 ∨ (ni.node_cap : Int) ≤ P.dst_node then routeEmpty
    else
      match searchLoop C P ni F (expiryAbs P) (searchFuel C)
          (searchSeed C P ni F).1 (searchSeed C P ni F).2 with
      | (_, none) => routeEmpty
      | (labF, some (ci, e)) => reconstructRoute C labF ci e

/-- Source function cgr_best_route. -/
def cgr_best_route (C : List Contact) (P : CgrParams)
    (NI : Option NeighborIndex) : Route :=
  cgr_best_route_filtered C P NI none

/-! ### K routes by consumption, source functions consume_capacity and
cgr_k_routes -/

/-- The saturating subtraction of consume_capacity: subtract if enough
remains, else clamp to zero. -/
def satSub (r bytes : ℚ) : ℚ :=
  if r ≥ bytes then r - bytes else 0

/-- Inner search of consume_capacity: subtract bytes, saturating at zero,
from the first contact whose id matches. -/
def consumeOne (bytes : ℚ) (id : Int) : List Contact → List Contact
  | [] => []
  | c :: rest =>
    if c.id = id then
      { c with residual_bytes := satSub c.residual_bytes bytes } :: rest
    else c :: consumeOne bytes id rest

/-- Source function consume_capacity. -/
def consume_capacity (C : List Contact) (route : Route) (P : CgrParams) :
    List Contact :=
  if ¬ route.found ∨ route.hops = 0 then C
  else (route.contact_ids.take route.hops).foldl
    (fun W id => consumeOne P.bundle_bytes id W) C

/-- Iteration of cgr_k_routes on the working copy; returns the collected
routes and the final state of the working copy. -/
def kRoutesIter (P : CgrParams) (NI : Option NeighborIndex) :
    Nat → List Contact → List Route → List Route × List Contact
  | 0, W, acc => (acc, W)
  | k + 1, W, acc =>
    let r := cgr_best_route W P NI
    if ¬ r.found then (acc, W)
    else kRoutesIter P NI k (consume_capacity W r P) (acc ++ [r])

/-- Source function cgr_k_routes. -/
def cgr_k_routes (C : List Contact) (P : CgrParams)
    (NI : Option NeighborIndex) (K : Int) : Routes :=
  if K ≤ 0 ∨ NI = none then ⟨[]⟩
  else ⟨(kRoutesIter P NI K.toNat C []).1⟩

/-! ### K routes Yen-lite, source functions route_already_exists and
cgr_k_yen -/

/-- Source function route_already_exists. -/
def route_already_exists (rs : List Route) (cand : Route) : Bool :=
  rs.any (fun ex =>
    ex.hops = cand.hops ∧
      (List.range ex.hops).all
        (fun j => ex.contact_ids.getD j 0 = cand.contact_ids.getD j 0))

/-- eta of the running best candidate, DBL_MAX (none) when absent. -/
def bestEta : Option Route → Option ℚ
  | none => none
  | some r => r.eta

/-- The diversion candidate of cgr_k_yen for reference route ref at position
i: forced prefix of the first i ids and a ban on the id at position i. -/
def yenCand (C : List Contact) (P : CgrParams) (NI : Option NeighborIndex)
    (ref : Route) (i : Nat) : Route :=
  cgr_best_route_filtered C P NI
    (some ⟨[ref.contact_ids.getD i 0], ref.contact_ids.take i⟩)

/-- Scan of diversion positions of one reference route. -/
def yenScanPos (C : List Contact) (P : CgrParams) (NI : Option NeighborIndex)
    (out : List Route) (ref : Route) :
    List Nat → Option Route → Option Route
  | [], best => best
  | i :: rest, best =>
    if ¬ (yenCand C P NI ref i).found then yenScanPos C P NI out ref rest best
    else if route_already_exists out (yenCand C P NI ref i) then
      yenScanPos C P NI out ref rest best
    else if olt (yenCand C P NI ref i).eta (bestEta best) then
      yenScanPos C P NI out ref rest (some (yenCand C P NI ref i))
    else yenScanPos C P NI out ref rest best

/-- Scan of all reference routes of one round. -/
def yenScanRoutes (C : List Contact) (P : CgrParams)
    (NI : Option NeighborIndex) (out : List Route) :
    List Route → Option Route → Option Route
  | [], best => best
  | ref :: rest, best =>
    yenScanRoutes C P NI out rest
      (yenScanPos C P NI out ref (List.range ref.hops) best)

/-- Outer rounds of cgr_k_yen, bounded by max_attempts = K * 20. -/
def yenRounds (C : List Contact) (P : CgrParams) (NI : Option NeighborIndex)
    (K : Nat) : Nat → List Route → List Route
  | 0, out => out
  | att + 1, out =>
    if K ≤ out.length then out
    else
      match yenScanRoutes C P NI out out none with
      | none => out
      | some best => yenRounds C P NI K att (out ++ [best])

/-- Source function cgr_k_yen. -/
def cgr_k_yen (C : List Contact) (P : CgrParams)
    (NI : Option NeighborIndex) (K : Int) : Routes :=
  if K ≤ 0 ∨ NI = none then ⟨[]⟩
  else
    let base := cgr_best_route_filtered C P NI none
    if ¬ base.found then ⟨[]⟩
    else ⟨yenRounds C P NI K.toNat (K * 20).toNat [base]⟩

/-! ### Instrumented shadow of cgr_k_yen counting the invocations of the
filtered search (component D) made by the attempts loop, and the number of
outer attempt rounds -/

/-- Total hop count of a list of routes. -/
def hopSum (rs : List Route) : Nat := (rs.map (fun r => r.hops)).sum

/-- yenScanPos paired with the number of filtered searches it performs: the
loop body invokes cgr_best_route_filtered once per position. -/
def yenScanPosC (C : List Contact) (P : CgrParams) (NI : Option NeighborIndex)
    (out : List Route) (ref : Route) :
    List Nat → Option Route → Option Route × Nat
  | [], best => (best, 0)
  | i :: rest, best =>
    if ¬ (yenCand C P NI ref i).found then
      ((yenScanPosC C P NI out ref rest best).1,
        (yenScanPosC C P NI out ref rest best).2 + 1)
    else if route_already_exists out (yenCand C P NI ref i) then
      ((yenScanPosC C P NI out ref rest best).1,
        (yenScanPosC C P NI out ref rest best).2 + 1)
    else if olt (yenCand C P NI ref i).eta (bestEta best) then
      ((yenScanPosC C P NI out ref rest (some (yenCand C P NI ref i))).1,
        (yenScanPosC C P NI out ref rest (some (yenCand C P NI ref i))).2 + 1)
    else
      ((yenScanPosC C P NI out ref rest best).1,
        (yenScanPosC C P NI out ref rest best).2 + 1)

/-- yenScanRoutes paired with its filtered search count. -/
def yenScanRoutesC (C : List Contact) (P : CgrParams)
    (NI : Option NeighborIndex) (out : List Route) :
    List Route → Option Route → Option Route × Nat
  | [], best => (best, 0)
  | ref :: rest, best =>
    ((yenScanRoutesC C P NI out rest
        (yenScanPosC C P NI out ref (List.range ref.hops) best).1).1,
      (yenScanPosC C P NI out ref (List.range ref.hops) best).2 +
        (yenScanRoutesC C P NI out rest
          (yenScanPosC C P NI out ref (List.range ref.hops) best).1).2)

/-- yenRounds paired with (filtered search count, outer rounds executed). -/
def yenRoundsC (C : List Contact) (P : CgrParams) (NI : Option NeighborIndex)
    (K : Nat) : Nat → List Route → List Route × Nat × Nat
  | 0, out => (out, 0, 0)
  | att + 1, out =>
    if K ≤ out.length then (out, 0, 0)
    else
      match yenScanRoutesC C P NI out out none with
      | (none, d) => (out, d, 1)
      | (some best, d) =>
        ((yenRoundsC C P NI K att (out ++ [best])).1,
          d + (yenRoundsC C P NI K att (out ++ [best])).2.1,
          1 + (yenRoundsC C P NI K att (out ++ [best])).2.2)

/-- Number of invocations of cgr_best_route_filtered performed by the
attempts loop of cgr_k_yen (beyond the base route invocation). -/
def cgr_k_yen_dcalls (C : List Contact) (P : CgrParams)
    (NI : Option NeighborIndex) (K : Int) : Nat :=
  if K ≤ 0 ∨ NI = none then 0
  else
    if ¬ (cgr_best_route_filtered C P NI none).found then 0
    else (yenRoundsC C P NI K.toNat (K * 20).toNat
      [cgr_best_route_filtered C P NI none]).2.1

/-- Number of outer attempt rounds executed by cgr_k_yen. -/
def cgr_k_yen_rounds (C : List Contact) (P : CgrParams)
    (NI : Option NeighborIndex) (K : Int) : Nat :=
  if K ≤ 0 ∨ NI = none then 0
  else
    if ¬ (cgr_best_route_filtered C P NI none).found then 0
    else (yenRoundsC C P NI K.toNat (K * 20).toNat
      [cgr_best_route_filtered C P NI none]).2.2

/-! ### Basic facts about the arithmetic helpers -/

theorem if_lt_eq_max (t s : ℚ) : (if t < s then s else t) = max t s := by
  by_cases h : t < s
  · rw [if_pos h, max_eq_right (le_of_lt h)]
  · rw [if_neg h, max_eq_left (le_of_not_lt h)]

theorem if_gt_eq_max (r : ℚ) : (if r > 1 then r else 1) = max r 1 := by
  by_cases h : r > 1
  · rw [if_pos h, max_eq_left (le_of_lt h)]
  · rw [if_neg h, max_eq_right (le_of_not_lt h)]

theorem if_lt_eq_min (a b : ℚ) : (if a < b then a else b) = min a b := by
  by_cases h : a < b
  · rw [if_pos h, min_eq_left (le_of_lt h)]
  · rw [if_neg h, min_eq_right (le_of_not_lt h)]

theorem eps_time_pos : (0 : ℚ) < EPS_TIME := by norm_num [EPS_TIME]

theorem eps_bytes_pos : (0 : ℚ) < EPS_BYTES := by norm_num [EPS_BYTES]

/-! ### Claim C2: characterisation of the single hop evaluation -/

/-- The effective transmission window of section 4.C of the spec. -/
def effWindow (c : Contact) (t_in : ℚ) : ℚ :=
  c.t_end - max t_in c.t_start - c.setup_s

/-- The eta formula of section 4.C of the spec. -/
def spec4C_eta (c : Contact) (t_in B : ℚ) : ℚ :=
  max t_in c.t_start + c.setup_s + B / max c.rate_bps 1 + c.owlt

/-- The feasibility conditions of claim C2 exactly as the claim states them,
with a positive effective window. -/
def claimC2_feasible (c : Contact) (t_in B expiry_abs : ℚ) : Prop :=
  0 < effWindow c t_in ∧
  B ≤ min c.residual_bytes (effWindow c t_in * max c.rate_bps 1) + EPS_BYTES ∧
  max t_in c.t_start + c.setup_s + B / max c.rate_bps 1 ≤ c.t_end + EPS_TIME ∧
  (0 < expiry_abs → spec4C_eta c t_in B ≤ expiry_abs + EPS_TIME)

instance (c : Contact) (t B e : ℚ) : Decidable (claimC2_feasible c t B e) :=
  inferInstanceAs (Decidable (_ ∧ _ ∧ _ ∧ _))

/-- The amended feasibility conditions: the effective window must exceed
EPS_TIME, not merely be positive. -/
def spec4C_feasible (c : Contact) (t_in B expiry_abs : ℚ) : Prop :=
  EPS_TIME < effWindow c t_in ∧
  B ≤ min c.residual_bytes (effWindow c t_in * max c.rate_bps 1) + EPS_BYTES ∧
  max t_in c.t_start + c.setup_s + B / max c.rate_bps 1 ≤ c.t_end + EPS_TIME ∧
  (0 < expiry_abs → spec4C_eta c t_in B ≤ expiry_abs + EPS_TIME)

instance (c : Contact) (t B e : ℚ) : Decidable (spec4C_feasible c t B e) :=
  inferInstanceAs (Decidable (_ ∧ _ ∧ _ ∧ _))

theorem start_tx_eq_max (c : Contact) (t : ℚ) : start_tx c t = max t c.t_start :=
  if_lt_eq_max t c.t_start

theorem rate_floor_eq_max (c : Contact) : rate_floor c = max c.rate_bps 1 :=
  if_gt_eq_max c.rate_bps

theorem rate_floor_pos (c : Contact) : 0 < rate_floor c := by
  rw [rate_floor_eq_max]
  have : (0 : ℚ) < 1 := one_pos
  exact lt_of_lt_of_le this (le_max_right _ _)

theorem rate_floor_ge_one (c : Contact) : 1 ≤ rate_floor c := by
  rw [rate_floor_eq_max]
  exact le_max_right _ _

theorem window_of_eq (c : Contact) (t : ℚ) :
    window_of c t = effWindow c t := by
  unfold window_of effWindow
  rw [start_tx_eq_max]

theorem finish_owlt_eq (c : Contact) (t B : ℚ) :
    finish_of c t B + c.owlt = spec4C_eta c t B := by
  unfold finish_of spec4C_eta tx_time
  rw [start_tx_eq_max, rate_floor_eq_max]

/-- The full characterisation of eta_contact: with a nonnegative setup time,
a nonnegative residual and a bundle larger than the byte tolerance, the
source returns the section 4.C formula exactly when the amended feasibility
conditions hold, and the infeasible sentinel otherwise. -/
theorem eta_contact_characterisation (c : Contact) (t B e : ℚ)
    (hsetup : 0 ≤ c.setup_s) (hres : 0 ≤ c.residual_bytes)
    (hB : EPS_BYTES < B) :
    eta_contact c t B e =
      if spec4C_feasible c t B e then some (spec4C_eta c t B) else none := by
  have hW : window_of c t = effWindow c t := window_of_eq c t
  have hst : start_tx c t = max t c.t_start := start_tx_eq_max c t
  have hrf : rate_floor c = max c.rate_bps 1 := rate_floor_eq_max c
  have hfin : finish_of c t B + c.owlt = spec4C_eta c t B := finish_owlt_eq c t B
  have hfin2 : finish_of c t B = max t c.t_start + c.setup_s + B / max c.rate_bps 1 := by
    unfold finish_of tx_time
    rw [hst, hrf]
  have htmax : t ≤ max t c.t_start := le_max_left _ _
  have heps : (0 : ℚ) < EPS_TIME := eps_time_pos
  by_cases hF : spec4C_feasible c t B e
  · rw [if_pos hF]
    rcases hF with ⟨h1, h2, h3, h4⟩
    have ht1 : ¬ t > c.t_end + EPS_TIME := by
      unfold effWindow at h1
      simp only [not_lt]
      linarith
    have havail : available_bytes_window c t = effWindow c t * max c.rate_bps 1 := by
      unfold available_bytes_window
      rw [if_neg ht1, hW, hrf, if_neg (by linarith)]
    have hcap : cap_of c t = min c.residual_bytes (effWindow c t * max c.rate_bps 1) := by
      unfold cap_of
      rw [havail, if_lt_eq_min]
    unfold eta_contact
    rw [if_neg ht1, hcap, if_neg (by linarith), hfin2, if_neg (by linarith)]
    rw [← hfin2]
    rw [if_neg ?_, hfin]
    intro hcon
    rcases hcon with ⟨he, hgt⟩
    rw [hfin] at hgt
    have := h4 he
    linarith
  · rw [if_neg hF]
    by_cases h1 : EPS_TIME < effWindow c t
    · by_cases ht1 : t > c.t_end + EPS_TIME
      · unfold eta_contact
        rw [if_pos ht1]
      · have havail : available_bytes_window c t =
            effWindow c t * max c.rate_bps 1 := by
          unfold available_bytes_window
          rw [if_neg ht1, hW, hrf, if_neg (by linarith)]
        have hcap : cap_of c t =
            min c.residual_bytes (effWindow c t * max c.rate_bps 1) := by
          unfold cap_of
          rw [havail, if_lt_eq_min]
        by_cases h2 : B ≤ min c.residual_bytes
            (effWindow c t * max c.rate_bps 1) + EPS_BYTES
        · by_cases h3 : max t c.t_start + c.setup_s + B / max c.rate_bps 1 ≤
              c.t_end + EPS_TIME
          · -- only the expiry test can fail
            have h4 : ¬ (0 < e → spec4C_eta c t B ≤ e + EPS_TIME) := by
              intro hcon
              exact hF ⟨h1, h2, h3, hcon⟩
            push_neg at h4
            unfold eta_contact
            rw [if_neg ht1, hcap, if_neg (by linarith), hfin2,
              if_neg (by linarith), ← hfin2, if_pos ?_]
            refine ⟨h4.1, ?_⟩
            rw [hfin]
            exact h4.2
          · unfold eta_contact
            rw [if_neg ht1, hcap, if_neg (by linarith), hfin2, if_pos (by linarith)]
        · unfold eta_contact
          rw [if_neg ht1, hcap, if_pos (by linarith)]
    · -- window at most EPS_TIME: the capacity test of the source fires
      by_cases ht1 : t > c.t_end + EPS_TIME
      · unfold eta_contact
        rw [if_pos ht1]
      · have havail : available_bytes_window c t = 0 := by
          unfold available_bytes_window
          rw [if_neg ht1, hW, if_pos (by linarith)]
        have hcap : cap_of c t = 0 := by
          unfold cap_of
          rw [havail, if_lt_eq_min, min_eq_right hres]
        unfold eta_contact
        rw [if_neg ht1, hcap, if_pos (by linarith)]

/-- Boundary contact for claim C2: its effective window from arrival zero is
exactly EPS_TIME, positive but not above the tolerance, while its rate is
large enough that one byte fits. -/
def c2ex : Contact :=
  ⟨1, 0, 1, 0, 1 / 1000000000000, 0, 1000000000000, 0, 1000000⟩

/-- Claim C2, counterexample: a contact satisfying every condition of the
claim as stated (positive effective window, enough capacity, finish and
expiry within tolerance, all data model invariants) for which eta_contact
nevertheless reports infeasible, because the source requires the effective
window to exceed EPS_TIME, not merely to be positive. -/
theorem claim_C2_counterexample :
    claimC2_feasible c2ex 0 1 0 ∧
    c2ex.t_start < c2ex.t_end ∧ 0 ≤ c2ex.owlt ∧ 0 ≤ c2ex.setup_s ∧
    0 < c2ex.rate_bps ∧ 0 ≤ c2ex.residual_bytes ∧ EPS_BYTES < 1 ∧
    eta_contact c2ex 0 1 0 = none := by
  decide

/-- Claim C2 (amended): for a contact with nonnegative setup time and
residual capacity and a bundle above the byte tolerance, the single hop
evaluation returns max(t_in, t_start) + setup_s + B / max(rate_bps, 1) + owlt
exactly when the effective window exceeds eps_time (amended from: is
positive), the capacity test, the finish test and the expiry test of section
4.C hold, and reports infeasible otherwise. -/
theorem claim_C2_theorem (c : Contact) (t B e : ℚ)
    (hsetup : 0 ≤ c.setup_s) (hres : 0 ≤ c.residual_bytes)
    (hB : EPS_BYTES < B) :
    eta_contact c t B e =
      if spec4C_feasible c t B e then some (spec4C_eta c t B) else none :=
  eta_contact_characterisation c t B e hsetup hres hB

/-- Concrete contact used by the claim C2 witness. -/
def c2w : Contact := ⟨7, 0, 1, 0, 100, 1, 10, 1, 1000⟩

/-- Witness for the amended claim C2 at a concrete feasible input. -/
theorem claim_C2_theorem_witness :
    (0 ≤ c2w.setup_s ∧ 0 ≤ c2w.residual_bytes ∧ EPS_BYTES < 5) ∧
    eta_contact c2w 0 5 0 =
      (if spec4C_feasible c2w 0 5 0 then some (spec4C_eta c2w 0 5) else none) :=
  ⟨by decide, claim_C2_theorem c2w 0 5 0 (by decide) (by decide) (by decide)⟩

/-! ### Claim C6: the caller owned plan is never mutated -/

/-- State passing variant of cgr_best_route: the pair holds the result and
the caller array after the call.  The source takes the plan through a const
pointer and contains no store into it, so the state out is the state in. -/
def cgr_best_routeS (C : List Contact) (P : CgrParams)
    (NI : Option NeighborIndex) : Route × List Contact :=
  (cgr_best_route C P NI, C)

/-- State passing variant of cgr_best_route_filtered; no store into the
caller array exists in the source. -/
def cgr_best_route_filteredS (C : List Contact) (P : CgrParams)
    (NI : Option NeighborIndex) (F : Option CgrFilters) : Route × List Contact :=
  (cgr_best_route_filtered C P NI F, C)

/-- State passing variant of cgr_k_yen; the source passes the caller array
to filtered searches only. -/
def cgr_k_yenS (C : List Contact) (P : CgrParams)
    (NI : Option NeighborIndex) (K : Int) : Routes × List Contact :=
  (cgr_k_yen C P NI K, C)

/-- State passing variant of cgr_k_routes: the source memcpy-s the caller
array into a private working copy, lets consume_capacity write only that
copy, and frees it, so the caller array after the call is the one passed
in. -/
def cgr_k_routesS (C : List Contact) (P : CgrParams)
    (NI : Option NeighborIndex) (K : Int) : Routes × List Contact :=
  (⟨(kRoutesIter P NI K.toNat C []).1⟩, C)

/-- Claim C6: every search outside the K-consume variant leaves the caller
owned contact array unchanged, and cgr_k_routes mutates only its private
copy, returning the caller array unchanged as well. -/
theorem claim_C6 (C : List Contact) (P : CgrParams)
    (NI : Option NeighborIndex) (F : Option CgrFilters) (K : Int) :
    (cgr_best_routeS C P NI).2 = C ∧
    (cgr_best_route_filteredS C P NI F).2 = C ∧
    (cgr_k_yenS C P NI K).2 = C ∧
    (cgr_k_routesS C P NI K).2 = C ∧
    (cgr_k_routesS C P NI K).1 = cgr_k_routes C P NI (max K 0) := by
  refine ⟨rfl, rfl, rfl, rfl, ?_⟩
  unfold cgr_k_routesS cgr_k_routes
  by_cases hK : max K 0 ≤ 0 ∨ (NI = none)
  · rw [if_pos hK]
    rcases hK with hK | hK
    · have : K.toNat = 0 := by omega
      rw [this]
      rfl
    · subst hK
      cases hKn : K.toNat with
      | zero => rfl
      | succ k =>
        simp only [kRoutesIter]
        have hnf : (cgr_best_route C P none).found = false := rfl
        rw [hnf]
        simp
  · rw [if_neg hK]
    have : (max K 0).toNat = K.toNat := by omega
    rw [this]

/-! ### Claim C10: shape of the Routes results -/

/-- Null argument wrapper of cgr_k_routes: the source returns the empty
Routes when any required pointer is null. -/
def cgr_k_routes_api (C : Option (List Contact)) (P : Option CgrParams)
    (NI : Option NeighborIndex) (K : Int) : Routes :=
  match C, P with
  | some c, some p => cgr_k_routes c p NI K
  | _, _ => ⟨[]⟩

/-- Null argument wrapper of cgr_k_yen. -/
def cgr_k_yen_api (C : Option (List Contact)) (P : Option CgrParams)
    (NI : Option NeighborIndex) (K : Int) : Routes :=
  match C, P with
  | some c, some p => cgr_k_yen c p NI K
  | _, _ => ⟨[]⟩

theorem kRoutesIter_facts (P : CgrParams) (NI : Option NeighborIndex) :
    ∀ k W acc, (kRoutesIter P NI k W acc).1.length ≤ acc.length + k ∧
      (∀ r ∈ (kRoutesIter P NI k W acc).1, r ∈ acc ∨ r.found = true) := by
  intro k
  induction k with
  | zero =>
    intro W acc
    exact ⟨by simp [kRoutesIter], fun r hr => Or.inl (by simpa [kRoutesIter] using hr)⟩
  | succ k ih =>
    intro W acc
    simp only [kRoutesIter]
    by_cases hf : ¬ (cgr_best_route W P NI).found
    · rw [if_pos hf]
      exact ⟨by show acc.length ≤ acc.length + (k + 1); omega, fun r hr => Or.inl hr⟩
    · rw [if_neg hf]
      rcases ih (consume_capacity W (cgr_best_route W P NI) P)
        (acc ++ [cgr_best_route W P NI]) with ⟨hlen, hmem⟩
      rw [List.length_append, List.length_singleton] at hlen
      refine ⟨by omega, ?_⟩
      intro r hr
      rcases hmem r hr with hin | hfound
      · rcases List.mem_append.mp hin with hin | hin
        · exact Or.inl hin
        · right
          have : r = cgr_best_route W P NI := by simpa using hin
          rw [this]
          simpa using hf
      · exact Or.inr hfound

theorem yenScanPos_found (C : List Contact) (P : CgrParams)
    (NI : Option NeighborIndex) (out : List Route) (ref : Route) :
    ∀ is acc, (∀ b, acc = some b → b.found = true) →
      ∀ b, yenScanPos C P NI out ref is acc = some b → b.found = true := by
  intro is
  induction is with
  | nil =>
    intro acc hacc b hb
    exact hacc b hb
  | cons i rest ihp =>
    intro acc hacc b hb
    simp only [yenScanPos] at hb
    by_cases h1 : ¬ (yenCand C P NI ref i).found
    · rw [if_pos h1] at hb
      exact ihp _ hacc b hb
    · rw [if_neg h1] at hb
      by_cases h2 : route_already_exists out (yenCand C P NI ref i)
      · rw [if_pos h2] at hb
        exact ihp _ hacc b hb
      · rw [if_neg h2] at hb
        by_cases h3 : olt (yenCand C P NI ref i).eta (bestEta acc)
        · rw [if_pos h3] at hb
          refine ihp _ ?_ b hb
          intro b3 hb3
          have hb3' : b3 = yenCand C P NI ref i := by
            injection hb3.symm
          rw [hb3']
          simpa using h1
        · rw [if_neg h3] at hb
          exact ihp _ hacc b hb

theorem yenScanRoutes_found (C : List Contact) (P : CgrParams)
    (NI : Option NeighborIndex) (out : List Route) :
    ∀ refs acc, (∀ b, acc = some b → b.found = true) →
      ∀ b, yenScanRoutes C P NI out refs acc = some b → b.found = true := by
  intro refs
  induction refs with
  | nil =>
    intro acc hacc b hb
    exact hacc b hb
  | cons ref rest ihr =>
    intro acc hacc b hb
    simp only [yenScanRoutes] at hb
    exact ihr _ (yenScanPos_found C P NI out ref (List.range ref.hops) acc hacc) b hb

theorem yenRounds_facts (C : List Contact) (P : CgrParams)
    (NI : Option NeighborIndex) (K : Nat) :
    ∀ att out, out.length ≤ K → (∀ r ∈ out, r.found = true) →
      (yenRounds C P NI K att out).length ≤ K ∧
      (∀ r ∈ yenRounds C P NI K att out, r.found = true) ∧
      (out ≠ [] → (yenRounds C P NI K att out).head? = out.head?) := by
  intro att
  induction att with
  | zero =>
    intro out hlen hfound
    exact ⟨hlen, hfound, fun _ => rfl⟩
  | succ att ih =>
    intro out hlen hfound
    simp only [yenRounds]
    by_cases hK : K ≤ out.length
    · rw [if_pos hK]
      exact ⟨hlen, hfound, fun _ => rfl⟩
    · rw [if_neg hK]
      cases hscan : yenScanRoutes C P NI out out none with
      | none => exact ⟨hlen, hfound, fun _ => rfl⟩
      | some best =>
        have hbf : best.found = true :=
          yenScanRoutes_found C P NI out out none
            (by intro b hb; cases hb) best hscan
        have hfound2 : ∀ r ∈ out ++ [best], r.found = true := by
          intro r hr
          rcases List.mem_append.mp hr with h | h
          · exact hfound r h
          · have : r = best := by simpa using h
            rw [this]
            exact hbf
        rcases ih (out ++ [best]) (by simp; omega) hfound2 with ⟨hl2, hf2, hh2⟩
        refine ⟨hl2, hf2, ?_⟩
        intro hne
        cases out with
        | nil => exact absurd rfl hne
        | cons o os =>
          rw [hh2 (by simp)]
          simp

/-- Claim C10: cgr_k_routes and cgr_k_yen return at most K routes, all of
which carry found = true; the first route of cgr_k_yen is the unfiltered
best route; and a nonpositive K or a null required argument yields the empty
Routes value rather than a failure. -/
theorem claim_C10 (C : List Contact) (P : CgrParams)
    (NI : Option NeighborIndex) (K : Int) :
    ((cgr_k_routes C P NI K).items.length ≤ K.toNat ∧
      ∀ r ∈ (cgr_k_routes C P NI K).items, r.found = true) ∧
    ((cgr_k_yen C P NI K).items.length ≤ K.toNat ∧
      (∀ r ∈ (cgr_k_yen C P NI K).items, r.found = true) ∧
      ∀ r, (cgr_k_yen C P NI K).items.head? = some r →
        r = cgr_best_route C P NI) ∧
    (K ≤ 0 → cgr_k_routes C P NI K = ⟨[]⟩ ∧ cgr_k_yen C P NI K = ⟨[]⟩) ∧
    (∀ Co Po, (Co = none ∨ Po = none) →
      cgr_k_routes_api Co Po NI K = ⟨[]⟩ ∧ cgr_k_yen_api Co Po NI K = ⟨[]⟩) := by
  refine ⟨?_, ?_, ?_, ?_⟩
  · unfold cgr_k_routes
    by_cases hg : K ≤ 0 ∨ NI = none
    · rw [if_pos hg]
      exact ⟨by simp, by simp⟩
    · rw [if_neg hg]
      rcases kRoutesIter_facts P NI K.toNat C [] with ⟨hlen, hmem⟩
      refine ⟨by simpa using hlen, ?_⟩
      intro r hr
      rcases hmem r hr with h | h
      · cases h
      · exact h
  · unfold cgr_k_yen
    by_cases hg : K ≤ 0 ∨ NI = none
    · rw [if_pos hg]
      exact ⟨by simp, by simp, by simp⟩
    · rw [if_neg hg]
      have hK1 : 1 ≤ K.toNat := by omega
      by_cases hb : ¬ (cgr_best_route_filtered C P NI none).found
      · rw [if_pos hb]
        exact ⟨by simp, by simp, by simp⟩
      · rw [if_neg hb]
        rcases yenRounds_facts C P NI K.toNat (K * 20).toNat
          [cgr_best_route_filtered C P NI none]
          (by simpa using hK1)
          (by
            intro r hr
            have : r = cgr_best_route_filtered C P NI none := by simpa using hr
            rw [this]
            simpa using hb) with ⟨hlen, hmem, hhead⟩
        refine ⟨hlen, hmem, ?_⟩
        intro r hr
        have hne : [cgr_best_route_filtered C P NI none] ≠ ([] : List Route) := by
          simp
        rw [hhead hne] at hr
        simp at hr
        rw [← hr]
        rfl
  · intro hK
    constructor
    · unfold cgr_k_routes
      rw [if_pos (Or.inl hK)]
    · unfold cgr_k_yen
      rw [if_pos (Or.inl hK)]
  · intro Co Po hnull
    rcases hnull with h | h
    · subst h
      exact ⟨rfl, rfl⟩
    · subst h
      cases Co with
      | none => exact ⟨rfl, rfl⟩
      | some c => exact ⟨rfl, rfl⟩

/-- Parameters shared by several witnesses: the two hop linear chain of the
spec regression scenario one. -/
def wc0 : Contact := ⟨0, 100, 1, 0, 40, 1 / 50, 10000000, 1 / 5, 100000000⟩

def wc1 : Contact := ⟨1, 1, 200, 5, 50, 1 / 50, 10000000, 1 / 10, 100000000⟩

def wP : CgrParams := ⟨100, 200, 0, 50000000, 0⟩

/-- Witness for claim C10 at a concrete input: a nonpositive K yields the
empty result. -/
theorem claim_C10_witness :
    cgr_k_routes [wc0, wc1] wP none (-1) = ⟨[]⟩ ∧
    cgr_k_yen [wc0, wc1] wP none (-1) = ⟨[]⟩ :=
  (claim_C10 [wc0, wc1] wP none (-1)).2.2.1 (by decide)

/-! ### Claim C4: diversity and minimal selection of cgr_k_yen -/

theorem best_route_filtered_wf (C : List Contact) (P : CgrParams)
    (NI : Option NeighborIndex) (F : Option CgrFilters) :
    (cgr_best_route_filtered C P NI F).hops =
      (cgr_best_route_filtered C P NI F).contact_ids.length := by
  unfold cgr_best_route_filtered
  cases NI with
  | none => rfl
  | some ni =>
    dsimp only
    by_cases h1 : C.length = 0
    · rw [if_pos h1]
      rfl
    · rw [if_neg h1]
      by_cases h2 : P.src_node < 0 ∨ (ni.node_cap : Int) ≤ P.src_node
      · rw [if_pos h2]
        rfl
      · rw [if_neg h2]
        by_cases h3 : P.dst_node < 0 ∨ (ni.node_cap : Int) ≤ P.dst_node
        · rw [if_pos h3]
          rfl
        · rw [if_neg h3]
          cases hsl : searchLoop C P ni F (expiryAbs P) (searchFuel C)
              (searchSeed C P ni F).1 (searchSeed C P ni F).2 with
          | mk labF res =>
            cases res with
            | none => rfl
            | some pair =>
              cases pair with
              | mk ci e =>
                simp [reconstructRoute]

/-- The presence of a duplicate as the spec phrases it: some route of the
list has the same ordered id sequence. -/
def ExistsDup (prev : List Route) (cand : Route) : Prop :=
  ∃ r ∈ prev, r.contact_ids = cand.contact_ids

instance (prev : List Route) (cand : Route) : Decidable (ExistsDup prev cand) :=
  inferInstanceAs (Decidable (∃ r ∈ prev, _ = _))

/-- route_already_exists decides ExistsDup on well formed routes. -/
theorem route_already_exists_iff (rs : List Route) (cand : Route)
    (hw : ∀ r ∈ rs, r.hops = r.contact_ids.length)
    (hc : cand.hops = cand.contact_ids.length) :
    route_already_exists rs cand = true ↔ ExistsDup rs cand := by
  unfold route_already_exists ExistsDup
  rw [List.any_eq_true]
  constructor
  · rintro ⟨r, hr, hcond⟩
    rw [decide_eq_true_eq] at hcond
    rcases hcond with ⟨hhops, hall⟩
    rw [List.all_eq_true] at hall
    refine ⟨r, hr, ?_⟩
    apply List.ext_getElem
    · rw [← hw r hr, ← hc, hhops]
    · intro n hn1 hn2
      have hnr : n < r.hops := by rw [hw r hr]; exact hn1
      have := hall n (by simpa using hnr)
      rw [decide_eq_true_eq] at this
      rw [List.getD_eq_getElem r.contact_ids 0 hn1,
        List.getD_eq_getElem cand.contact_ids 0 hn2] at this
      exact this
  · rintro ⟨r, hr, hids⟩
    refine ⟨r, hr, ?_⟩
    rw [decide_eq_true_eq]
    have hhops : r.hops = cand.hops := by
      rw [hw r hr, hc, hids]
    refine ⟨hhops, ?_⟩
    rw [List.all_eq_true]
    intro j hj
    rw [decide_eq_true_eq, hids]

/-- All feasible diversion candidates of one round, in scan order. -/
def roundCands (C : List Contact) (P : CgrParams) (NI : Option NeighborIndex)
    (out : List Route) : List Route :=
  out.flatMap (fun ref => (List.range ref.hops).map (yenCand C P NI ref))

/-- The selection contract of one cgr_k_yen round: the chosen route is a
feasible diversion candidate, it is not already present in the result, and
among all feasible candidates not already present it has minimal eta. -/
def PickOK (C : List Contact) (P : CgrParams) (NI : Option NeighborIndex)
    (prev : List Route) (b : Route) : Prop :=
  b ∈ roundCands C P NI prev ∧ b.found = true ∧ ¬ ExistsDup prev b ∧
  ∀ c ∈ roundCands C P NI prev, c.found = true → ¬ ExistsDup prev c →
    oleq b.eta c.eta

theorem yenScanPos_spec (C : List Contact) (P : CgrParams)
    (NI : Option NeighborIndex) (out : List Route) (ref : Route) :
    ∀ is acc,
      (yenScanPos C P NI out ref is acc = acc ∨
        ∃ i ∈ is, yenScanPos C P NI out ref is acc = some (yenCand C P NI ref i) ∧
          (yenCand C P NI ref i).found = true ∧
          route_already_exists out (yenCand C P NI ref i) = false) ∧
      oleq (bestEta (yenScanPos C P NI out ref is acc)) (bestEta acc) ∧
      (∀ i ∈ is, (yenCand C P NI ref i).found = true →
        route_already_exists out (yenCand C P NI ref i) = false →
        oleq (bestEta (yenScanPos C P NI out ref is acc))
          (yenCand C P NI ref i).eta) := by
  intro is
  induction is with
  | nil =>
    intro acc
    refine ⟨Or.inl rfl, oleq_refl _, ?_⟩
    intro i hi
    simp at hi
  | cons i rest ih =>
    intro acc
    simp only [yenScanPos]
    by_cases h1 : ¬ (yenCand C P NI ref i).found
    · rw [if_pos h1]
      rcases ih acc with ⟨hform, hmono, hmin⟩
      refine ⟨?_, hmono, ?_⟩
      · rcases hform with h | ⟨j, hj, hrest⟩
        · exact Or.inl h
        · exact Or.inr ⟨j, List.mem_cons_of_mem _ hj, hrest⟩
      · intro j hj hf hx
        rcases List.mem_cons.mp hj with hj | hj
        · subst hj
          exact absurd hf (by simpa using h1)
        · exact hmin j hj hf hx
    · rw [if_neg h1]
      by_cases h2 : route_already_exists out (yenCand C P NI ref i)
      · rw [if_pos h2]
        rcases ih acc with ⟨hform, hmono, hmin⟩
        refine ⟨?_, hmono, ?_⟩
        · rcases hform with h | ⟨j, hj, hrest⟩
          · exact Or.inl h
          · exact Or.inr ⟨j, List.mem_cons_of_mem _ hj, hrest⟩
        · intro j hj hf hx
          rcases List.mem_cons.mp hj with hj | hj
          · subst hj
            rw [h2] at hx
            cases hx
          · exact hmin j hj hf hx
      · rw [if_neg h2]
        by_cases h3 : olt (yenCand C P NI ref i).eta (bestEta acc)
        · rw [if_pos h3]
          rcases ih (some (yenCand C P NI ref i)) with ⟨hform, hmono, hmin⟩
          have hmono2 : oleq (bestEta (yenScanPos C P NI out ref rest
              (some (yenCand C P NI ref i)))) (yenCand C P NI ref i).eta := hmono
          refine ⟨?_, ?_, ?_⟩
          · rcases hform with h | ⟨j, hj, hrest⟩
            · exact Or.inr ⟨i, List.mem_cons_self _ _,
                h, by simpa using h1, by simpa using h2⟩
            · exact Or.inr ⟨j, List.mem_cons_of_mem _ hj, hrest⟩
          · exact oleq_trans hmono2 (olt_oleq _ _ h3)
          · intro j hj hf hx
            rcases List.mem_cons.mp hj with hj | hj
            · subst hj
              exact hmono2
            · exact hmin j hj hf hx
        · rw [if_neg h3]
          rcases ih acc with ⟨hform, hmono, hmin⟩
          refine ⟨?_, hmono, ?_⟩
          · rcases hform with h | ⟨j, hj, hrest⟩
            · exact Or.inl h
            · exact Or.inr ⟨j, List.mem_cons_of_mem _ hj, hrest⟩
          · intro j hj hf hx
            rcases List.mem_cons.mp hj with hj | hj
            · subst hj
              exact oleq_trans hmono (not_olt_oleq _ _ h3)
            · exact hmin j hj hf hx

theorem yenScanRoutes_spec (C : List Contact) (P : CgrParams)
    (NI : Option NeighborIndex) (out : List Route) :
    ∀ refs acc,
      (yenScanRoutes C P NI out refs acc = acc ∨
        ∃ ref ∈ refs, ∃ i ∈ List.range ref.hops,
          yenScanRoutes C P NI out refs acc = some (yenCand C P NI ref i) ∧
          (yenCand C P NI ref i).found = true ∧
          route_already_exists out (yenCand C P NI ref i) = false) ∧
      oleq (bestEta (yenScanRoutes C P NI out refs acc)) (bestEta acc) ∧
      (∀ ref ∈ refs, ∀ i ∈ List.range ref.hops,
        (yenCand C P NI ref i).found = true →
        route_already_exists out (yenCand C P NI ref i) = false →
        oleq (bestEta (yenScanRoutes C P NI out refs acc))
          (yenCand C P NI ref i).eta) := by
  intro refs
  induction refs with
  | nil =>
    intro acc
    refine ⟨Or.inl rfl, oleq_refl _, ?_⟩
    intro ref href
    simp at href
  | cons ref rest ih =>
    intro acc
    simp only [yenScanRoutes]
    rcases yenScanPos_spec C P NI out ref (List.range ref.hops) acc with
      ⟨hform1, hmono1, hmin1⟩
    rcases ih (yenScanPos C P NI out ref (List.range ref.hops) acc) with
      ⟨hform2, hmono2, hmin2⟩
    refine ⟨?_, oleq_trans hmono2 hmono1, ?_⟩
    · rcases hform2 with h2 | ⟨ref2, href2, i2, hi2, hres⟩
      · rw [h2]
        rcases hform1 with h1 | ⟨i1, hi1, hres1⟩
        · exact Or.inl h1
        · exact Or.inr ⟨ref, List.mem_cons_self _ _, i1, hi1, hres1⟩
      · exact Or.inr ⟨ref2, List.mem_cons_of_mem _ href2, i2, hi2, hres⟩
    · intro ref2 href2 i hi hf hx
      rcases List.mem_cons.mp href2 with h | h
      · subst h
        exact oleq_trans hmono2 (hmin1 i hi hf hx)
      · exact hmin2 ref2 h i hi hf hx

/-- Well formedness of a route list: the hops fields equal the id list
lengths, as holds for every search output. -/
def AllWF (l : List Route) : Prop :=
  ∀ r ∈ l, r.hops = r.contact_ids.length

theorem yenCand_wf (C : List Contact) (P : CgrParams)
    (NI : Option NeighborIndex) (ref : Route) (i : Nat) :
    (yenCand C P NI ref i).hops = (yenCand C P NI ref i).contact_ids.length :=
  best_route_filtered_wf C P NI _

theorem yenScan_pick (C : List Contact) (P : CgrParams)
    (NI : Option NeighborIndex) (out : List Route) (b : Route)
    (hw : AllWF out)
    (hscan : yenScanRoutes C P NI out out none = some b) :
    PickOK C P NI out b ∧ b.hops = b.contact_ids.length := by
  rcases yenScanRoutes_spec C P NI out out none with ⟨hform, _, hmin⟩
  rcases hform with h | ⟨ref, href, i, hi, hres, hfound, hex⟩
  · rw [hscan] at h
    cases h
  · rw [hscan] at hres
    have hb : b = yenCand C P NI ref i := by
      injection hres
    subst hb
    have hbwf : (yenCand C P NI ref i).hops =
        (yenCand C P NI ref i).contact_ids.length := yenCand_wf C P NI ref i
    refine ⟨⟨?_, hfound, ?_, ?_⟩, hbwf⟩
    · rw [roundCands, List.mem_flatMap]
      exact ⟨ref, href, List.mem_map.mpr ⟨i, hi, rfl⟩⟩
    · intro hdup
      have := (route_already_exists_iff out _ hw hbwf).mpr hdup
      rw [hex] at this
      cases this
    · intro c hc hcf hcd
      rw [roundCands, List.mem_flatMap] at hc
      rcases hc with ⟨ref2, href2, hc2⟩
      rcases List.mem_map.mp hc2 with ⟨i2, hi2, hc3⟩
      subst hc3
      have hcwf := yenCand_wf C P NI ref2 i2
      have hex2 : route_already_exists out (yenCand C P NI ref2 i2) = false := by
        rcases Bool.eq_false_or_eq_true
            (route_already_exists out (yenCand C P NI ref2 i2)) with h | h
        · exact absurd ((route_already_exists_iff out _ hw hcwf).mp h) hcd
        · exact h
      have := hmin ref2 href2 i2 hi2 hcf hex2
      rw [hscan] at this
      exact this

/-- The per position selection contract along a produced route list. -/
def StepOK (C : List Contact) (P : CgrParams) (NI : Option NeighborIndex)
    (l : List Route) : Prop :=
  ∀ j, j < l.length → 1 ≤ j →
    PickOK C P NI (l.take j) (l.getD j routeEmpty)

theorem yenRounds_stepOK (C : List Contact) (P : CgrParams)
    (NI : Option NeighborIndex) (K : Nat) :
    ∀ att out, AllWF out → StepOK C P NI out →
      AllWF (yenRounds C P NI K att out) ∧
      StepOK C P NI (yenRounds C P NI K att out) := by
  intro att
  induction att with
  | zero =>
    intro out hw hs
    exact ⟨hw, hs⟩
  | succ att ih =>
    intro out hw hs
    simp only [yenRounds]
    by_cases hK : K ≤ out.length
    · rw [if_pos hK]
      exact ⟨hw, hs⟩
    · rw [if_neg hK]
      cases hscan : yenScanRoutes C P NI out out none with
      | none => exact ⟨hw, hs⟩
      | some best =>
        rcases yenScan_pick C P NI out best hw hscan with ⟨hpick, hbwf⟩
        apply ih
        · intro r hr
          rcases List.mem_append.mp hr with h | h
          · exact hw r h
          · have : r = best := by simpa using h
            rw [this]
            exact hbwf
        · intro j hj h1j
          rw [List.length_append, List.length_singleton] at hj
          by_cases hjl : j < out.length
          · rw [List.take_append_of_le_length (by omega)]
            have hget : (out ++ [best]).getD j routeEmpty =
                out.getD j routeEmpty := by
              rw [List.getD_eq_getElem _ _ (by simp; omega),
                List.getD_eq_getElem _ _ hjl, List.getElem_append j]
              rw [dif_pos hjl]
            rw [hget]
            exact hs j hjl h1j
          · have hjeq : j = out.length := by omega
            subst hjeq
            rw [List.take_append_of_le_length (by omega), List.take_length]
            have hget : (out ++ [best]).getD out.length routeEmpty = best := by
              rw [List.getD_eq_getElem _ _ (by simp)]
              rw [List.getElem_append out.length]
              rw [dif_neg (by omega)]
              simp
            rw [hget]
            exact hpick

/-- Claim C4: for K at least one, no two routes returned by cgr_k_yen share
an ordered id sequence, and every route after the base one satisfies the
round selection contract PickOK: it is a feasible diversion candidate of
minimum eta among those not already present. -/
theorem claim_C4 (C : List Contact) (P : CgrParams)
    (NI : Option NeighborIndex) (K : Int) (hK : 1 ≤ K) :
    (∀ i j, i < j → j < (cgr_k_yen C P NI K).items.length →
      ((cgr_k_yen C P NI K).items.getD i routeEmpty).contact_ids ≠
        ((cgr_k_yen C P NI K).items.getD j routeEmpty).contact_ids) ∧
    (∀ j, j < (cgr_k_yen C P NI K).items.length → 1 ≤ j →
      PickOK C P NI ((cgr_k_yen C P NI K).items.take j)
        ((cgr_k_yen C P NI K).items.getD j routeEmpty)) := by
  have hmain : StepOK C P NI (cgr_k_yen C P NI K).items := by
    unfold cgr_k_yen
    by_cases hg : K ≤ 0 ∨ NI = none
    · rw [if_pos hg]
      intro j hj
      simp at hj
    · rw [if_neg hg]
      by_cases hb : ¬ (cgr_best_route_filtered C P NI none).found
      · rw [if_pos hb]
        intro j hj
        simp at hj
      · rw [if_neg hb]
        refine (yenRounds_stepOK C P NI K.toNat (K * 20).toNat
          [cgr_best_route_filtered C P NI none] ?_ ?_).2
        · intro r hr
          have : r = cgr_best_route_filtered C P NI none := by simpa using hr
          rw [this]
          exact best_route_filtered_wf C P NI none
        · intro j hj h1j
          simp at hj
          omega
  refine ⟨?_, hmain⟩
  intro i j hij hj
  intro heq
  have hpick := hmain j hj (by omega)
  rcases hpick with ⟨_, _, hnodup, _⟩
  apply hnodup
  refine ⟨(cgr_k_yen C P NI K).items.getD i routeEmpty, ?_, heq⟩
  have hi : i < (cgr_k_yen C P NI K).items.length := by omega
  rw [List.mem_iff_getElem?]
  refine ⟨i, ?_⟩
  rw [List.getElem?_take, if_pos hij, List.getElem?_eq_getElem hi,
    List.getD_eq_getElem _ _ hi]

/-- Plan with two disjoint two hop paths, spec regression scenario three. -/
def wd0 : Contact := ⟨0, 100, 1, 0, 40, 1 / 50, 10000000, 1 / 5, 100000000⟩

def wd1 : Contact := ⟨1, 1, 200, 5, 50, 1 / 50, 10000000, 1 / 10, 100000000⟩

def wd2 : Contact := ⟨2, 100, 2, 0, 40, 1 / 50, 10000000, 1 / 5, 100000000⟩

def wd3 : Contact := ⟨3, 2, 200, 6, 60, 1 / 50, 10000000, 1 / 10, 100000000⟩

def wdPlan : List Contact := [wd0, wd1, wd2, wd3]

/-- Witness for claim C4 on the two path plan with K = 2. -/
theorem claim_C4_witness :
    (1 : Int) ≤ 2 ∧
    (∀ i j, i < j → j < (cgr_k_yen wdPlan wP (build_neighbor_index wdPlan) 2).items.length →
      ((cgr_k_yen wdPlan wP (build_neighbor_index wdPlan) 2).items.getD i
        routeEmpty).contact_ids ≠
        ((cgr_k_yen wdPlan wP (build_neighbor_index wdPlan) 2).items.getD j
          routeEmpty).contact_ids) :=
  ⟨by decide, (claim_C4 wdPlan wP (build_neighbor_index wdPlan) 2 (by decide)).1⟩

/-! ### Claim C5: consumption monotonicity of cgr_k_routes -/

/-- Iterated saturating subtraction. -/
def satSubIter (r bytes : ℚ) : Nat → ℚ
  | 0 => r
  | n + 1 => satSubIter (satSub r bytes) bytes n

/-- Distinctness of contact ids in a plan. -/
def NoDupIds (C : List Contact) : Prop := (C.map (fun c => c.id)).Nodup

instance (C : List Contact) : Decidable (NoDupIds C) :=
  if h : (C.map (fun c : Contact => c.id)).Nodup then .isTrue h else .isFalse h

/-- How many times one route uses a contact id. -/
def routeUses (r : Route) (id : Int) : Nat :=
  (r.contact_ids.take r.hops).count id

/-- How many times a list of routes uses a contact id. -/
def countUses (rs : List Route) (id : Int) : Nat :=
  (rs.map (fun r => routeUses r id)).sum

theorem satSub_nonneg (r bytes : ℚ) : 0 ≤ satSub r bytes := by
  unfold satSub
  by_cases h : r ≥ bytes
  · rw [if_pos h]
    linarith
  · rw [if_neg h]

theorem satSubIter_max (bytes : ℚ) (hb : 0 ≤ bytes) :
    ∀ n r, 0 ≤ r → satSubIter r bytes n = max 0 (r - n * bytes) := by
  intro n
  induction n with
  | zero =>
    intro r hr
    simp [satSubIter, max_eq_right hr]
  | succ n ih =>
    intro r hr
    rw [satSubIter, ih _ (satSub_nonneg r bytes)]
    unfold satSub
    by_cases h : r ≥ bytes
    · rw [if_pos h]
      congr 1
      push_cast
      ring
    · rw [if_neg h]
      have h1 : r - (n + 1 : Nat) * bytes ≤ 0 := by
        push_cast
        nlinarith [Nat.cast_nonneg' (α := ℚ) n]
      have h2 : (0 : ℚ) - (n : ℚ) * bytes ≤ 0 := by
        nlinarith [Nat.cast_nonneg' (α := ℚ) n]
      rw [max_eq_left h2, max_eq_left h1]

theorem cget_cons_zero (c : Contact) (rest : List Contact) :
    cget (c :: rest) 0 = c := rfl

theorem cget_cons_succ (c : Contact) (rest : List Contact) (i : Nat) :
    cget (c :: rest) (i + 1) = cget rest i := rfl

theorem consumeOne_length (bytes : ℚ) (id : Int) :
    ∀ C : List Contact, (consumeOne bytes id C).length = C.length := by
  intro C
  induction C with
  | nil => rfl
  | cons c rest ih =>
    unfold consumeOne
    by_cases h : c.id = id
    · rw [if_pos h]
      simp
    · rw [if_neg h]
      simp [ih]

theorem consumeOne_ids (bytes : ℚ) (id : Int) :
    ∀ C : List Contact,
      (consumeOne bytes id C).map (fun c => c.id) = C.map (fun c => c.id) := by
  intro C
  induction C with
  | nil => rfl
  | cons c rest ih =>
    unfold consumeOne
    by_cases h : c.id = id
    · rw [if_pos h]
      simp
    · rw [if_neg h]
      simp [ih]

theorem consumeOne_get (bytes : ℚ) (id : Int) :
    ∀ C : List Contact, List.Pairwise (fun a b : Contact => a.id ≠ b.id) C →
      ∀ i, i < C.length →
        cget (consumeOne bytes id C) i =
          (if (cget C i).id = id then
            { cget C i with residual_bytes := satSub (cget C i).residual_bytes bytes }
          else cget C i) := by
  intro C
  induction C with
  | nil =>
    intro _ i hi
    simp at hi
  | cons c rest ih =>
    intro hp i hi
    unfold consumeOne
    by_cases h : c.id = id
    · rw [if_pos h]
      cases i with
      | zero =>
        rw [cget_cons_zero, cget_cons_zero, if_pos h]
      | succ i =>
        rw [cget_cons_succ, cget_cons_succ]
        have hrest : i < rest.length := by
          simp at hi
          omega
        have hmem : cget rest i ∈ rest := by
          rw [cget, List.getD_eq_getElem rest cdef hrest]
          exact List.getElem_mem _
        have hne : (cget rest i).id ≠ id := by
          rw [← h]
          exact fun hc => (List.pairwise_cons.mp hp).1 _ hmem hc.symm
        rw [if_neg hne]
    · rw [if_neg h]
      cases i with
      | zero =>
        rw [cget_cons_zero, cget_cons_zero, if_neg h]
      | succ i =>
        rw [cget_cons_succ, cget_cons_succ]
        exact ih (List.pairwise_cons.mp hp).2 i (by simp at hi; omega)

/-- The fold of consumeOne over a list of ids, as consume_capacity runs it. -/
theorem consumeFold_get (bytes : ℚ) :
    ∀ (ids : List Int) (W : List Contact),
      List.Pairwise (fun a b : Contact => a.id ≠ b.id) W →
      ∀ i, i < W.length →
        cget (ids.foldl (fun W id => consumeOne bytes id W) W) i =
          { cget W i with residual_bytes :=
              (satSubIter (cget W i).residual_bytes bytes
                (ids.count (cget W i).id)) } := by
  intro ids
  induction ids with
  | nil =>
    intro W _ i hi
    simp [satSubIter, List.count_nil]
  | cons id0 rest ih =>
    intro W hp i hi
    rw [List.foldl_cons]
    have hpw : List.Pairwise (fun a b : Contact => a.id ≠ b.id)
        (consumeOne bytes id0 W) := by
      have := consumeOne_ids bytes id0 W
      rw [← List.pairwise_map (f := fun c : Contact => c.id)] at hp ⊢
      rw [this]
      exact hp
    have hlen : i < (consumeOne bytes id0 W).length := by
      rw [consumeOne_length]
      exact hi
    rw [ih (consumeOne bytes id0 W) hpw i hlen]
    rw [consumeOne_get bytes id0 W hp i hi]
    by_cases h : (cget W i).id = id0
    · rw [if_pos h]
      have hcnt : (id0 :: rest).count (cget W i).id =
          rest.count (cget W i).id + 1 := by
        rw [List.count_cons]
        have hbeq : (id0 == (cget W i).id) = true := by
          rw [beq_iff_eq]
          exact h.symm
        rw [hbeq]
        simp
      rw [hcnt]
      have : satSubIter (satSub (cget W i).residual_bytes bytes) bytes
          (rest.count (cget W i).id) =
          satSubIter (cget W i).residual_bytes bytes
            (rest.count (cget W i).id + 1) := by
        conv_rhs => rw [show rest.count (cget W i).id + 1 =
          (rest.count (cget W i).id) + 1 from rfl]
        rfl
      rw [← this]
    · rw [if_neg h]
      have hcnt : (id0 :: rest).count (cget W i).id =
          rest.count (cget W i).id := by
        rw [List.count_cons]
        have hbeq : (id0 == (cget W i).id) = false := by
          rw [beq_eq_false_iff_ne]
          exact fun hc => h hc.symm
        rw [hbeq]
        simp
      rw [hcnt]

theorem contact_update_self (c : Contact) :
    { c with residual_bytes := c.residual_bytes } = c := rfl

theorem consumeFold_length (bytes : ℚ) :
    ∀ (ids : List Int) (W : List Contact),
      (ids.foldl (fun W id => consumeOne bytes id W) W).length = W.length := by
  intro ids
  induction ids with
  | nil =>
    intro W
    rfl
  | cons id0 rest ih =>
    intro W
    rw [List.foldl_cons, ih, consumeOne_length]

theorem consumeFold_ids (bytes : ℚ) :
    ∀ (ids : List Int) (W : List Contact),
      (ids.foldl (fun W id => consumeOne bytes id W) W).map (fun c => c.id) =
        W.map (fun c => c.id) := by
  intro ids
  induction ids with
  | nil =>
    intro W
    rfl
  | cons id0 rest ih =>
    intro W
    rw [List.foldl_cons, ih, consumeOne_ids]

theorem consume_capacity_get (W : List Contact) (r : Route) (P : CgrParams)
    (hp : List.Pairwise (fun a b : Contact => a.id ≠ b.id) W)
    (hf : r.found = true) :
    ∀ i, i < W.length →
      cget (consume_capacity W r P) i =
        { cget W i with residual_bytes :=
            (satSubIter (cget W i).residual_bytes P.bundle_bytes
              (routeUses r (cget W i).id)) } := by
  intro i hi
  unfold consume_capacity
  by_cases h0 : r.hops = 0
  · rw [if_pos (Or.inr h0)]
    unfold routeUses
    rw [h0]
    simp only [List.take_zero, List.count_nil]
    rw [show satSubIter (cget W i).residual_bytes P.bundle_bytes 0 =
      (cget W i).residual_bytes from rfl]
  · rw [if_neg (by simp [hf, h0])]
    exact consumeFold_get P.bundle_bytes (r.contact_ids.take r.hops) W hp i hi

theorem consume_capacity_length (W : List Contact) (r : Route) (P : CgrParams) :
    (consume_capacity W r P).length = W.length := by
  unfold consume_capacity
  by_cases h : ¬ r.found = true ∨ r.hops = 0
  · rw [if_pos h]
  · rw [if_neg h]
    exact consumeFold_length _ _ _

theorem consume_capacity_ids (W : List Contact) (r : Route) (P : CgrParams) :
    (consume_capacity W r P).map (fun c => c.id) = W.map (fun c => c.id) := by
  unfold consume_capacity
  by_cases h : ¬ r.found = true ∨ r.hops = 0
  · rw [if_pos h]
  · rw [if_neg h]
    exact consumeFold_ids _ _ _

theorem kRoutesIter_acc (P : CgrParams) (NI : Option NeighborIndex) :
    ∀ k (W : List Contact) (acc : List Route),
      kRoutesIter P NI k W acc =
        (acc ++ (kRoutesIter P NI k W []).1, (kRoutesIter P NI k W []).2) := by
  intro k
  induction k with
  | zero =>
    intro W acc
    simp [kRoutesIter]
  | succ k ih =>
    intro W acc
    simp only [kRoutesIter]
    by_cases hf : ¬ (cgr_best_route W P NI).found
    · rw [if_pos hf, if_pos hf]
      simp
    · rw [if_neg hf, if_neg hf]
      rw [ih (consume_capacity W (cgr_best_route W P NI) P)
        (acc ++ [cgr_best_route W P NI])]
      rw [ih (consume_capacity W (cgr_best_route W P NI) P)
        ([] ++ [cgr_best_route W P NI])]
      simp

theorem max_sat_compose (x y : ℚ) (hy : 0 ≤ y) :
    max 0 (max 0 x - y) = max 0 (x - y) := by
  by_cases hx : 0 ≤ x
  · rw [max_eq_right hx]
  · have h1 : x < 0 := lt_of_not_le hx
    have h0x : max 0 x = 0 := max_eq_left h1.le
    rw [h0x, max_eq_left (by linarith : (0 : ℚ) - y ≤ 0),
      max_eq_left (by linarith : x - y ≤ 0)]

theorem cget_noconsume (W : List Contact) (B : ℚ)
    (hres : ∀ c ∈ W, 0 ≤ c.residual_bytes) (i : Nat) (hi : i < W.length) :
    cget W i = { cget W i with residual_bytes :=
      (max 0 ((cget W i).residual_bytes - ((0 : Nat) : ℚ) * B)) } := by
  have hr : 0 ≤ (cget W i).residual_bytes := by
    apply hres
    rw [cget, List.getD_eq_getElem W cdef hi]
    exact List.getElem_mem _
  rw [show ((0 : Nat) : ℚ) * B = 0 by norm_num,
    show (cget W i).residual_bytes - 0 = (cget W i).residual_bytes by ring,
    max_eq_right hr]

/-- Master induction for cgr_k_routes: the final working copy carries, at
every index, the original contact with its residual reduced by bundle bytes
for every use across the collected routes, saturating at zero; and the
iteration stops at K routes or at the first failed search. -/
theorem kRoutesIter_consumption (P : CgrParams) (NI : Option NeighborIndex)
    (hB : 0 ≤ P.bundle_bytes) :
    ∀ k (W : List Contact), NoDupIds W → (∀ c ∈ W, 0 ≤ c.residual_bytes) →
      (∀ i, i < W.length →
        cget ((kRoutesIter P NI k W []).2) i =
          { cget W i with residual_bytes :=
              (max 0 ((cget W i).residual_bytes -
                (countUses (kRoutesIter P NI k W []).1 (cget W i).id : ℚ) *
                  P.bundle_bytes)) }) ∧
      ((kRoutesIter P NI k W []).2.length = W.length) ∧
      ((kRoutesIter P NI k W []).1.length < k →
        (cgr_best_route ((kRoutesIter P NI k W []).2) P NI).found = false) := by
  intro k
  induction k with
  | zero =>
    intro W hnd hres
    refine ⟨?_, rfl, ?_⟩
    · intro i hi
      exact cget_noconsume W P.bundle_bytes hres i hi
    · intro h
      simp at h
  | succ k ih =>
    intro W hnd hres
    simp only [kRoutesIter]
    by_cases hf : ¬ (cgr_best_route W P NI).found
    · rw [if_pos hf]
      refine ⟨?_, rfl, ?_⟩
      · intro i hi
        exact cget_noconsume W P.bundle_bytes hres i hi
      · intro _
        simpa using hf
    · rw [if_neg hf]
      have hfound : (cgr_best_route W P NI).found = true := by
        simpa using hf
      have hpair : List.Pairwise (fun a b : Contact => a.id ≠ b.id) W := by
        have h := hnd
        unfold NoDupIds at h
        exact List.pairwise_map.mp h
      set W2 := consume_capacity W (cgr_best_route W P NI) P with hW2
      have hW2len : W2.length = W.length := consume_capacity_length W _ P
      have hW2ids : W2.map (fun c => c.id) = W.map (fun c => c.id) :=
        consume_capacity_ids W _ P
      have hW2nd : NoDupIds W2 := by
        unfold NoDupIds
        rw [hW2ids]
        exact hnd
      have hW2get : ∀ i, i < W.length →
          cget W2 i = { cget W i with residual_bytes :=
            (satSubIter (cget W i).residual_bytes P.bundle_bytes
              (routeUses (cgr_best_route W P NI) (cget W i).id)) } :=
        consume_capacity_get W _ P hpair hfound
      have hW2res : ∀ c ∈ W2, 0 ≤ c.residual_bytes := by
        intro c hc
        rcases (List.mem_iff_getElem).mp hc with ⟨j, hj, hval⟩
        have hjW : j < W.length := by rw [← hW2len]; exact hj
        have := hW2get j hjW
        rw [cget, List.getD_eq_getElem W2 cdef hj, hval] at this
        rw [this]
        show 0 ≤ satSubIter _ _ _
        cases hn : routeUses (cgr_best_route W P NI) (cget W j).id with
        | zero =>
          show 0 ≤ (cget W j).residual_bytes
          apply hres
          rw [cget, List.getD_eq_getElem W cdef hjW]
          exact List.getElem_mem _
        | succ n =>
          rw [satSubIter_max P.bundle_bytes hB _ _ (by
            apply hres
            rw [cget, List.getD_eq_getElem W cdef hjW]
            exact List.getElem_mem _)]
          exact le_max_left _ _
      rcases ih W2 hW2nd hW2res with ⟨ihget, ihlen, ihstop⟩
      rw [kRoutesIter_acc P NI k W2 ([] ++ [cgr_best_route W P NI])]
      refine ⟨?_, ?_, ?_⟩
      · intro i hi
        have hiW2 : i < W2.length := by rw [hW2len]; exact hi
        rw [ihget i hiW2]
        rw [hW2get i hi]
        have hid : ({ cget W i with residual_bytes :=
            (satSubIter (cget W i).residual_bytes P.bundle_bytes
              (routeUses (cgr_best_route W P NI) (cget W i).id)) } : Contact).id =
            (cget W i).id := rfl
        rw [hid]
        have hr : 0 ≤ (cget W i).residual_bytes := by
          apply hres
          rw [cget, List.getD_eq_getElem W cdef hi]
          exact List.getElem_mem _
        have hsat : satSubIter (cget W i).residual_bytes P.bundle_bytes
            (routeUses (cgr_best_route W P NI) (cget W i).id) =
            max 0 ((cget W i).residual_bytes -
              (routeUses (cgr_best_route W P NI) (cget W i).id : ℚ) *
                P.bundle_bytes) :=
          satSubIter_max P.bundle_bytes hB _ _ hr
        have hcnt : countUses ([] ++ [cgr_best_route W P NI] ++
            (kRoutesIter P NI k W2 []).1) (cget W i).id =
            routeUses (cgr_best_route W P NI) (cget W i).id +
            countUses ((kRoutesIter P NI k W2 []).1) (cget W i).id := by
          unfold countUses
          simp
        rw [hcnt]
        show ({ cget W i with residual_bytes :=
          (max 0 (satSubIter (cget W i).residual_bytes P.bundle_bytes
            (routeUses (cgr_best_route W P NI) (cget W i).id) -
            (countUses ((kRoutesIter P NI k W2 []).1) (cget W i).id : ℚ) *
              P.bundle_bytes)) } : Contact) = _
        rw [hsat, max_sat_compose _ _ (by positivity)]
        have harith : (cget W i).residual_bytes -
            (routeUses (cgr_best_route W P NI) (cget W i).id : ℚ) * P.bundle_bytes -
            (countUses ((kRoutesIter P NI k W2 []).1) (cget W i).id : ℚ) *
              P.bundle_bytes =
            (cget W i).residual_bytes -
            ((routeUses (cgr_best_route W P NI) (cget W i).id +
              countUses ((kRoutesIter P NI k W2 []).1) (cget W i).id : Nat) : ℚ) *
              P.bundle_bytes := by
          push_cast
          ring
        rw [harith]
      · rw [ihlen, hW2len]
      · intro hlt
        apply ihstop
        simp only [List.length_append, List.length_nil,
          List.length_singleton] at hlt
        omega

theorem kRoutesIter_none (P : CgrParams) :
    ∀ k (W : List Contact) (acc : List Route),
      kRoutesIter P none k W acc = (acc, W) := by
  intro k
  cases k with
  | zero =>
    intro W acc
    rfl
  | succ k =>
    intro W acc
    simp only [kRoutesIter]
    have h : ¬ (cgr_best_route W P none).found := by
      rw [show (cgr_best_route W P none).found = false from rfl]
      simp
    rw [if_pos h]

theorem kroutes_items (C : List Contact) (P : CgrParams)
    (NI : Option NeighborIndex) (K : Int) :
    (cgr_k_routes C P NI K).items = (kRoutesIter P NI K.toNat C []).1 := by
  unfold cgr_k_routes
  by_cases h : K ≤ 0 ∨ NI = none
  · rw [if_pos h]
    rcases h with h | h
    · rw [show K.toNat = 0 from Int.toNat_of_nonpos h]
      rfl
    · rw [h, kRoutesIter_none]
  · rw [if_neg h]

/-- Claim C5: for a plan with unique contact ids (and the data-model
invariants residual_bytes >= 0 and bundle_bytes >= 0) and K >= 1, after
cgr_k_routes, every contact of the working copy whose id is used m times
across the returned routes ends with residual max(0, initial - m * B),
the function returns at most K routes, and when it returns fewer than K the
iteration stopped because the next best-route search on the final working
copy comes back not found. -/
theorem claim_C5 (C : List Contact) (P : CgrParams) (NI : Option NeighborIndex)
    (K : Int) (hK : 1 ≤ K) (hnd : NoDupIds C)
    (hres : ∀ c ∈ C, 0 ≤ c.residual_bytes) (hB : 0 ≤ P.bundle_bytes) :
    (∀ i, i < C.length →
      cget ((kRoutesIter P NI K.toNat C []).2) i =
        { cget C i with residual_bytes :=
            (max 0 ((cget C i).residual_bytes -
              (countUses (cgr_k_routes C P NI K).items (cget C i).id : ℚ) *
                P.bundle_bytes)) }) ∧
    (cgr_k_routes C P NI K).items.length ≤ K.toNat ∧
    ((cgr_k_routes C P NI K).items.length < K.toNat →
      (cgr_best_route ((kRoutesIter P NI K.toNat C []).2) P NI).found = false) := by
  rcases kRoutesIter_consumption P NI hB K.toNat C hnd hres with ⟨h1, _, h3⟩
  refine ⟨?_, ?_, ?_⟩
  · intro i hi
    rw [kroutes_items]
    exact h1 i hi
  · rw [kroutes_items]
    have h := (kRoutesIter_facts P NI K.toNat C []).1
    simpa using h
  · rw [kroutes_items]
    exact h3

theorem claim_C5_witness :
    (1 ≤ (3 : Int)) ∧ NoDupIds [wc0, wc1] ∧
      (∀ c ∈ [wc0, wc1], 0 ≤ c.residual_bytes) ∧ 0 ≤ wP.bundle_bytes ∧
      (cgr_k_routes [wc0, wc1] wP (build_neighbor_index [wc0, wc1]) 3).items.length ≤
        (3 : Int).toNat :=
  ⟨by decide, by decide, by decide, by decide,
    (claim_C5 [wc0, wc1] wP (build_neighbor_index [wc0, wc1]) 3
      (by decide) (by decide) (by decide) (by decide)).2.1⟩

/-! ### Claim C9: cost of the attempts loop of cgr_k_yen -/

theorem yenScanPosC_fst (C : List Contact) (P : CgrParams)
    (NI : Option NeighborIndex) (out : List Route) (ref : Route) :
    ∀ (ps : List Nat) (b : Option Route),
      (yenScanPosC C P NI out ref ps b).1 = yenScanPos C P NI out ref ps b := by
  intro ps
  induction ps with
  | nil =>
    intro b
    rfl
  | cons i rest ih =>
    intro b
    simp only [yenScanPosC, yenScanPos]
    by_cases h1 : ¬ (yenCand C P NI ref i).found
    · rw [if_pos h1, if_pos h1, ih]
    · rw [if_neg h1, if_neg h1]
      by_cases h2 : route_already_exists out (yenCand C P NI ref i)
      · rw [if_pos h2, if_pos h2, ih]
      · rw [if_neg h2, if_neg h2]
        by_cases h3 : olt (yenCand C P NI ref i).eta (bestEta b)
        · rw [if_pos h3, if_pos h3, ih]
        · rw [if_neg h3, if_neg h3, ih]

theorem yenScanPosC_snd (C : List Contact) (P : CgrParams)
    (NI : Option NeighborIndex) (out : List Route) (ref : Route) :
    ∀ (ps : List Nat) (b : Option Route),
      (yenScanPosC C P NI out ref ps b).2 = ps.length := by
  intro ps
  induction ps with
  | nil =>
    intro b
    rfl
  | cons i rest ih =>
    intro b
    simp only [yenScanPosC, List.length_cons]
    by_cases h1 : ¬ (yenCand C P NI ref i).found
    · rw [if_pos h1]
      rw [show ((yenScanPosC C P NI out ref rest b).1,
        (yenScanPosC C P NI out ref rest b).2 + 1).2 =
        (yenScanPosC C P NI out ref rest b).2 + 1 from rfl, ih]
    · rw [if_neg h1]
      by_cases h2 : route_already_exists out (yenCand C P NI ref i)
      · rw [if_pos h2]
        rw [show ((yenScanPosC C P NI out ref rest b).1,
          (yenScanPosC C P NI out ref rest b).2 + 1).2 =
          (yenScanPosC C P NI out ref rest b).2 + 1 from rfl, ih]
      · rw [if_neg h2]
        by_cases h3 : olt (yenCand C P NI ref i).eta (bestEta b)
        · rw [if_pos h3]
          rw [show ((yenScanPosC C P NI out ref rest
            (some (yenCand C P NI ref i))).1,
            (yenScanPosC C P NI out ref rest
              (some (yenCand C P NI ref i))).2 + 1).2 =
            (yenScanPosC C P NI out ref rest
              (some (yenCand C P NI ref i))).2 + 1 from rfl, ih]
        · rw [if_neg h3]
          rw [show ((yenScanPosC C P NI out ref rest b).1,
            (yenScanPosC C P NI out ref rest b).2 + 1).2 =
            (yenScanPosC C P NI out ref rest b).2 + 1 from rfl, ih]

theorem yenScanRoutesC_fst (C : List Contact) (P : CgrParams)
    (NI : Option NeighborIndex) (out : List Route) :
    ∀ (refs : List Route) (b : Option Route),
      (yenScanRoutesC C P NI out refs b).1 = yenScanRoutes C P NI out refs b := by
  intro refs
  induction refs with
  | nil =>
    intro b
    rfl
  | cons ref rest ih =>
    intro b
    simp only [yenScanRoutesC, yenScanRoutes]
    rw [ih, yenScanPosC_fst]

theorem yenScanRoutesC_snd (C : List Contact) (P : CgrParams)
    (NI : Option NeighborIndex) (out : List Route) :
    ∀ (refs : List Route) (b : Option Route),
      (yenScanRoutesC C P NI out refs b).2 = hopSum refs := by
  intro refs
  induction refs with
  | nil =>
    intro b
    rfl
  | cons ref rest ih =>
    intro b
    simp only [yenScanRoutesC]
    rw [yenScanPosC_snd, ih, List.length_range]
    simp [hopSum]

theorem yenRoundsC_fst (C : List Contact) (P : CgrParams)
    (NI : Option NeighborIndex) (K : Nat) :
    ∀ (att : Nat) (out : List Route),
      (yenRoundsC C P NI K att out).1 = yenRounds C P NI K att out := by
  intro att
  induction att with
  | zero =>
    intro out
    rfl
  | succ att ih =>
    intro out
    simp only [yenRoundsC, yenRounds]
    by_cases hK : K ≤ out.length
    · rw [if_pos hK, if_pos hK]
    · rw [if_neg hK, if_neg hK]
      have hsc : yenScanRoutes C P NI out out none =
          (yenScanRoutesC C P NI out out none).1 :=
        (yenScanRoutesC_fst C P NI out out none).symm
      rcases hpair : yenScanRoutesC C P NI out out none with ⟨o, d⟩
      rw [hpair] at hsc
      rw [hsc]
      cases o with
      | none => rfl
      | some best =>
        simp only
        exact ih (out ++ [best])

theorem yenRounds_growth (C : List Contact) (P : CgrParams)
    (NI : Option NeighborIndex) (K : Nat) :
    ∀ (att : Nat) (out : List Route),
      ∃ t, yenRounds C P NI K att out = out ++ t := by
  intro att
  induction att with
  | zero =>
    intro out
    exact ⟨[], by simp [yenRounds]⟩
  | succ att ih =>
    intro out
    simp only [yenRounds]
    by_cases hK : K ≤ out.length
    · rw [if_pos hK]
      exact ⟨[], by simp⟩
    · rw [if_neg hK]
      cases ho : yenScanRoutes C P NI out out none with
      | none => exact ⟨[], by simp⟩
      | some best =>
        rcases ih (out ++ [best]) with ⟨t, ht⟩
        refine ⟨[best] ++ t, ?_⟩
        show yenRounds C P NI K att (out ++ [best]) = out ++ ([best] ++ t)
        rw [ht, List.append_assoc]

theorem hopSum_append (a b : List Route) :
    hopSum (a ++ b) = hopSum a + hopSum b := by
  unfold hopSum
  rw [List.map_append, List.sum_append]

theorem yenRoundsC_rounds_le (C : List Contact) (P : CgrParams)
    (NI : Option NeighborIndex) (K : Nat) :
    ∀ (att : Nat) (out : List Route),
      (yenRoundsC C P NI K att out).2.2 ≤ att := by
  intro att
  induction att with
  | zero =>
    intro out
    exact Nat.le_refl 0
  | succ att ih =>
    intro out
    simp only [yenRoundsC]
    by_cases hK : K ≤ out.length
    · rw [if_pos hK]
      exact Nat.zero_le _
    · rw [if_neg hK]
      rcases hpair : yenScanRoutesC C P NI out out none with ⟨o, d⟩
      cases o with
      | none =>
        simp only
        omega
      | some best =>
        simp only
        have := ih (out ++ [best])
        omega

theorem yenRoundsC_dcalls_le (C : List Contact) (P : CgrParams)
    (NI : Option NeighborIndex) (K : Nat) :
    ∀ (att : Nat) (out : List Route),
      (yenRoundsC C P NI K att out).2.1 ≤
        att * hopSum (yenRounds C P NI K att out) := by
  intro att
  induction att with
  | zero =>
    intro out
    simp [yenRoundsC]
  | succ att ih =>
    intro out
    simp only [yenRoundsC, yenRounds]
    by_cases hK : K ≤ out.length
    · rw [if_pos hK, if_pos hK]
      exact Nat.zero_le _
    · rw [if_neg hK, if_neg hK]
      have hsc : yenScanRoutes C P NI out out none =
          (yenScanRoutesC C P NI out out none).1 :=
        (yenScanRoutesC_fst C P NI out out none).symm
      rcases hpair : yenScanRoutesC C P NI out out none with ⟨o, d⟩
      rw [hpair] at hsc
      have hd : d = hopSum out := by
        have h := yenScanRoutesC_snd C P NI out out none
        rw [hpair] at h
        exact h
      rw [hsc]
      cases o with
      | none =>
        simp only
        rw [hd]
        calc hopSum out ≤ (att + 1) * hopSum out :=
              Nat.le_mul_of_pos_left _ (Nat.succ_pos att)
      | some best =>
        simp only
        have hih := ih (out ++ [best])
        rcases yenRounds_growth C P NI K att (out ++ [best]) with ⟨t, ht⟩
        have hmono : hopSum out ≤ hopSum (yenRounds C P NI K att (out ++ [best])) := by
          rw [ht, List.append_assoc, hopSum_append]
          omega
        rw [hd]
        have := Nat.add_le_add hmono hih
        calc hopSum out + (yenRoundsC C P NI K att (out ++ [best])).2.1 ≤
              hopSum (yenRounds C P NI K att (out ++ [best])) +
                att * hopSum (yenRounds C P NI K att (out ++ [best])) := this
          _ = (att + 1) * hopSum (yenRounds C P NI K att (out ++ [best])) := by ring

/-- A 41 hop chain plan: contact i carries node i to node i + 1 over the
window 0 to 1000 at 2 bytes per second. -/
def chainC : List Contact :=
  (List.range 41).map (fun i =>
    ⟨(i : Int), (i : Int), (i : Int) + 1, 0, 1000, 0, 2, 0, 10 ^ 9⟩)

/-- Request from node 0 to node 41 at t0 = 0 with a 2 byte bundle. -/
def chainP : CgrParams := ⟨0, 41, 0, 2, 0⟩

/-- One executed attempt round performs at least one filtered search per hop
position of every collected route. -/
theorem yenRoundsC_dcalls_ge (C : List Contact) (P : CgrParams)
    (NI : Option NeighborIndex) (K : Nat) (att : Nat) (out : List Route)
    (hK : ¬ K ≤ out.length) (hatt : att ≠ 0) :
    hopSum out ≤ (yenRoundsC C P NI K att out).2.1 := by
  obtain ⟨att2, rfl⟩ : ∃ a, att = a + 1 := ⟨att - 1, by omega⟩
  simp only [yenRoundsC]
  rw [if_neg hK]
  rcases hsc : yenScanRoutesC C P NI out out none with ⟨o, d⟩
  have hd : d = hopSum out := by
    have h := yenScanRoutesC_snd C P NI out out none
    rw [hsc] at h
    exact h
  cases o with
  | none =>
    simp only
    omega
  | some best =>
    simp only
    omega

set_option maxHeartbeats 1000000 in
/-- Claim C9 counterexample: the base route of the chain plan has 41 hops, so
the very first attempt round of cgr_k_yen with K = 2 already performs 41
invocations of the filtered search, more than max_attempts = 20 * K = 40.
The max_attempts counter bounds outer rounds, not filtered search
invocations. -/
theorem claim_C9_counterexample :
    (20 * 2 : Nat) <
      cgr_k_yen_dcalls chainC chainP (build_neighbor_index chainC) 2 := by
  have hfound : (cgr_best_route_filtered chainC chainP
      (build_neighbor_index chainC) none).found = true := by decide
  have hhops : (cgr_best_route_filtered chainC chainP
      (build_neighbor_index chainC) none).hops = 41 := by decide
  unfold cgr_k_yen_dcalls
  rw [if_neg (by decide), if_neg (by rw [hfound]; simp)]
  have hge := yenRoundsC_dcalls_ge chainC chainP (build_neighbor_index chainC)
    (2 : Int).toNat ((2 : Int) * 20).toNat
    [cgr_best_route_filtered chainC chainP (build_neighbor_index chainC) none]
    (by simp) (by decide)
  have hsum : hopSum [cgr_best_route_filtered chainC chainP
      (build_neighbor_index chainC) none] = 41 := by
    simp [hopSum, hhops]
  rw [hsum] at hge
  omega

/-- Claim C9, amended: the attempts counter of cgr_k_yen bounds the number of
outer rounds by max_attempts = 20 * K; each round invokes the filtered search
once per hop position of every collected route, so the number of filtered
search invocations beyond the base one is at most 20 * K times the total hop
count of the returned routes, not 20 * K. -/
theorem claim_C9_theorem (C : List Contact) (P : CgrParams)
    (NI : Option NeighborIndex) (K : Int) :
    cgr_k_yen_rounds C P NI K ≤ (K * 20).toNat ∧
    cgr_k_yen_dcalls C P NI K ≤
      (K * 20).toNat * hopSum (cgr_k_yen C P NI K).items := by
  constructor
  · unfold cgr_k_yen_rounds
    by_cases h1 : K ≤ 0 ∨ NI = none
    · rw [if_pos h1]
      exact Nat.zero_le _
    · rw [if_neg h1]
      by_cases h2 : ¬ (cgr_best_route_filtered C P NI none).found
      · rw [if_pos h2]
        exact Nat.zero_le _
      · rw [if_neg h2]
        exact yenRoundsC_rounds_le C P NI K.toNat (K * 20).toNat _
  · unfold cgr_k_yen_dcalls cgr_k_yen
    by_cases h1 : K ≤ 0 ∨ NI = none
    · rw [if_pos h1, if_pos h1]
      exact Nat.zero_le _
    · rw [if_neg h1, if_neg h1]
      simp only
      by_cases h2 : ¬ (cgr_best_route_filtered C P NI none).found
      · rw [if_pos h2, if_pos h2]
        exact Nat.zero_le _
      · rw [if_neg h2, if_neg h2]
        have h := yenRoundsC_dcalls_le C P NI K.toNat (K * 20).toNat
          [cgr_best_route_filtered C P NI none]
        exact h

/-! ### Monotonicity and feasibility facts about the single hop evaluation,
used by the chain and optimality invariants of the main search loop -/

/-- The section 3 data model invariants of a plan needed by the search
analysis: nonnegative setup times, residuals and light times. -/
def ContactsOK (C : List Contact) : Prop :=
  ∀ c ∈ C, 0 ≤ c.setup_s ∧ 0 ≤ c.residual_bytes ∧ 0 ≤ c.owlt

instance (C : List Contact) : Decidable (ContactsOK C) :=
  inferInstanceAs (Decidable (∀ c ∈ C, _ ∧ _ ∧ _))

theorem cget_mem (C : List Contact) (j : Nat) (hj : j < C.length) :
    cget C j ∈ C := by
  rw [cget, List.getD_eq_getElem C cdef hj]
  exact List.getElem_mem _

theorem eta_some_iff (c : Contact) (t B e : ℚ)
    (hsetup : 0 ≤ c.setup_s) (hres : 0 ≤ c.residual_bytes)
    (hB : EPS_BYTES < B) (q : ℚ) :
    eta_contact c t B e = some q ↔
      spec4C_feasible c t B e ∧ q = spec4C_eta c t B := by
  rw [eta_contact_characterisation c t B e hsetup hres hB]
  by_cases hF : spec4C_feasible c t B e
  · rw [if_pos hF]
    constructor
    · intro h
      exact ⟨hF, (Option.some_injective _ h).symm⟩
    · intro ⟨_, hq⟩
      rw [hq]
  · rw [if_neg hF]
    constructor
    · intro h
      exact absurd h (by simp)
    · intro ⟨h, _⟩
      exact absurd h hF

theorem eta_none_iff (c : Contact) (t B e : ℚ)
    (hsetup : 0 ≤ c.setup_s) (hres : 0 ≤ c.residual_bytes)
    (hB : EPS_BYTES < B) :
    eta_contact c t B e = none ↔ ¬ spec4C_feasible c t B e := by
  rw [eta_contact_characterisation c t B e hsetup hres hB]
  by_cases hF : spec4C_feasible c t B e
  · rw [if_pos hF]
    simp [hF]
  · rw [if_neg hF]
    simp [hF]

theorem spec4C_eta_gt (c : Contact) (t B : ℚ)
    (hsetup : 0 ≤ c.setup_s) (howlt : 0 ≤ c.owlt) (hB : 0 < B) :
    t < spec4C_eta c t B := by
  unfold spec4C_eta
  have h1 : t ≤ max t c.t_start := le_max_left _ _
  have h2 : (0 : ℚ) < B / max c.rate_bps 1 := by
    apply div_pos hB
    exact lt_of_lt_of_le one_pos (le_max_right _ _)
  linarith

theorem spec4C_eta_mono (c : Contact) (t t2 B : ℚ) (h : t ≤ t2) :
    spec4C_eta c t B ≤ spec4C_eta c t2 B := by
  unfold spec4C_eta
  have : max t c.t_start ≤ max t2 c.t_start := max_le_max h (le_refl _)
  linarith

theorem spec4C_feasible_mono (c : Contact) (t t2 B e : ℚ) (h : t ≤ t2)
    (hF : spec4C_feasible c t2 B e) : spec4C_feasible c t B e := by
  rcases hF with ⟨h1, h2, h3, h4⟩
  have hmax : max t c.t_start ≤ max t2 c.t_start := max_le_max h (le_refl _)
  have hW : effWindow c t2 ≤ effWindow c t := by
    unfold effWindow
    linarith
  have hrate : (0 : ℚ) < max c.rate_bps 1 :=
    lt_of_lt_of_le one_pos (le_max_right _ _)
  refine ⟨by linarith, ?_, by linarith, ?_⟩
  · have : effWindow c t2 * max c.rate_bps 1 ≤ effWindow c t * max c.rate_bps 1 :=
      mul_le_mul_of_nonneg_right hW (le_of_lt hrate)
    have hmin : min c.residual_bytes (effWindow c t2 * max c.rate_bps 1) ≤
        min c.residual_bytes (effWindow c t * max c.rate_bps 1) :=
      min_le_min (le_refl _) this
    linarith
  · intro he
    have := h4 he
    have hmono := spec4C_eta_mono c t t2 B h
    linarith

theorem eta_arrival_lt (c : Contact) (t B e q : ℚ)
    (hsetup : 0 ≤ c.setup_s) (hres : 0 ≤ c.residual_bytes)
    (howlt : 0 ≤ c.owlt) (hB : EPS_BYTES < B)
    (h : eta_contact c t B e = some q) : t < q := by
  rcases (eta_some_iff c t B e hsetup hres hB q).mp h with ⟨_, hq⟩
  rw [hq]
  exact spec4C_eta_gt c t B hsetup howlt (lt_trans eps_bytes_pos hB)

theorem eta_mono (c : Contact) (t t2 B e q2 : ℚ)
    (hsetup : 0 ≤ c.setup_s) (hres : 0 ≤ c.residual_bytes)
    (hB : EPS_BYTES < B) (h : t ≤ t2)
    (h2 : eta_contact c t2 B e = some q2) :
    ∃ q, eta_contact c t B e = some q ∧ q ≤ q2 := by
  rcases (eta_some_iff c t2 B e hsetup hres hB q2).mp h2 with ⟨hF2, hq2⟩
  refine ⟨spec4C_eta c t B, ?_, ?_⟩
  · exact (eta_some_iff c t B e hsetup hres hB _).mpr
      ⟨spec4C_feasible_mono c t t2 B e h hF2, rfl⟩
  · rw [hq2]
    exact spec4C_eta_mono c t t2 B h

theorem eta_none_mono (c : Contact) (t t2 B e : ℚ)
    (hsetup : 0 ≤ c.setup_s) (hres : 0 ≤ c.residual_bytes)
    (hB : EPS_BYTES < B) (h : t ≤ t2)
    (hn : eta_contact c t B e = none) : eta_contact c t2 B e = none := by
  rw [eta_none_iff c t B e hsetup hres hB] at hn
  rw [eta_none_iff c t2 B e hsetup hres hB]
  intro hF2
  exact hn (spec4C_feasible_mono c t t2 B e h hF2)

theorem eta_expiry_bound (c : Contact) (t B e q : ℚ)
    (hsetup : 0 ≤ c.setup_s) (hres : 0 ≤ c.residual_bytes)
    (hB : EPS_BYTES < B) (he : 0 < e)
    (h : eta_contact c t B e = some q) : q ≤ e + EPS_TIME := by
  rcases (eta_some_iff c t B e hsetup hres hB q).mp h with ⟨⟨_, _, _, h4⟩, hq⟩
  rw [hq]
  exact h4 he

theorem viable_of_eta_some (c : Contact) (t B e q : ℚ)
    (hsetup : 0 ≤ c.setup_s) (hres : 0 ≤ c.residual_bytes)
    (hB : EPS_BYTES < B) (h : eta_contact c t B e = some q) :
    contact_is_viable c t B = true := by
  rcases (eta_some_iff c t B e hsetup hres hB q).mp h with ⟨⟨h1, h2, h3, _⟩, _⟩
  have hW : window_of c t = effWindow c t := window_of_eq c t
  have hrf : rate_floor c = max c.rate_bps 1 := rate_floor_eq_max c
  have ht1 : ¬ t > c.t_end + EPS_TIME := by
    unfold effWindow at h1
    have := le_max_left t c.t_start
    have := eps_time_pos
    simp only [not_lt]
    linarith
  unfold contact_is_viable
  rw [if_neg ht1, hW, if_neg (by linarith), hrf, if_lt_eq_min]
  rw [if_neg (by linarith)]
  have hfin : finish_of c t B = max t c.t_start + c.setup_s + B / max c.rate_bps 1 := by
    unfold finish_of tx_time
    rw [start_tx_eq_max, hrf]
  rw [if_neg (by rw [hfin]; linarith)]

theorem eta_none_of_not_viable (c : Contact) (t B e : ℚ)
    (hsetup : 0 ≤ c.setup_s) (hres : 0 ≤ c.residual_bytes)
    (hB : EPS_BYTES < B) (h : ¬ contact_is_viable c t B = true) :
    eta_contact c t B e = none := by
  cases hq : eta_contact c t B e with
  | none => rfl
  | some q =>
    exact absurd (viable_of_eta_some c t B e q hsetup hres hB hq) h

/-! ### Soundness and completeness of the neighbor index -/

theorem maxNode_acc_le (C : List Contact) :
    ∀ acc : Int, acc ≤ C.foldl (fun m c => max3 m c.cfrom c.cto) acc := by
  induction C with
  | nil =>
    intro acc
    exact le_refl _
  | cons c rest ih =>
    intro acc
    rw [List.foldl_cons]
    refine le_trans ?_ (ih (max3 acc c.cfrom c.cto))
    unfold max3
    exact le_trans (le_max_left _ _) (le_max_left _ _)

theorem maxNode_ge_mem (C : List Contact) :
    ∀ c ∈ C, c.cfrom ≤ maxNode C ∧ c.cto ≤ maxNode C := by
  unfold maxNode
  suffices h : ∀ acc : Int, ∀ c ∈ C,
      c.cfrom ≤ C.foldl (fun m c => max3 m c.cfrom c.cto) acc ∧
      c.cto ≤ C.foldl (fun m c => max3 m c.cfrom c.cto) acc by
    exact h 0
  induction C with
  | nil =>
    intro acc c hc
    exact absurd hc (by simp)
  | cons c0 rest ih =>
    intro acc c hc
    rw [List.mem_cons] at hc
    rcases hc with hc | hc
    · subst hc
      rw [List.foldl_cons]
      constructor
      · refine le_trans ?_ (maxNode_acc_le rest (max3 acc c.cfrom c.cto))
        unfold max3
        exact le_trans (le_max_right _ _) (le_max_left _ _)
      · refine le_trans ?_ (maxNode_acc_le rest (max3 acc c.cfrom c.cto))
        unfold max3
        exact le_max_right _ _
    · rw [List.foldl_cons]
      exact ih (max3 acc c0.cfrom c0.cto) c hc

theorem maxNode_nonneg (C : List Contact) : 0 ≤ maxNode C :=
  maxNode_acc_le C 0

theorem fillIndex_mono (C : List Contact) (cap : Nat) :
    ∀ (ws : List Nat) (tbl : List (List Nat)) (n : Nat) (j : Nat),
      j ∈ tbl.getD n [] → j ∈ (fillIndex C cap ws tbl).getD n [] := by
  intro ws
  induction ws with
  | nil =>
    intro tbl n j hj
    exact hj
  | cons i rest ih =>
    intro tbl n j hj
    simp only [fillIndex]
    by_cases hg : (cget C i).cfrom < 0 ∨ (cap : Int) ≤ (cget C i).cfrom
    · rw [if_pos hg]
      exact ih tbl n j hj
    · rw [if_neg hg]
      apply ih
      rw [List.getD_eq_getElem?_getD, List.getElem?_set]
      by_cases he : ((cget C i).cfrom).toNat = n
      · rw [if_pos he]
        by_cases hlen : ((cget C i).cfrom).toNat < tbl.length
        · rw [if_pos hlen]
          simp only [Option.getD_some]
          rw [List.mem_append]
          left
          rw [he]
          exact hj
        · rw [if_neg hlen]
          rw [List.getD_eq_getElem?_getD,
            List.getElem?_eq_none (by omega : tbl.length ≤ n)] at hj
          simp at hj
      · rw [if_neg he]
        rw [List.getD_eq_getElem?_getD] at hj
        exact hj

theorem fillIndex_sound (C : List Contact) (cap : Nat) :
    ∀ (ws : List Nat) (tbl : List (List Nat)) (n : Nat) (j : Nat),
      j ∈ (fillIndex C cap ws tbl).getD n [] → j ∈ tbl.getD n [] ∨ j ∈ ws := by
  intro ws
  induction ws with
  | nil =>
    intro tbl n j hj
    exact Or.inl hj
  | cons i rest ih =>
    intro tbl n j hj
    simp only [fillIndex] at hj
    by_cases hg : (cget C i).cfrom < 0 ∨ (cap : Int) ≤ (cget C i).cfrom
    · rw [if_pos hg] at hj
      rcases ih tbl n j hj with h | h
      · exact Or.inl h
      · exact Or.inr (List.mem_cons_of_mem _ h)
    · rw [if_neg hg] at hj
      rcases ih _ n j hj with h | h
      · rw [List.getD_eq_getElem?_getD, List.getElem?_set] at h
        by_cases he : ((cget C i).cfrom).toNat = n
        · rw [if_pos he] at h
          by_cases hlen : ((cget C i).cfrom).toNat < tbl.length
          · rw [if_pos hlen] at h
            simp only [Option.getD_some] at h
            rw [List.mem_append] at h
            rcases h with h | h
            · left
              rw [← he]
              exact h
            · rw [List.mem_singleton] at h
              subst h
              exact Or.inr (List.mem_cons_self _ _)
          · rw [if_neg hlen] at h
            simp at h
        · rw [if_neg he] at h
          exact Or.inl (by rw [List.getD_eq_getElem?_getD]; exact h)
      · exact Or.inr (List.mem_cons_of_mem _ h)

theorem fillIndex_complete (C : List Contact) (cap : Nat) :
    ∀ (ws : List Nat) (tbl : List (List Nat)) (i : Nat), i ∈ ws →
      0 ≤ (cget C i).cfrom → (cget C i).cfrom < (cap : Int) →
      ((cget C i).cfrom).toNat < tbl.length →
      i ∈ (fillIndex C cap ws tbl).getD ((cget C i).cfrom).toNat [] := by
  intro ws
  induction ws with
  | nil =>
    intro tbl i hi
    exact absurd hi (by simp)
  | cons w rest ih =>
    intro tbl i hi h0 hcap hlen
    rw [List.mem_cons] at hi
    simp only [fillIndex]
    rcases hi with hi | hi
    · subst hi
      rw [if_neg (by push_neg; exact ⟨h0, hcap⟩)]
      apply fillIndex_mono
      rw [List.getD_eq_getElem?_getD, List.getElem?_set, if_pos rfl, if_pos hlen]
      simp only [Option.getD_some]
      rw [List.mem_append]
      right
      exact List.mem_singleton.mpr rfl
    · by_cases hg : (cget C w).cfrom < 0 ∨ (cap : Int) ≤ (cget C w).cfrom
      · rw [if_pos hg]
        exact ih tbl i hi h0 hcap hlen
      · rw [if_neg hg]
        exact ih _ i hi h0 hcap (by simp [hlen])

theorem byFrom_build_sound (C : List Contact) (ni : NeighborIndex)
    (hni : build_neighbor_index C = some ni) :
    ∀ n j, j ∈ byFromGet ni n → j < C.length := by
  intro n j hj
  unfold build_neighbor_index at hni
  by_cases h0 : C.length = 0
  · rw [if_pos h0] at hni
    exact absurd hni (by simp)
  · rw [if_neg h0] at hni
    simp only [Option.some_injective] at hni
    have hbf : ni.by_from = fillIndex C (maxNode C + 1).toNat
        (List.range C.length) (List.replicate (maxNode C + 1).toNat []) := by
      rw [← Option.some_injective _ hni]
    unfold byFromGet at hj
    rw [hbf] at hj
    rcases fillIndex_sound C _ _ _ n j hj with h | h
    · rw [List.getD_eq_getElem?_getD] at h
      by_cases hlt : n < (List.replicate (maxNode C + 1).toNat ([] : List Nat)).length
      · rw [List.getElem?_eq_getElem hlt] at h
        simp only [Option.getD_some, List.getElem_replicate] at h
        exact absurd h (by simp)
      · rw [List.getElem?_eq_none (by omega)] at h
        exact absurd h (by simp)
    · exact List.mem_range.mp h

theorem node_cap_build (C : List Contact) (ni : NeighborIndex)
    (hni : build_neighbor_index C = some ni) :
    (ni.node_cap : Int) = maxNode C + 1 := by
  unfold build_neighbor_index at hni
  by_cases h0 : C.length = 0
  · rw [if_pos h0] at hni
    exact absurd hni (by simp)
  · rw [if_neg h0] at hni
    have hcap : ni.node_cap = (maxNode C + 1).toNat := by
      rw [← Option.some_injective _ hni]
    rw [hcap, Int.toNat_of_nonneg (by have := maxNode_nonneg C; omega)]

theorem byFrom_build_complete (C : List Contact) (ni : NeighborIndex)
    (hni : build_neighbor_index C = some ni) (i : Nat)
    (hi : i < C.length) (h0 : 0 ≤ (cget C i).cfrom) :
    i ∈ byFromGet ni ((cget C i).cfrom).toNat := by
  unfold build_neighbor_index at hni
  rw [if_neg (by omega)] at hni
  have hbf : ni.by_from = fillIndex C (maxNode C + 1).toNat
      (List.range C.length) (List.replicate (maxNode C + 1).toNat []) := by
    rw [← Option.some_injective _ hni]
  unfold byFromGet
  rw [hbf]
  have hle : (cget C i).cfrom ≤ maxNode C :=
    (maxNode_ge_mem C (cget C i) (cget_mem C i hi)).1
  have hcap : (cget C i).cfrom < (((maxNode C + 1).toNat : Nat) : Int) := by
    rw [Int.toNat_of_nonneg (by have := maxNode_nonneg C; omega)]
    omega
  apply fillIndex_complete C _ _ _ i (List.mem_range.mpr hi) h0 hcap
  rw [List.length_replicate]
  omega

/-- Slot correctness of fillIndex: a new member of slot n is a worklist
element whose origin node is exactly n. -/
theorem fillIndex_slot (C : List Contact) (cap : Nat) :
    ∀ (ws : List Nat) (tbl : List (List Nat)) (n : Nat) (j : Nat),
      j ∈ (fillIndex C cap ws tbl).getD n [] →
      j ∈ tbl.getD n [] ∨
        (j ∈ ws ∧ 0 ≤ (cget C j).cfrom ∧ ((cget C j).cfrom).toNat = n) := by
  intro ws
  induction ws with
  | nil =>
    intro tbl n j hj
    exact Or.inl hj
  | cons i rest ih =>
    intro tbl n j hj
    simp only [fillIndex] at hj
    by_cases hg : (cget C i).cfrom < 0 ∨ (cap : Int) ≤ (cget C i).cfrom
    · rw [if_pos hg] at hj
      rcases ih tbl n j hj with h | h
      · exact Or.inl h
      · exact Or.inr ⟨List.mem_cons_of_mem _ h.1, h.2⟩
    · rw [if_neg hg] at hj
      push_neg at hg
      rcases ih _ n j hj with h | h
      · rw [List.getD_eq_getElem?_getD, List.getElem?_set] at h
        by_cases he : ((cget C i).cfrom).toNat = n
        · rw [if_pos he] at h
          by_cases hlen : ((cget C i).cfrom).toNat < tbl.length
          · rw [if_pos hlen] at h
            simp only [Option.getD_some] at h
            rw [List.mem_append] at h
            rcases h with h | h
            · left
              rw [← he]
              exact h
            · rw [List.mem_singleton] at h
              subst h
              exact Or.inr ⟨List.mem_cons_self _ _, hg.1, he⟩
          · rw [if_neg hlen] at h
            simp at h
        · rw [if_neg he] at h
          exact Or.inl (by rw [List.getD_eq_getElem?_getD]; exact h)
      · exact Or.inr ⟨List.mem_cons_of_mem _ h.1, h.2⟩

/-- The slots of a built neighbor index hold exactly indices of contacts
leaving the slot node. -/
theorem byFrom_build_from (C : List Contact) (ni : NeighborIndex)
    (hni : build_neighbor_index C = some ni) :
    ∀ n j, j ∈ byFromGet ni n → j < C.length ∧ (cget C j).cfrom = (n : Int) := by
  intro n j hj
  refine ⟨byFrom_build_sound C ni hni n j hj, ?_⟩
  unfold build_neighbor_index at hni
  by_cases h0 : C.length = 0
  · rw [if_pos h0] at hni
    exact absurd hni (by simp)
  · rw [if_neg h0] at hni
    have hbf : ni.by_from = fillIndex C (maxNode C + 1).toNat
        (List.range C.length) (List.replicate (maxNode C + 1).toNat []) := by
      rw [← Option.some_injective _ hni]
    unfold byFromGet at hj
    rw [hbf] at hj
    rcases fillIndex_slot C _ _ _ n j hj with h | h
    · rw [List.getD_eq_getElem?_getD] at h
      by_cases hlt : n < (List.replicate (maxNode C + 1).toNat ([] : List Nat)).length
      · rw [List.getElem?_eq_getElem hlt] at h
        simp only [Option.getD_some, List.getElem_replicate] at h
        exact absurd h (by simp)
      · rw [List.getElem?_eq_none (by omega)] at h
        exact absurd h (by simp)
    · rcases h with ⟨_, hpos, htn⟩
      omega

/-! ### The chain soundness invariant of the main search -/

/-- Chain soundness of the label array: every finite label belongs to a non
banned contact and either is a root seeded from the source node with its
exact single hop evaluation at t0, or points to a predecessor contact whose
destination matches its origin, carries a finite label, and justified the
label value through a single hop evaluation at an arrival no earlier than the
predecessor label. -/
def LabChain (C : List Contact) (P : CgrParams) (F : Option CgrFilters)
    (ea : ℚ) (lab : List Label) : Prop :=
  ∀ j, j < C.length → ∀ w, (lget lab j).eta = some w →
    is_banned_id (cget C j).id F = false ∧
    ((lget lab j).prev_idx = none → (cget C j).cfrom = P.src_node ∧
        eta_contact (cget C j) P.t0 P.bundle_bytes ea = some w) ∧
    (∀ p, (lget lab j).prev_idx = some p → p < C.length ∧
        (cget C p).cto = (cget C j).cfrom ∧
        ∃ wp t2, (lget lab p).eta = some wp ∧ wp ≤ t2 ∧
          eta_contact (cget C j) t2 P.bundle_bytes ea = some w)

/-- Priority queue entries: valid contact index, a finite key no smaller than
the label of the contact, and the key an exact single hop output. -/
def EntryInv (C : List Contact) (P : CgrParams) (ea : ℚ)
    (lab pq : List Label) : Prop :=
  ∀ x ∈ pq, x.contact_idx < C.length ∧
    ∃ v, x.eta = some v ∧ oleq (lget lab x.contact_idx).eta (some v) ∧
      ∃ t2, eta_contact (cget C x.contact_idx) t2 P.bundle_bytes ea = some v

theorem lab0_length (C : List Contact) : (lab0 C).length = C.length := by
  simp [lab0]

theorem lget_lab0 (C : List Contact) (j : Nat) (hj : j < C.length) :
    lget (lab0 C) j = ⟨j, none, none⟩ := by
  unfold lget lab0
  rw [List.getElem?_eq_getElem (by simp [hj])]
  simp

theorem lget_lab0_eta (C : List Contact) (j : Nat) :
    (lget (lab0 C) j).eta = none := by
  by_cases hj : j < C.length
  · rw [lget_lab0 C j hj]
  · unfold lget
    rw [List.getElem?_eq_none (by rw [lab0_length]; omega)]
    rfl

theorem labChain_lab0 (C : List Contact) (P : CgrParams)
    (F : Option CgrFilters) (ea : ℚ) : LabChain C P F ea (lab0 C) := by
  intro j hj w hw
  rw [lget_lab0_eta] at hw
  exact absurd hw (by simp)

theorem entryInv_nil (C : List Contact) (P : CgrParams) (ea : ℚ)
    (lab : List Label) : EntryInv C P ea lab [] := by
  intro x hx
  exact absurd hx (by simp)

/-- Setting a root label: preserves chain soundness when the new value is a
strict improvement and carries the exact root facts. -/
theorem labChain_set_root (C : List Contact) (P : CgrParams)
    (F : Option CgrFilters) (ea : ℚ) (lab : List Label) (ci : Nat) (w : ℚ)
    (hch : LabChain C P F ea lab) (hci : ci < C.length)
    (hb : is_banned_id (cget C ci).id F = false)
    (hfrom : (cget C ci).cfrom = P.src_node)
    (heta : eta_contact (cget C ci) P.t0 P.bundle_bytes ea = some w)
    (hdec : olt (some w) (lget lab ci).eta)
    (hlen : lab.length = C.length) :
    LabChain C P F ea (lab.set ci ⟨ci, some w, none⟩) := by
  intro j hj w2 hw2
  rw [lget_set] at hw2
  by_cases hje : ci = j ∧ ci < lab.length
  · rw [if_pos hje] at hw2
    have hw2e : w2 = w := Option.some_injective _ hw2.symm
    subst hw2e
    rcases hje with ⟨hje, _⟩
    subst hje
    refine ⟨hb, ?_, ?_⟩
    · intro _
      exact ⟨hfrom, heta⟩
    · intro p hp
      rw [lget_set, if_pos ⟨rfl, by omega⟩] at hp
      exact absurd hp (by simp)
  · rw [if_neg hje] at hw2
    rcases hch j hj w2 hw2 with ⟨h1, h2, h3⟩
    refine ⟨h1, ?_, ?_⟩
    · intro hp
      rw [lget_set, if_neg hje] at hp
      exact h2 hp
    · intro p hp
      rw [lget_set, if_neg hje] at hp
      rcases h3 p hp with ⟨hp1, hp2, wp, t2, hp3, hp4, hp5⟩
      refine ⟨hp1, hp2, ?_⟩
      by_cases hpe : ci = p ∧ ci < lab.length
      · refine ⟨w, t2, ?_, ?_, hp5⟩
        · rw [lget_set, if_pos hpe]
        · rcases hpe with ⟨hpe, _⟩
          subst hpe
          rw [hp3] at hdec
          have : w < wp := hdec
          linarith
      · refine ⟨wp, t2, ?_, hp4, hp5⟩
        rw [lget_set, if_neg hpe]
        exact hp3

/-- Setting a child label during expansion: preserves chain soundness. -/
theorem labChain_set_child (C : List Contact) (P : CgrParams)
    (F : Option CgrFilters) (ea : ℚ) (lab : List Label) (ci nj : Nat) (w : ℚ)
    (hch : LabChain C P F ea lab) (hnj : nj < C.length)
    (hb : is_banned_id (cget C nj).id F = false)
    (hci : ci < C.length)
    (hadj : (cget C ci).cto = (cget C nj).cfrom)
    (hjust : ∃ wp t2, (lget lab ci).eta = some wp ∧ wp ≤ t2 ∧
      eta_contact (cget C nj) t2 P.bundle_bytes ea = some w)
    (hdec : olt (some (w + EPS_TIME)) (lget lab nj).eta)
    (hlen : lab.length = C.length) :
    LabChain C P F ea (lab.set nj ⟨nj, some w, some ci⟩) := by
  have heps : (0 : ℚ) < EPS_TIME := eps_time_pos
  intro j hj w2 hw2
  rw [lget_set] at hw2
  by_cases hje : nj = j ∧ nj < lab.length
  · rw [if_pos hje] at hw2
    have hw2e : w2 = w := Option.some_injective _ hw2.symm
    rcases hje with ⟨hje, hjlen⟩
    refine ⟨?_, ?_, ?_⟩
    · rw [← hje]
      exact hb
    · intro hp
      rw [lget_set, if_pos ⟨hje, hjlen⟩] at hp
      exact absurd hp (by simp)
    · intro p hp
      rw [lget_set, if_pos ⟨hje, hjlen⟩] at hp
      have hpe : p = ci := Option.some_injective _ hp.symm
      rw [hpe, ← hje, hw2e]
      refine ⟨hci, hadj, ?_⟩
      rcases hjust with ⟨wp, t2, hj1, hj2, hj3⟩
      by_cases hpc : nj = ci ∧ nj < lab.length
      · refine ⟨w, t2, ?_, ?_, hj3⟩
        · rw [lget_set, if_pos hpc]
        · rcases hpc with ⟨hpc, _⟩
          rw [← hpc] at hj1
          rw [hj1] at hdec
          have hlt : w + EPS_TIME < wp := hdec
          linarith
      · refine ⟨wp, t2, ?_, hj2, hj3⟩
        rw [lget_set, if_neg hpc]
        exact hj1
  · rw [if_neg hje] at hw2
    rcases hch j hj w2 hw2 with ⟨h1, h2, h3⟩
    refine ⟨h1, ?_, ?_⟩
    · intro hp
      rw [lget_set, if_neg hje] at hp
      exact h2 hp
    · intro p hp
      rw [lget_set, if_neg hje] at hp
      rcases h3 p hp with ⟨hp1, hp2, wp, t2, hp3, hp4, hp5⟩
      refine ⟨hp1, hp2, ?_⟩
      by_cases hpe : nj = p ∧ nj < lab.length
      · refine ⟨w, t2, ?_, ?_, hp5⟩
        · rw [lget_set, if_pos hpe]
        · rcases hpe with ⟨hpe, _⟩
          subst hpe
          rw [hp3] at hdec
          have : w + EPS_TIME < wp := hdec
          linarith
      · refine ⟨wp, t2, ?_, hp4, hp5⟩
        rw [lget_set, if_neg hpe]
        exact hp3

/-- Entry invariant is preserved when a label decreases pointwise. -/
theorem entryInv_dec (C : List Contact) (P : CgrParams) (ea : ℚ)
    (lab lab2 pq : List Label) (hE : EntryInv C P ea lab pq)
    (hdec : ∀ k, k < C.length →
      oleq (lget lab2 k).eta (lget lab k).eta) :
    EntryInv C P ea lab2 pq := by
  intro x hx
  rcases hE x hx with ⟨h1, v, h2, h3, h4⟩
  exact ⟨h1, v, h2, oleq_trans (hdec x.contact_idx h1) h3, h4⟩

theorem lget_set_dec (lab : List Label) (i : Nat) (v : Label)
    (hv : oleq v.eta (lget lab i).eta) :
    ∀ k, oleq (lget (lab.set i v) k).eta (lget lab k).eta := by
  intro k
  rw [lget_set]
  by_cases h : i = k ∧ i < lab.length
  · rw [if_pos h]
    rcases h with ⟨h, _⟩
    subst h
    exact hv
  · rw [if_neg h]
    exact oleq_refl _

/-- Entry invariant is preserved by a push of a valid entry. -/
theorem entryInv_push (C : List Contact) (P : CgrParams) (ea : ℚ)
    (lab pq : List Label) (x : Label) (hE : EntryInv C P ea lab pq)
    (hx : x.contact_idx < C.length ∧ ∃ v, x.eta = some v ∧
      oleq (lget lab x.contact_idx).eta (some v) ∧
      ∃ t2, eta_contact (cget C x.contact_idx) t2 P.bundle_bytes ea = some v) :
    EntryInv C P ea lab (heap_push pq x) := by
  intro y hy
  rcases (heap_push_mem y pq x).mp hy with h | h
  · exact hE y h
  · subst h
    exact hx

/-- The seeding loop of the normal mode preserves the invariants. -/
theorem seedNormal_inv (C : List Contact) (P : CgrParams)
    (F : Option CgrFilters) (ea : ℚ) :
    ∀ (njs : List Nat) (lab pq : List Label),
      lab.length = C.length → LabChain C P F ea lab →
      EntryInv C P ea lab pq → (ea = expiryAbs P) → (P.t0 = P.t0) →
      (∀ nj ∈ njs, nj < C.length ∧ (cget C nj).cfrom = P.src_node) →
      (seedNormal C P F ea njs (lab, pq)).1.length = C.length ∧
      LabChain C P F ea (seedNormal C P F ea njs (lab, pq)).1 ∧
      EntryInv C P ea (seedNormal C P F ea njs (lab, pq)).1
        (seedNormal C P F ea njs (lab, pq)).2 := by
  intro njs
  induction njs with
  | nil =>
    intro lab pq hlen hch hE _ _ _
    exact ⟨hlen, hch, hE⟩
  | cons ci rest ih =>
    intro lab pq hlen hch hE hea ht0 hfrom
    have hci := hfrom ci (List.mem_cons_self _ _)
    have hrest : ∀ nj ∈ rest, nj < C.length ∧ (cget C nj).cfrom = P.src_node :=
      fun nj hnj => hfrom nj (List.mem_cons_of_mem _ hnj)
    simp only [seedNormal]
    by_cases hban : is_banned_id (cget C ci).id F
    · rw [if_pos hban]
      exact ih lab pq hlen hch hE hea ht0 hrest
    · rw [if_neg hban]
      by_cases hvia : ¬ contact_is_viable (cget C ci) P.t0 P.bundle_bytes
      · rw [if_pos hvia]
        exact ih lab pq hlen hch hE hea ht0 hrest
      · rw [if_neg hvia]
        cases heta : eta_contact (cget C ci) P.t0 P.bundle_bytes ea with
        | none =>
          exact ih lab pq hlen hch hE hea ht0 hrest
        | some eta =>
          dsimp only
          by_cases hrel : olt (some eta) (lget lab ci).eta
          · rw [if_pos hrel]
            have hbanF : is_banned_id (cget C ci).id F = false := by
              simpa using hban
            have hch2 : LabChain C P F ea
                (lab.set ci ⟨ci, some eta, none⟩) :=
              labChain_set_root C P F ea lab ci eta hch hci.1 hbanF hci.2
                heta hrel hlen
            have hdec2 : ∀ k, oleq
                (lget (lab.set ci ⟨ci, some eta, none⟩) k).eta
                (lget lab k).eta := by
              apply lget_set_dec
              exact olt_oleq _ _ hrel
            have hE2 : EntryInv C P ea (lab.set ci ⟨ci, some eta, none⟩)
                (heap_push pq ⟨ci, some eta, none⟩) := by
              apply entryInv_push
              · exact entryInv_dec C P ea lab _ pq hE (fun k _ => hdec2 k)
              · refine ⟨hci.1, eta, rfl, ?_, P.t0, heta⟩
                rw [lget_set, if_pos ⟨rfl, by omega⟩]
                exact oleq_refl _
            exact ih _ _ (by rw [List.length_set]; exact hlen) hch2 hE2 hea ht0 hrest
          · rw [if_neg hrel]
            exact ih lab pq hlen hch hE hea ht0 hrest

/-- What a successful forced prefix seed search guarantees. -/
theorem findSeed_props (C : List Contact) (P : CgrParams)
    (F : Option CgrFilters) (ea : ℚ) (first : Int) :
    ∀ (njs : List Nat) (ci : Nat) (eta : ℚ),
      findSeed C P F ea first njs = some (ci, eta) →
      ci ∈ njs ∧ (cget C ci).cfrom = P.src_node ∧
      is_banned_id (cget C ci).id F = false ∧
      eta_contact (cget C ci) P.t0 P.bundle_bytes ea = some eta := by
  intro njs
  induction njs with
  | nil =>
    intro ci eta h
    exact absurd h (by simp [findSeed])
  | cons j rest ih =>
    intro ci eta h
    simp only [findSeed] at h
    by_cases h1 : (cget C j).id ≠ first
    · rw [if_pos h1] at h
      rcases ih ci eta h with ⟨hm, hr⟩
      exact ⟨List.mem_cons_of_mem _ hm, hr⟩
    · rw [if_neg h1] at h
      by_cases h2 : (cget C j).cfrom ≠ P.src_node
      · rw [if_pos h2] at h
        rcases ih ci eta h with ⟨hm, hr⟩
        exact ⟨List.mem_cons_of_mem _ hm, hr⟩
      · rw [if_neg h2] at h
        by_cases h3 : is_banned_id (cget C j).id F
        · rw [if_pos h3] at h
          rcases ih ci eta h with ⟨hm, hr⟩
          exact ⟨List.mem_cons_of_mem _ hm, hr⟩
        · rw [if_neg h3] at h
          by_cases h4 : ¬ contact_is_viable (cget C j) P.t0 P.bundle_bytes
          · rw [if_pos h4] at h
            rcases ih ci eta h with ⟨hm, hr⟩
            exact ⟨List.mem_cons_of_mem _ hm, hr⟩
          · rw [if_neg h4] at h
            cases heta : eta_contact (cget C j) P.t0 P.bundle_bytes ea with
            | none =>
              rw [heta] at h
              rcases ih ci eta h with ⟨hm, hr⟩
              exact ⟨List.mem_cons_of_mem _ hm, hr⟩
            | some q =>
              rw [heta] at h
              have hpair : ci = j ∧ eta = q := by
                have := Option.some_injective _ h.symm
                constructor
                · exact congrArg Prod.fst this
                · exact congrArg Prod.snd this
              rcases hpair with ⟨hc, he⟩
              subst hc
              subst he
              push_neg at h2
              refine ⟨List.mem_cons_self _ _, h2, by simpa using h3, heta⟩

/-- The seeding phase establishes the invariants. -/
theorem searchSeed_inv (C : List Contact) (P : CgrParams)
    (ni : NeighborIndex) (F : Option CgrFilters)
    (hsrc0 : 0 ≤ P.src_node)
    (hNIfrom : ∀ n j, j ∈ byFromGet ni n →
      j < C.length ∧ (cget C j).cfrom = (n : Int)) :
    (searchSeed C P ni F).1.length = C.length ∧
    LabChain C P F (expiryAbs P) (searchSeed C P ni F).1 ∧
    EntryInv C P (expiryAbs P) (searchSeed C P ni F).1
      (searchSeed C P ni F).2 := by
  unfold searchSeed
  by_cases hforced : (match F with
      | none => false
      | some f => !f.forced_prefix_ids.isEmpty) = true
  · rw [if_pos hforced]
    cases hfs : findSeed C P F (expiryAbs P) (forced_id_at F 0)
        (List.range C.length) with
    | none =>
      exact ⟨lab0_length C, labChain_lab0 C P F _, entryInv_nil C P _ _⟩
    | some pair =>
      rcases pair with ⟨ci, eta⟩
      dsimp only
      rcases findSeed_props C P F (expiryAbs P) (forced_id_at F 0) _ ci eta hfs
        with ⟨hmem, hfrom, hban, heta⟩
      have hci : ci < C.length := List.mem_range.mp hmem
      have hch2 : LabChain C P F (expiryAbs P)
          ((lab0 C).set ci ⟨ci, some eta, none⟩) := by
        apply labChain_set_root C P F _ (lab0 C) ci eta
          (labChain_lab0 C P F _) hci hban hfrom heta
        · rw [lget_lab0_eta]
          trivial
        · exact lab0_length C
      refine ⟨by rw [List.length_set]; exact lab0_length C, hch2, ?_⟩
      apply entryInv_push
      · exact entryInv_nil C P _ _
      · refine ⟨hci, eta, rfl, ?_, P.t0, heta⟩
        rw [lget_set, if_pos ⟨rfl, by rw [lab0_length]; omega⟩]
        exact oleq_refl _
  · rw [if_neg hforced]
    apply seedNormal_inv C P F (expiryAbs P) _ (lab0 C) []
      (lab0_length C) (labChain_lab0 C P F _) (entryInv_nil C P _ _) rfl rfl
    intro nj hnj
    rcases hNIfrom (P.src_node.toNat) nj hnj with ⟨h1, h2⟩
    refine ⟨h1, ?_⟩
    rw [h2, Int.toNat_of_nonneg hsrc0]

theorem entryInv_pop (C : List Contact) (P : CgrParams) (ea : ℚ)
    (lab pq : List Label) (hE : EntryInv C P ea lab pq) :
    EntryInv C P ea lab (heap_pop pq).2 := by
  intro x hx
  exact hE x (heap_pop_subset x pq hx)

/-- The expansion of the successors of one popped contact preserves the
invariants. -/
theorem expandList_chain (C : List Contact) (P : CgrParams)
    (F : Option CgrFilters) (ea : ℚ) (eta_here : ℚ) (ci : Nat) (need : Int)
    (hC : ContactsOK C) (hB : EPS_BYTES < P.bundle_bytes)
    (hci : ci < C.length) :
    ∀ (njs : List Nat) (lab pq : List Label),
      lab.length = C.length → LabChain C P F ea lab → EntryInv C P ea lab pq →
      (∃ wp, (lget lab ci).eta = some wp ∧ wp ≤ eta_here) →
      (∀ nj ∈ njs, nj < C.length ∧ (cget C nj).cfrom = (cget C ci).cto) →
      (expandList C P F ea eta_here ci need njs (lab, pq)).1.length = C.length ∧
      LabChain C P F ea (expandList C P F ea eta_here ci need njs (lab, pq)).1 ∧
      EntryInv C P ea (expandList C P F ea eta_here ci need njs (lab, pq)).1
        (expandList C P F ea eta_here ci need njs (lab, pq)).2 := by
  intro njs
  induction njs with
  | nil =>
    intro lab pq hlen hch hE _ _
    exact ⟨hlen, hch, hE⟩
  | cons nj rest ih =>
    intro lab pq hlen hch hE hlabci hfrom
    have hnj := hfrom nj (List.mem_cons_self _ _)
    have hrest : ∀ x ∈ rest, x < C.length ∧ (cget C x).cfrom = (cget C ci).cto :=
      fun x hx => hfrom x (List.mem_cons_of_mem _ hx)
    simp only [expandList]
    by_cases h1 : need ≠ -1 ∧ (cget C nj).id ≠ need
    · rw [if_pos h1]
      exact ih lab pq hlen hch hE hlabci hrest
    · rw [if_neg h1]
      by_cases h2 : is_banned_id (cget C nj).id F
      · rw [if_pos h2]
        exact ih lab pq hlen hch hE hlabci hrest
      · rw [if_neg h2]
        by_cases h3 : ¬ contact_is_viable (cget C nj) eta_here P.bundle_bytes
        · rw [if_pos h3]
          exact ih lab pq hlen hch hE hlabci hrest
        · rw [if_neg h3]
          cases heta : eta_contact (cget C nj) eta_here P.bundle_bytes ea with
          | none =>
            exact ih lab pq hlen hch hE hlabci hrest
          | some eta_n =>
            dsimp only
            by_cases hrel : olt (some (eta_n + EPS_TIME)) (lget lab nj).eta
            · rw [if_pos hrel]
              rcases hlabci with ⟨wp, hwp1, hwp2⟩
              have hbanF : is_banned_id (cget C nj).id F = false := by
                simpa using h2
              have hch2 : LabChain C P F ea
                  (lab.set nj ⟨nj, some eta_n, some ci⟩) :=
                labChain_set_child C P F ea lab ci nj eta_n hch hnj.1 hbanF
                  hci hnj.2.symm ⟨wp, eta_here, hwp1, hwp2, heta⟩ hrel hlen
              have hdec2 : ∀ k, oleq
                  (lget (lab.set nj ⟨nj, some eta_n, some ci⟩) k).eta
                  (lget lab k).eta := by
                apply lget_set_dec
                have := olt_oleq _ _ hrel
                cases hv : (lget lab nj).eta with
                | none => trivial
                | some v =>
                  rw [hv] at this
                  have h1 : eta_n + EPS_TIME ≤ v := this
                  have heps : (0 : ℚ) < EPS_TIME := eps_time_pos
                  show (eta_n : ℚ) ≤ v
                  linarith
              have hE2 : EntryInv C P ea (lab.set nj ⟨nj, some eta_n, some ci⟩)
                  (heap_push pq ⟨nj, some eta_n, some ci⟩) := by
                apply entryInv_push
                · exact entryInv_dec C P ea lab _ pq hE (fun k _ => hdec2 k)
                · refine ⟨hnj.1, eta_n, rfl, ?_, eta_here, heta⟩
                  rw [lget_set, if_pos ⟨rfl, by omega⟩]
                  exact oleq_refl _
              have hlabci2 : ∃ wp2,
                  (lget (lab.set nj ⟨nj, some eta_n, some ci⟩) ci).eta =
                    some wp2 ∧ wp2 ≤ eta_here := by
                rw [lget_set]
                by_cases hce : nj = ci ∧ nj < lab.length
                · rw [if_pos hce]
                  refine ⟨eta_n, rfl, ?_⟩
                  rcases hce with ⟨hce, _⟩
                  rw [← hce] at hwp1
                  rw [hwp1] at hrel
                  have h1 : eta_n + EPS_TIME < wp := hrel
                  have heps : (0 : ℚ) < EPS_TIME := eps_time_pos
                  linarith
                · rw [if_neg hce]
                  exact ⟨wp, hwp1, hwp2⟩
              exact ih _ _ (by rw [List.length_set]; exact hlen) hch2 hE2
                hlabci2 hrest
            · rw [if_neg hrel]
              exact ih lab pq hlen hch hE hlabci hrest

/-- The main loop preserves the invariants and, when it returns a hit,
guarantees the destination condition, the forced prefix completion test, and
the relation between the reported eta and the final labels. -/
theorem searchLoop_chain (C : List Contact) (P : CgrParams)
    (NI : NeighborIndex) (F : Option CgrFilters) (ea : ℚ)
    (hC : ContactsOK C) (hB : EPS_BYTES < P.bundle_bytes)
    (hNIfrom : ∀ n j, j ∈ byFromGet NI n →
      j < C.length ∧ (cget C j).cfrom = (n : Int)) :
    ∀ (fuel : Nat) (lab pq : List Label),
      lab.length = C.length → LabChain C P F ea lab → EntryInv C P ea lab pq →
      ∀ labF ci e, searchLoop C P NI F ea fuel lab pq = (labF, some (ci, e)) →
        labF.length = C.length ∧ LabChain C P F ea labF ∧
        ci < C.length ∧ (cget C ci).cto = P.dst_node ∧
        prefixComplete F (compute_prefix_done ci labF C F) ∧
        ∃ v, e = some v ∧
          (∃ w, (lget labF ci).eta = some w ∧ w ≤ v) ∧
          (∃ t2, eta_contact (cget C ci) t2 P.bundle_bytes ea = some v) := by
  intro fuel
  induction fuel with
  | zero =>
    intro lab pq hlen hch hE labF ci e h
    simp only [searchLoop] at h
    exact absurd (congrArg Prod.snd h) (by simp)
  | succ fuel ih =>
    intro lab pq hlen hch hE labF ci e h
    simp only [searchLoop] at h
    by_cases hemp : pq.length = 0
    · rw [if_pos hemp] at h
      exact absurd (congrArg Prod.snd h) (by simp)
    · rw [if_neg hemp] at h
      have hcurmem : (heap_pop pq).1 ∈ pq := heap_pop_fst_mem pq hemp
      rcases hE _ hcurmem with ⟨hcidx, v, hveq, hvle, t2x, hvex⟩
      have hE2 : EntryInv C P ea lab (heap_pop pq).2 :=
        entryInv_pop C P ea lab pq hE
      by_cases hstale : olt (Option.map (· + EPS_TIME)
          (lget lab (heap_pop pq).1.contact_idx).eta) (heap_pop pq).1.eta
      · rw [if_pos hstale] at h
        exact ih lab _ hlen hch hE2 labF ci e h
      · rw [if_neg hstale] at h
        by_cases hdst : (cget C (heap_pop pq).1.contact_idx).cto = P.dst_node ∧
            prefixComplete F
              (compute_prefix_done (heap_pop pq).1.contact_idx lab C F)
        · rw [if_pos hdst] at h
          have hlabF : labF = lab := (congrArg Prod.fst h).symm
          have hsnd := congrArg Prod.snd h
          simp only at hsnd
          have hci : ci = (heap_pop pq).1.contact_idx := by
            have := Option.some_injective _ hsnd
            exact (congrArg Prod.fst this).symm
          have he : e = (heap_pop pq).1.eta := by
            have := Option.some_injective _ hsnd
            exact (congrArg Prod.snd this).symm
          subst hlabF
          rw [hci, he]
          refine ⟨hlen, hch, hcidx, hdst.1, hdst.2, v, hveq, ?_, t2x, hvex⟩
          cases hw : (lget labF (heap_pop pq).1.contact_idx).eta with
          | none =>
            rw [hw] at hvle
            exact absurd hvle (by simp [oleq])
          | some w =>
            rw [hw] at hvle
            exact ⟨w, rfl, hvle⟩
        · rw [if_neg hdst] at h
          by_cases hrange : ((cget C (heap_pop pq).1.contact_idx).cto < 0 ∨
              (NI.node_cap : Int) ≤ (cget C (heap_pop pq).1.contact_idx).cto)
          · rw [if_pos hrange] at h
            exact ih lab _ hlen hch hE2 labF ci e h
          · rw [if_neg hrange] at h
            cases hcv : (heap_pop pq).1.eta with
            | none =>
              rw [hcv] at h
              exact ih lab _ hlen hch hE2 labF ci e h
            | some eta_here =>
              rw [hcv] at h
              dsimp only at h
              have hwp : ∃ wp, (lget lab (heap_pop pq).1.contact_idx).eta =
                  some wp ∧ wp ≤ eta_here := by
                have hv2 : v = eta_here :=
                  Option.some_injective _ (hveq.symm.trans hcv)
                cases hw : (lget lab (heap_pop pq).1.contact_idx).eta with
                | none =>
                  rw [hw] at hvle
                  exact absurd hvle (by simp [oleq])
                | some w =>
                  rw [hw] at hvle
                  refine ⟨w, rfl, ?_⟩
                  rw [← hv2]
                  exact hvle
              have hfrom : ∀ nj ∈ byFromGet NI
                  ((cget C (heap_pop pq).1.contact_idx).cto).toNat,
                  nj < C.length ∧
                  (cget C nj).cfrom = (cget C (heap_pop pq).1.contact_idx).cto := by
                intro nj hnjm
                rcases hNIfrom _ nj hnjm with ⟨ha, hb2⟩
                refine ⟨ha, ?_⟩
                rw [hb2, Int.toNat_of_nonneg (by push_neg at hrange; exact hrange.1)]
              rcases expandList_chain C P F ea eta_here
                  (heap_pop pq).1.contact_idx
                  (neededForced F (compute_prefix_done
                    (heap_pop pq).1.contact_idx lab C F))
                  hC hB hcidx _ lab (heap_pop pq).2 hlen hch hE2 hwp hfrom
                with ⟨hlen3, hch3, hE3⟩
              exact ih _ _ hlen3 hch3 hE3 labF ci e h

/-! ### Temporally coherent chains and the back pointer walk -/

/-- A temporally coherent contact chain: starting at arrival time t at node
node, each contact leaves the current node, is feasible by the single hop
evaluation at the current arrival time, and hands its exact output to the
next hop as the new arrival time. -/
def TemporalChainW (C : List Contact) (P : CgrParams) (ea : ℚ) :
    ℚ → Int → List Nat → List ℚ → Prop
  | _, _, [], [] => True
  | t, node, j :: js, q :: qs =>
      j < C.length ∧ (cget C j).cfrom = node ∧
      eta_contact (cget C j) t P.bundle_bytes ea = some q ∧
      TemporalChainW C P ea q (cget C j).cto js qs
  | _, _, _, _ => False

theorem TCW_snoc (C : List Contact) (P : CgrParams) (ea : ℚ) :
    ∀ (js : List Nat) (qs : List ℚ) (t : ℚ) (node : Int)
      (j jL : Nat) (q qL : ℚ),
      TemporalChainW C P ea t node js qs →
      js.getLast? = some jL → qs.getLast? = some qL →
      j < C.length → (cget C j).cfrom = (cget C jL).cto →
      eta_contact (cget C j) qL P.bundle_bytes ea = some q →
      TemporalChainW C P ea t node (js ++ [j]) (qs ++ [q]) := by
  intro js
  induction js with
  | nil =>
    intro qs t node j jL q qL _ hlast _ _ _ _
    exact absurd hlast (by simp)
  | cons j0 js2 ih =>
    intro qs t node j jL q qL hT hlast hqlast hj hfrom heta
    cases qs with
    | nil =>
      exact absurd hT (by simp [TemporalChainW])
    | cons q0 qs2 =>
      rcases hT with ⟨h1, h2, h3, h4⟩
      refine ⟨h1, h2, h3, ?_⟩
      cases js2 with
      | nil =>
        cases qs2 with
        | nil =>
          have hjL : j0 = jL := by
            simpa using hlast
          have hqL : q0 = qL := by
            simpa using hqlast
          rw [← hjL] at hfrom
          rw [← hqL] at heta
          exact ⟨hj, hfrom, heta, trivial⟩
        | cons q1 qs3 =>
          exact absurd h4 (by simp [TemporalChainW])
      | cons j1 js3 =>
        cases qs2 with
        | nil =>
          exact absurd h4 (by simp [TemporalChainW])
        | cons q1 qs3 =>
          rw [List.getLast?_cons_cons] at hlast
          rw [List.getLast?_cons_cons] at hqlast
          exact ih (q1 :: qs3) q0 ((cget C j0).cto) j jL q qL h4
            hlast hqlast hj hfrom heta

/-- The set of contact indices whose label is a finite eta at most w. -/
def labSet (lab : List Label) (w : ℚ) : Finset Nat :=
  (Finset.range lab.length).filter (fun j => oleq (lget lab j).eta (some w))

/-- The back pointer walk from a finite label: it starts at the given
contact, visits only contacts with finite labels of non banned contacts, and
its reversal is a temporally coherent chain from the source at t0 whose last
arrival is at most the starting label.  Any fuel at least the cardinality of
the labels below the starting one suffices. -/
theorem walk_master (C : List Contact) (P : CgrParams) (F : Option CgrFilters)
    (ea : ℚ) (lab : List Label)
    (hC : ContactsOK C) (hB : EPS_BYTES < P.bundle_bytes)
    (hlen : lab.length = C.length) (hch : LabChain C P F ea lab) :
    ∀ (k : Nat) (ci : Nat) (w : ℚ), ci < C.length →
      (lget lab ci).eta = some w → (labSet lab w).card ≤ k →
      ∀ fuel, k ≤ fuel →
        (∃ rest, walkPrev lab fuel (some ci) = ci :: rest) ∧
        (∀ j ∈ walkPrev lab fuel (some ci), j < C.length ∧
          is_banned_id (cget C j).id F = false ∧
          ∃ wj, (lget lab j).eta = some wj) ∧
        ∃ qs q, TemporalChainW C P ea P.t0 P.src_node
            ((walkPrev lab fuel (some ci)).reverse) qs ∧
          qs.getLast? = some q ∧ q ≤ w := by
  intro k
  induction k with
  | zero =>
    intro ci w hci hcw hcard fuel hfuel
    have hmem : ci ∈ labSet lab w := by
      unfold labSet
      rw [Finset.mem_filter, Finset.mem_range]
      refine ⟨by omega, ?_⟩
      show oleq (lget lab ci).eta (some w)
      rw [hcw]
      exact le_refl w
    have : 0 < (labSet lab w).card := Finset.card_pos.mpr ⟨ci, hmem⟩
    omega
  | succ k ih =>
    intro ci w hci hcw hcard fuel hfuel
    rcases hC (cget C ci) (cget_mem C ci hci) with ⟨hsetup, hres, howlt⟩
    obtain ⟨f, rfl⟩ : ∃ f, fuel = f + 1 := ⟨fuel - 1, by omega⟩
    rcases hch ci hci w hcw with ⟨hban, hroot, hchild⟩
    cases hprev : (lget lab ci).prev_idx with
    | none =>
      rcases hroot hprev with ⟨hfrom, heta⟩
      have hwalk : walkPrev lab (f + 1) (some ci) = [ci] := by
        simp only [walkPrev, hprev]
      rw [hwalk]
      refine ⟨⟨[], rfl⟩, ?_, ?_⟩
      · intro j hj
        rw [List.mem_singleton] at hj
        subst hj
        exact ⟨hci, hban, w, hcw⟩
      · refine ⟨[w], w, ?_, by simp, le_refl w⟩
        show TemporalChainW C P ea P.t0 P.src_node [ci] [w]
        exact ⟨hci, hfrom, heta, trivial⟩
    | some p =>
      rcases hchild p hprev with ⟨hp, hadj, wp, t2, hwp, hle, hetaci⟩
      have hwplt : wp < w := by
        have ht2 : t2 < w :=
          eta_arrival_lt (cget C ci) t2 P.bundle_bytes ea w hsetup hres
            howlt hB hetaci
        linarith
      have hsub : labSet lab wp ⊆ labSet lab w := by
        intro x hx
        unfold labSet at hx ⊢
        rw [Finset.mem_filter] at hx ⊢
        refine ⟨hx.1, ?_⟩
        have h2 : oleq (lget lab x).eta (some wp) := hx.2
        show oleq (lget lab x).eta (some w)
        cases hxe : (lget lab x).eta with
        | none =>
          rw [hxe] at h2
          exact absurd h2 (by simp [oleq])
        | some wx =>
          rw [hxe] at h2
          have hwx : wx ≤ wp := h2
          show wx ≤ w
          linarith
      have hnotmem : ci ∉ labSet lab wp := by
        unfold labSet
        rw [Finset.mem_filter]
        intro hc
        have h2 : oleq (lget lab ci).eta (some wp) := hc.2
        rw [hcw] at h2
        have hle2 : w ≤ wp := h2
        linarith
      have hmem : ci ∈ labSet lab w := by
        unfold labSet
        rw [Finset.mem_filter, Finset.mem_range]
        refine ⟨by omega, ?_⟩
        show oleq (lget lab ci).eta (some w)
        rw [hcw]
        exact le_refl w
      have hss : labSet lab wp ⊂ labSet lab w := by
        rw [Finset.ssubset_iff_of_subset hsub]
        exact ⟨ci, hmem, hnotmem⟩
      have hcard2 : (labSet lab wp).card ≤ k := by
        have := Finset.card_lt_card hss
        omega
      rcases ih p wp hp hwp hcard2 f (by omega) with
        ⟨⟨rest2, hL2⟩, hmem2, qs, q2, hTCW2, hlast2, hqle2⟩
      have hwalk : walkPrev lab (f + 1) (some ci) =
          ci :: walkPrev lab f (some p) := by
        simp only [walkPrev, hprev]
      rw [hwalk]
      refine ⟨⟨walkPrev lab f (some p), rfl⟩, ?_, ?_⟩
      · intro j hj
        rw [List.mem_cons] at hj
        rcases hj with hj | hj
        · subst hj
          exact ⟨hci, hban, w, hcw⟩
        · exact hmem2 j hj
      · have hq2wp : q2 ≤ t2 := le_trans hqle2 hle
        rcases eta_mono (cget C ci) q2 t2 P.bundle_bytes ea w hsetup hres hB
            hq2wp hetaci with ⟨q3, hq3, hq3le⟩
        refine ⟨qs ++ [q3], q3, ?_, ?_, hq3le⟩
        · rw [List.reverse_cons]
          apply TCW_snoc C P ea _ qs P.t0 P.src_node ci p q3 q2 hTCW2
          · rw [List.getLast?_reverse]
            rw [hL2]
            rfl
          · exact hlast2
          · exact hci
          · rw [hadj]
          · exact hq3
        · rw [List.getLast?_concat]

theorem labSet_card_le (lab : List Label) (w : ℚ) :
    (labSet lab w).card ≤ lab.length := by
  unfold labSet
  calc ((Finset.range lab.length).filter
        (fun j => oleq (lget lab j).eta (some w))).card ≤
      (Finset.range lab.length).card := Finset.card_filter_le _ _
    _ = lab.length := Finset.card_range _

/-- The route facts of claim C3: the returned contact id sequence is the id
image of a temporally coherent chain from the source at t0 whose last contact
reaches the destination node, and the reported eta is an exact single hop
output of the last contact, at least the last chain arrival. -/
def RouteOK (C : List Contact) (P : CgrParams) (r : Route) : Prop :=
  ∃ js qs jl q v,
    r.contact_ids = js.map (fun j => (cget C j).id) ∧
    r.hops = js.length ∧
    TemporalChainW C P (expiryAbs P) P.t0 P.src_node js qs ∧
    js.getLast? = some jl ∧ qs.getLast? = some q ∧
    (cget C jl).cto = P.dst_node ∧
    r.eta = some v ∧ q ≤ v ∧
    (∃ t2, eta_contact (cget C jl) t2 P.bundle_bytes (expiryAbs P) = some v)

/-- Master soundness of the filtered search: a found route satisfies the
claim C3 route facts, and its final label array satisfies chain soundness
with a completed forced prefix test at the hit contact. -/
theorem filtered_master (C : List Contact) (P : CgrParams)
    (ni : NeighborIndex) (F : Option CgrFilters)
    (hC : ContactsOK C) (hB : EPS_BYTES < P.bundle_bytes)
    (hNIfrom : ∀ n j, j ∈ byFromGet ni n →
      j < C.length ∧ (cget C j).cfrom = (n : Int))
    (hfound : (cgr_best_route_filtered C P (some ni) F).found = true) :
    RouteOK C P (cgr_best_route_filtered C P (some ni) F) ∧
    ∃ labF ci w, labF.length = C.length ∧
      LabChain C P F (expiryAbs P) labF ∧
      ci < C.length ∧ (lget labF ci).eta = some w ∧
      (cget C ci).cto = P.dst_node ∧
      prefixComplete F (compute_prefix_done ci labF C F) := by
  have hbody := hfound
  unfold cgr_best_route_filtered at hbody
  dsimp only at hbody
  by_cases h1 : C.length = 0
  · rw [if_pos h1] at hbody
    exact absurd hbody (by simp [routeEmpty])
  · rw [if_neg h1] at hbody
    by_cases h2 : P.src_node < 0 ∨ (ni.node_cap : Int) ≤ P.src_node
    · rw [if_pos h2] at hbody
      exact absurd hbody (by simp [routeEmpty])
    · rw [if_neg h2] at hbody
      by_cases h3 : P.dst_node < 0 ∨ (ni.node_cap : Int) ≤ P.dst_node
      · rw [if_pos h3] at hbody
        exact absurd hbody (by simp [routeEmpty])
      · rw [if_neg h3] at hbody
        have hroute : cgr_best_route_filtered C P (some ni) F =
            (match searchLoop C P ni F (expiryAbs P) (searchFuel C)
                (searchSeed C P ni F).1 (searchSeed C P ni F).2 with
              | (_, none) => routeEmpty
              | (labF, some (ci, e)) => reconstructRoute C labF ci e) := by
          unfold cgr_best_route_filtered
          dsimp only
          rw [if_neg h1, if_neg h2, if_neg h3]
        cases hsl : searchLoop C P ni F (expiryAbs P) (searchFuel C)
            (searchSeed C P ni F).1 (searchSeed C P ni F).2 with
        | mk labF res =>
          cases res with
          | none =>
            rw [hsl] at hroute
            rw [hroute] at hfound
            exact absurd hfound (by simp [routeEmpty])
          | some pair =>
            rcases pair with ⟨ci, e⟩
            rw [hsl] at hroute
            have hsrc0 : 0 ≤ P.src_node := by
              push_neg at h2
              exact h2.1
            rcases searchSeed_inv C P ni F hsrc0 hNIfrom with ⟨hslen, hsch, hsE⟩
            rcases searchLoop_chain C P ni F (expiryAbs P) hC hB hNIfrom
                (searchFuel C) _ _ hslen hsch hsE labF ci e hsl with
              ⟨hflen, hfch, hfci, hfdst, hfpre, v, hve, ⟨w, hw, hwv⟩, t2r, hex⟩
            constructor
            · rcases walk_master C P F (expiryAbs P) labF hC hB hflen hfch
                  (labSet labF w).card ci w hfci hw (le_refl _)
                  (C.length + 1)
                  (by have := labSet_card_le labF w; omega) with
                ⟨⟨rest, hLw⟩, hmemw, qs, q, hTCW, hqlast, hqle⟩
              refine ⟨(walkPrev labF (C.length + 1) (some ci)).reverse, qs,
                ci, q, v, ?_, ?_, hTCW, ?_, hqlast, hfdst, ?_, ?_, t2r, hex⟩
              · rw [hroute]
                rfl
              · rw [hroute]
                show (walkPrev labF (C.length + 1) (some ci)).length = _
                rw [List.length_reverse]
              · rw [List.getLast?_reverse, hLw]
                rfl
              · rw [hroute, hve]
                rfl
              · linarith
            · exact ⟨labF, ci, w, hflen, hfch, hfci, hw, hfdst, hfpre⟩

/-! ### Transfer of the route facts to the K route searches -/

/-- Two plans agreeing on every field except the residual byte counters. -/
def SameStruct (W C : List Contact) : Prop :=
  W.length = C.length ∧ ∀ i, i < C.length →
    (cget W i).id = (cget C i).id ∧ (cget W i).cfrom = (cget C i).cfrom ∧
    (cget W i).cto = (cget C i).cto ∧ (cget W i).t_start = (cget C i).t_start ∧
    (cget W i).t_end = (cget C i).t_end ∧ (cget W i).owlt = (cget C i).owlt ∧
    (cget W i).rate_bps = (cget C i).rate_bps ∧
    (cget W i).setup_s = (cget C i).setup_s

theorem sameStruct_refl (C : List Contact) : SameStruct C C :=
  ⟨rfl, fun i _ => ⟨rfl, rfl, rfl, rfl, rfl, rfl, rfl, rfl⟩⟩

theorem sameStruct_trans (A B C : List Contact) (h1 : SameStruct A B)
    (h2 : SameStruct B C) : SameStruct A C := by
  refine ⟨h1.1.trans h2.1, ?_⟩
  intro i hi
  have hib : i < B.length := by rw [h2.1]; exact hi
  rcases h1.2 i hib with ⟨a1, a2, a3, a4, a5, a6, a7, a8⟩
  rcases h2.2 i hi with ⟨b1, b2, b3, b4, b5, b6, b7, b8⟩
  exact ⟨a1.trans b1, a2.trans b2, a3.trans b3, a4.trans b4, a5.trans b5,
    a6.trans b6, a7.trans b7, a8.trans b8⟩

/-- Membership description of consumeOne. -/
theorem consumeOne_mem (b : ℚ) (id : Int) :
    ∀ (W : List Contact) (x : Contact), x ∈ consumeOne b id W →
      x ∈ W ∨ ∃ c ∈ W, x =
        { c with residual_bytes := satSub c.residual_bytes b } := by
  intro W
  induction W with
  | nil =>
    intro x hx
    exact absurd hx (by simp [consumeOne])
  | cons c rest ih =>
    intro x hx
    simp only [consumeOne] at hx
    by_cases hid : c.id = id
    · rw [if_pos hid] at hx
      rw [List.mem_cons] at hx
      rcases hx with hx | hx
      · exact Or.inr ⟨c, List.mem_cons_self _ _, hx⟩
      · exact Or.inl (List.mem_cons_of_mem _ hx)
    · rw [if_neg hid] at hx
      rw [List.mem_cons] at hx
      rcases hx with hx | hx
      · exact Or.inl (by rw [hx]; exact List.mem_cons_self _ _)
      · rcases ih x hx with h | ⟨c2, hc2, hx2⟩
        · exact Or.inl (List.mem_cons_of_mem _ h)
        · exact Or.inr ⟨c2, List.mem_cons_of_mem _ hc2, hx2⟩

theorem contactsOK_consumeOne (b : ℚ) (id : Int) (W : List Contact)
    (hW : ContactsOK W) : ContactsOK (consumeOne b id W) := by
  intro x hx
  rcases consumeOne_mem b id W x hx with h | ⟨c, hc, hx2⟩
  · exact hW x h
  · rcases hW c hc with ⟨h1, _, h3⟩
    rw [hx2]
    exact ⟨h1, satSub_nonneg _ _, h3⟩

theorem contactsOK_consumeFold (b : ℚ) :
    ∀ (ids : List Int) (W : List Contact), ContactsOK W →
      ContactsOK (ids.foldl (fun W id => consumeOne b id W) W) := by
  intro ids
  induction ids with
  | nil =>
    intro W hW
    exact hW
  | cons id rest ih =>
    intro W hW
    rw [List.foldl_cons]
    exact ih _ (contactsOK_consumeOne b id W hW)

theorem contactsOK_consume (W : List Contact) (r : Route) (P : CgrParams)
    (hW : ContactsOK W) : ContactsOK (consume_capacity W r P) := by
  unfold consume_capacity
  by_cases h : ¬ r.found = true ∨ r.hops = 0
  · rw [if_pos h]
    exact hW
  · rw [if_neg h]
    exact contactsOK_consumeFold _ _ _ hW

theorem sameStruct_consumeOne (b : ℚ) (id : Int) :
    ∀ (W : List Contact), SameStruct (consumeOne b id W) W := by
  intro W
  induction W with
  | nil =>
    exact sameStruct_refl []
  | cons c rest ih =>
    simp only [consumeOne]
    by_cases hid : c.id = id
    · rw [if_pos hid]
      refine ⟨by simp, ?_⟩
      intro i hi
      cases i with
      | zero =>
        rw [cget_cons_zero, cget_cons_zero]
        exact ⟨rfl, rfl, rfl, rfl, rfl, rfl, rfl, rfl⟩
      | succ i2 =>
        rw [cget_cons_succ, cget_cons_succ]
        exact (sameStruct_refl rest).2 i2 (by simp at hi; omega)
    · rw [if_neg hid]
      refine ⟨by simp [ih.1], ?_⟩
      intro i hi
      cases i with
      | zero =>
        rw [cget_cons_zero, cget_cons_zero]
        exact ⟨rfl, rfl, rfl, rfl, rfl, rfl, rfl, rfl⟩
      | succ i2 =>
        rw [cget_cons_succ, cget_cons_succ]
        exact ih.2 i2 (by simp at hi; omega)

theorem sameStruct_consumeFold (b : ℚ) :
    ∀ (ids : List Int) (W : List Contact),
      SameStruct (ids.foldl (fun W id => consumeOne b id W) W) W := by
  intro ids
  induction ids with
  | nil =>
    intro W
    exact sameStruct_refl W
  | cons id rest ih =>
    intro W
    rw [List.foldl_cons]
    exact sameStruct_trans _ _ _ (ih (consumeOne b id W))
      (sameStruct_consumeOne b id W)

theorem sameStruct_consume (W : List Contact) (r : Route) (P : CgrParams) :
    SameStruct (consume_capacity W r P) W := by
  unfold consume_capacity
  by_cases h : ¬ r.found = true ∨ r.hops = 0
  · rw [if_pos h]
    exact sameStruct_refl W
  · rw [if_neg h]
    exact sameStruct_consumeFold _ _ _

/-- A route produced by one of the yen searches is an output of the filtered
search on the unmodified plan. -/
def IsFilteredOut (C : List Contact) (P : CgrParams)
    (NI : Option NeighborIndex) (r : Route) : Prop :=
  ∃ F, r = cgr_best_route_filtered C P NI F

theorem yenScanPos_filtered (C : List Contact) (P : CgrParams)
    (NI : Option NeighborIndex) (out : List Route) (ref : Route) :
    ∀ (is : List Nat) (acc : Option Route),
      (∀ b, acc = some b → IsFilteredOut C P NI b) →
      ∀ b, yenScanPos C P NI out ref is acc = some b → IsFilteredOut C P NI b := by
  intro is
  induction is with
  | nil =>
    intro acc hacc b hb
    exact hacc b hb
  | cons i rest ih =>
    intro acc hacc b hb
    simp only [yenScanPos] at hb
    by_cases h1 : ¬ (yenCand C P NI ref i).found
    · rw [if_pos h1] at hb
      exact ih _ hacc b hb
    · rw [if_neg h1] at hb
      by_cases h2 : route_already_exists out (yenCand C P NI ref i)
      · rw [if_pos h2] at hb
        exact ih _ hacc b hb
      · rw [if_neg h2] at hb
        by_cases h3 : olt (yenCand C P NI ref i).eta (bestEta acc)
        · rw [if_pos h3] at hb
          apply ih _ ?_ b hb
          intro b2 hb2
          have hb3 : b2 = yenCand C P NI ref i := Option.some_injective _ hb2.symm
          rw [hb3]
          exact ⟨some ⟨[ref.contact_ids.getD i 0], ref.contact_ids.take i⟩, rfl⟩
        · rw [if_neg h3] at hb
          exact ih _ hacc b hb

theorem yenScanRoutes_filtered (C : List Contact) (P : CgrParams)
    (NI : Option NeighborIndex) (out : List Route) :
    ∀ (refs : List Route) (acc : Option Route),
      (∀ b, acc = some b → IsFilteredOut C P NI b) →
      ∀ b, yenScanRoutes C P NI out refs acc = some b →
        IsFilteredOut C P NI b := by
  intro refs
  induction refs with
  | nil =>
    intro acc hacc b hb
    exact hacc b hb
  | cons ref rest ih =>
    intro acc hacc b hb
    simp only [yenScanRoutes] at hb
    exact ih _ (yenScanPos_filtered C P NI out ref (List.range ref.hops)
      acc hacc) b hb

theorem yenRounds_filtered (C : List Contact) (P : CgrParams)
    (NI : Option NeighborIndex) (K : Nat) :
    ∀ (att : Nat) (out : List Route),
      (∀ r ∈ out, IsFilteredOut C P NI r) →
      ∀ r ∈ yenRounds C P NI K att out, IsFilteredOut C P NI r := by
  intro att
  induction att with
  | zero =>
    intro out hout
    exact hout
  | succ att ih =>
    intro out hout r hr
    simp only [yenRounds] at hr
    by_cases hK : K ≤ out.length
    · rw [if_pos hK] at hr
      exact hout r hr
    · rw [if_neg hK] at hr
      cases hsc : yenScanRoutes C P NI out out none with
      | none =>
        rw [hsc] at hr
        exact hout r hr
      | some best =>
        rw [hsc] at hr
        apply ih (out ++ [best]) ?_ r hr
        intro r2 hr2
        rw [List.mem_append] at hr2
        rcases hr2 with h | h
        · exact hout r2 h
        · rw [List.mem_singleton] at h
          subst h
          exact yenScanRoutes_filtered C P NI out out none
            (fun b hb => absurd hb (by simp)) r2 hsc

theorem yen_items_filtered (C : List Contact) (P : CgrParams)
    (NI : Option NeighborIndex) (K : Int) :
    ∀ r ∈ (cgr_k_yen C P NI K).items, IsFilteredOut C P NI r := by
  intro r hr
  unfold cgr_k_yen at hr
  by_cases h1 : K ≤ 0 ∨ NI = none
  · rw [if_pos h1] at hr
    exact absurd hr (by simp)
  · rw [if_neg h1] at hr
    dsimp only at hr
    by_cases h2 : ¬ (cgr_best_route_filtered C P NI none).found
    · rw [if_pos h2] at hr
      exact absurd hr (by simp)
    · rw [if_neg h2] at hr
      apply yenRounds_filtered C P NI K.toNat (K * 20).toNat
          [cgr_best_route_filtered C P NI none] ?_ r hr
      intro r2 hr2
      rw [List.mem_singleton] at hr2
      subst hr2
      exact ⟨none, rfl⟩

/-- Every route collected by the consumption iteration is a found best route
of some working copy that differs from the plan only in residual bytes. -/
theorem kRoutesIter_routeOK (C : List Contact) (P : CgrParams)
    (ni : NeighborIndex) (hB : EPS_BYTES < P.bundle_bytes)
    (hni : build_neighbor_index C = some ni) :
    ∀ (k : Nat) (W : List Contact) (acc : List Route),
      ContactsOK W → SameStruct W C →
      (∀ r ∈ acc, r.found = true ∧ ∃ W2, SameStruct W2 C ∧ RouteOK W2 P r) →
      ∀ r ∈ (kRoutesIter P (some ni) k W acc).1,
        r.found = true ∧ ∃ W2, SameStruct W2 C ∧ RouteOK W2 P r := by
  intro k
  induction k with
  | zero =>
    intro W acc hCW hSW hacc r hr
    exact hacc r hr
  | succ k ih =>
    intro W acc hCW hSW hacc r hr
    simp only [kRoutesIter] at hr
    by_cases hf : ¬ (cgr_best_route W P (some ni)).found
    · rw [if_pos hf] at hr
      exact hacc r hr
    · rw [if_neg hf] at hr
      have hfound : (cgr_best_route W P (some ni)).found = true := by
        simpa using hf
      have hNIW : ∀ n j, j ∈ byFromGet ni n →
          j < W.length ∧ (cget W j).cfrom = (n : Int) := by
        intro n j hj
        rcases byFrom_build_from C ni hni n j hj with ⟨h1, h2⟩
        refine ⟨by rw [hSW.1]; exact h1, ?_⟩
        rw [(hSW.2 j h1).2.1, h2]
      have hOK : RouteOK W P (cgr_best_route W P (some ni)) :=
        (filtered_master W P ni none hCW hB hNIW hfound).1
      apply ih (consume_capacity W (cgr_best_route W P (some ni)) P)
        (acc ++ [cgr_best_route W P (some ni)])
        (contactsOK_consume W _ P hCW)
        (sameStruct_trans _ _ _ (sameStruct_consume W _ P) hSW)
        ?_ r hr
      intro r2 hr2
      rw [List.mem_append] at hr2
      rcases hr2 with h | h
      · exact hacc r2 h
      · rw [List.mem_singleton] at h
        subst h
        exact ⟨hfound, W, hSW, hOK⟩

/-- Claim C3: every route returned found by any of the four searches is the
id image of a temporally coherent chain: consecutive hops are adjacent, each
hop is feasible by the section 4.C single hop evaluation at the arrival time
computed after the previous hop, the chain starts at the source at t0 and
ends at a contact reaching the destination, and for the consumption search
the chain lives in the consumed working copy, which differs from the plan
only in residual byte counters. -/
theorem claim_C3 (C : List Contact) (P : CgrParams) (F : Option CgrFilters)
    (K : Int) (hC : ContactsOK C) (hB : EPS_BYTES < P.bundle_bytes) :
    ((cgr_best_route C P (build_neighbor_index C)).found = true →
      RouteOK C P (cgr_best_route C P (build_neighbor_index C))) ∧
    ((cgr_best_route_filtered C P (build_neighbor_index C) F).found = true →
      RouteOK C P (cgr_best_route_filtered C P (build_neighbor_index C) F)) ∧
    (∀ r ∈ (cgr_k_routes C P (build_neighbor_index C) K).items,
      r.found = true ∧ ∃ W, SameStruct W C ∧ RouteOK W P r) ∧
    (∀ r ∈ (cgr_k_yen C P (build_neighbor_index C) K).items,
      r.found = true ∧ RouteOK C P r) := by
  cases hni : build_neighbor_index C with
  | none =>
    refine ⟨?_, ?_, ?_, ?_⟩
    · intro h
      exact absurd h (by simp [cgr_best_route, cgr_best_route_filtered,
        routeEmpty])
    · intro h
      exact absurd h (by simp [cgr_best_route_filtered, routeEmpty])
    · intro r hr
      rw [kroutes_items, kRoutesIter_none] at hr
      exact absurd hr (by simp)
    · intro r hr
      unfold cgr_k_yen at hr
      rw [if_pos (Or.inr rfl)] at hr
      exact absurd hr (by simp)
  | some ni =>
    have hNIfrom := byFrom_build_from C ni hni
    refine ⟨?_, ?_, ?_, ?_⟩
    · intro h
      exact (filtered_master C P ni none hC hB hNIfrom h).1
    · intro h
      exact (filtered_master C P ni F hC hB hNIfrom h).1
    · intro r hr
      rw [kroutes_items] at hr
      exact kRoutesIter_routeOK C P ni hB hni K.toNat C []
        hC (sameStruct_refl C) (fun r2 hr2 => absurd hr2 (by simp)) r hr
    · intro r hr
      have hfiltered := yen_items_filtered C P (some ni) K r hr
      have hfoundr : r.found = true := by
        unfold cgr_k_yen at hr
        by_cases h1 : K ≤ 0 ∨ (some ni : Option NeighborIndex) = none
        · rw [if_pos h1] at hr
          exact absurd hr (by simp)
        · rw [if_neg h1] at hr
          dsimp only at hr
          by_cases h2 : ¬ (cgr_best_route_filtered C P (some ni) none).found
          · rw [if_pos h2] at hr
            exact absurd hr (by simp)
          · rw [if_neg h2] at hr
            have hlen1 : ([cgr_best_route_filtered C P (some ni) none] :
                List Route).length ≤ K.toNat := by
              push_neg at h1
              simp
              omega
            exact (yenRounds_facts C P (some ni) K.toNat (K * 20).toNat
              [cgr_best_route_filtered C P (some ni) none] hlen1
              (fun r2 hr2 => by
                rw [List.mem_singleton] at hr2
                subst hr2
                simpa using h2)).2.1 r hr
      rcases hfiltered with ⟨F2, hF2⟩
      refine ⟨hfoundr, ?_⟩
      rw [hF2]
      apply (filtered_master C P ni F2 hC hB hNIfrom ?_).1
      rw [← hF2]
      exact hfoundr

theorem claim_C3_witness :
    ContactsOK [wc0, wc1] ∧ EPS_BYTES < wP.bundle_bytes ∧
      ((cgr_best_route [wc0, wc1] wP
          (build_neighbor_index [wc0, wc1])).found = true →
        RouteOK [wc0, wc1] wP
          (cgr_best_route [wc0, wc1] wP (build_neighbor_index [wc0, wc1]))) :=
  ⟨by decide, by decide,
    (claim_C3 [wc0, wc1] wP none 1 (by decide) (by decide)).1⟩

/-! ### Claim C7: the expiry bound -/

theorem TCW_mem (C : List Contact) (P : CgrParams) (ea : ℚ) :
    ∀ (js : List Nat) (qs : List ℚ) (t : ℚ) (node : Int),
      TemporalChainW C P ea t node js qs → ∀ j ∈ js, j < C.length := by
  intro js
  induction js with
  | nil =>
    intro qs t node _ j hj
    exact absurd hj (by simp)
  | cons j0 js2 ih =>
    intro qs t node hT j hj
    cases qs with
    | nil =>
      exact absurd hT (by simp [TemporalChainW])
    | cons q0 qs2 =>
      rcases hT with ⟨h1, _, _, h4⟩
      rw [List.mem_cons] at hj
      rcases hj with hj | hj
      · subst hj
        exact h1
      · exact ih qs2 q0 ((cget C j0).cto) h4 j hj

/-- Every arrival of a temporally coherent chain is bounded by the absolute
expiry plus the time tolerance whenever the expiry filter is armed. -/
theorem TCW_expiry (C : List Contact) (P : CgrParams) (ea : ℚ)
    (hC : ContactsOK C) (hB : EPS_BYTES < P.bundle_bytes) (hea : 0 < ea) :
    ∀ (js : List Nat) (qs : List ℚ) (t : ℚ) (node : Int),
      TemporalChainW C P ea t node js qs → ∀ x ∈ qs, x ≤ ea + EPS_TIME := by
  intro js
  induction js with
  | nil =>
    intro qs t node hT x hx
    cases qs with
    | nil => exact absurd hx (by simp)
    | cons q0 qs2 => exact absurd hT (by simp [TemporalChainW])
  | cons j0 js2 ih =>
    intro qs t node hT x hx
    cases qs with
    | nil =>
      exact absurd hT (by simp [TemporalChainW])
    | cons q0 qs2 =>
      rcases hT with ⟨h1, _, h3, h4⟩
      rcases hC (cget C j0) (cget_mem C j0 h1) with ⟨hsetup, hres, _⟩
      rw [List.mem_cons] at hx
      rcases hx with hx | hx
      · subst hx
        exact eta_expiry_bound (cget C j0) t P.bundle_bytes ea x
          hsetup hres hB hea h3
      · exact ih qs2 q0 ((cget C j0).cto) h4 x hx

/-- Contact and request of the claim C7 counterexample: expiry_rel = 10 is
positive, but t0 = -100 makes the absolute deadline t0 + expiry_rel = -90
nonpositive, which disables the expiry test of eta_contact entirely. -/
def x7c : Contact := ⟨0, 0, 1, -100, 0, 0, 2, 0, 1000⟩

def x7P : CgrParams := ⟨0, 1, -100, 40, 10⟩

/-- Claim C7 counterexample: with expiry_rel = 10 > 0 and t0 = -100 the
returned route has eta -80, strictly later than t0 + expiry_rel = -90: the
source arms the expiry check only when t0 + expiry_rel is positive, and even
then enforces it only up to EPS_TIME. -/
theorem claim_C7_counterexample :
    0 < x7P.expiry ∧
    (cgr_best_route [x7c] x7P (build_neighbor_index [x7c])).found = true ∧
    ¬ oleq (cgr_best_route [x7c] x7P (build_neighbor_index [x7c])).eta
        (some (x7P.t0 + x7P.expiry)) := by
  decide

/-- Claim C7, amended: when expiry_rel is positive and the absolute deadline
t0 + expiry_rel is positive too, every found route of the filtered search has
its final eta, and the eta after every hop of its chain, at most
t0 + expiry_rel + EPS_TIME (the deadline is enforced only up to the time
tolerance, and not at all when t0 + expiry_rel is nonpositive). -/
theorem claim_C7_theorem (C : List Contact) (P : CgrParams)
    (F : Option CgrFilters)
    (hC : ContactsOK C) (hB : EPS_BYTES < P.bundle_bytes)
    (hexp : 0 < P.expiry) (habs : 0 < P.t0 + P.expiry) :
    (cgr_best_route_filtered C P (build_neighbor_index C) F).found = true →
    (∀ v, (cgr_best_route_filtered C P (build_neighbor_index C) F).eta =
        some v → v ≤ P.t0 + P.expiry + EPS_TIME) ∧
    RouteOK C P (cgr_best_route_filtered C P (build_neighbor_index C) F) ∧
    (∀ (js : List Nat) (qs : List ℚ) (t : ℚ) (node : Int),
      TemporalChainW C P (expiryAbs P) t node js qs →
      ∀ x ∈ qs, x ≤ P.t0 + P.expiry + EPS_TIME) := by
  intro hfound
  have hea : expiryAbs P = P.t0 + P.expiry := by
    unfold expiryAbs
    rw [if_pos hexp]
  have heapos : 0 < expiryAbs P := by
    rw [hea]
    exact habs
  have hOK : RouteOK C P (cgr_best_route_filtered C P
      (build_neighbor_index C) F) :=
    (claim_C3 C P F 1 hC hB).2.1 hfound
  refine ⟨?_, hOK, ?_⟩
  · intro v hv
    rcases hOK with ⟨js, qs, jl, q, v0, _, _, hTCW, hjlast, _, _, heta, _,
      t2, hex⟩
    have hv0 : v = v0 := Option.some_injective _ (hv.symm.trans heta)
    have hjl : jl < C.length := by
      apply TCW_mem C P (expiryAbs P) js qs P.t0 P.src_node hTCW
      exact List.mem_of_mem_getLast? hjlast
    rcases hC (cget C jl) (cget_mem C jl hjl) with ⟨hsetup, hres, _⟩
    have := eta_expiry_bound (cget C jl) t2 P.bundle_bytes (expiryAbs P) v0
      hsetup hres hB heapos hex
    rw [hv0, ← hea]
    exact this
  · intro js qs t node hT x hx
    have := TCW_expiry C P (expiryAbs P) hC hB heapos js qs t node hT x hx
    rw [← hea]
    exact this

/-- Contact and request for the claim C7 witness: a positive absolute
deadline. -/
def x7cg : Contact := ⟨0, 0, 1, 0, 100, 0, 2, 0, 1000⟩

def x7Pg : CgrParams := ⟨0, 1, 0, 40, 100⟩

theorem claim_C7_theorem_witness :
    ContactsOK [x7cg] ∧ EPS_BYTES < x7Pg.bundle_bytes ∧ 0 < x7Pg.expiry ∧
      0 < x7Pg.t0 + x7Pg.expiry ∧
      ((cgr_best_route_filtered [x7cg] x7Pg
          (build_neighbor_index [x7cg]) none).found = true →
        (∀ v, (cgr_best_route_filtered [x7cg] x7Pg
            (build_neighbor_index [x7cg]) none).eta = some v →
          v ≤ x7Pg.t0 + x7Pg.expiry + EPS_TIME) ∧
        RouteOK [x7cg] x7Pg (cgr_best_route_filtered [x7cg] x7Pg
          (build_neighbor_index [x7cg]) none) ∧
        (∀ (js : List Nat) (qs : List ℚ) (t : ℚ) (node : Int),
          TemporalChainW [x7cg] x7Pg (expiryAbs x7Pg) t node js qs →
          ∀ x ∈ qs, x ≤ x7Pg.t0 + x7Pg.expiry + EPS_TIME)) :=
  ⟨by decide, by decide, by decide, by decide,
    claim_C7_theorem [x7cg] x7Pg none (by decide) (by decide) (by decide)
      (by decide)⟩

/-! ### Claim C8: contradictory forced prefixes -/

/-- The matched count of compute_prefix_done certifies pointwise equality on
the matched prefix, within both lists. -/
theorem countMatch_spec :
    ∀ (as2 bs : List Int) (k : Nat), k < countMatch as2 bs →
      as2.getD k 0 = bs.getD k 0 ∧ k < as2.length ∧ k < bs.length := by
  intro as2
  induction as2 with
  | nil =>
    intro bs k hk
    cases bs with
    | nil => exact absurd hk (by simp [countMatch])
    | cons b bs2 => exact absurd hk (by simp [countMatch])
  | cons a as3 ih =>
    intro bs k hk
    cases bs with
    | nil => exact absurd hk (by simp [countMatch])
    | cons b bs2 =>
      simp only [countMatch] at hk
      by_cases hab : a = b
      · rw [if_pos hab] at hk
        cases k with
        | zero =>
          refine ⟨by simpa using hab, by simp, by simp⟩
        | succ k2 =>
          rcases ih bs2 k2 (by omega) with ⟨h1, h2, h3⟩
          refine ⟨?_, by simp; omega, by simp; omega⟩
          rw [List.getD_cons_succ, List.getD_cons_succ]
          exact h1
      · rw [if_neg hab] at hk
        omega

theorem TCW_head (C : List Contact) (P : CgrParams) (ea : ℚ)
    (js : List Nat) (qs : List ℚ) (t : ℚ) (node : Int)
    (hT : TemporalChainW C P ea t node js qs) :
    ∀ j0, js.head? = some j0 → (cget C j0).cfrom = node := by
  intro j0 hj0
  cases js with
  | nil => exact absurd hj0 (by simp)
  | cons ja js2 =>
    have hja : ja = j0 := by simpa using hj0
    subst hja
    cases qs with
    | nil => exact absurd hT (by simp [TemporalChainW])
    | cons q0 qs2 => exact hT.2.1

theorem TCW_adj (C : List Contact) (P : CgrParams) (ea : ℚ) :
    ∀ (js : List Nat) (qs : List ℚ) (t : ℚ) (node : Int),
      TemporalChainW C P ea t node js qs →
      ∀ k, k + 1 < js.length →
        (cget C (js.getD k 0)).cto = (cget C (js.getD (k + 1) 0)).cfrom := by
  intro js
  induction js with
  | nil =>
    intro qs t node _ k hk
    simp at hk
  | cons j0 js2 ih =>
    intro qs t node hT k hk
    cases qs with
    | nil => exact absurd hT (by simp [TemporalChainW])
    | cons q0 qs2 =>
      rcases hT with ⟨_, _, _, h4⟩
      cases k with
      | zero =>
        rw [List.getD_cons_zero, List.getD_cons_succ]
        have hlen2 : 0 < js2.length := by simp at hk; omega
        cases js2 with
        | nil => simp at hlen2
        | cons j1 js3 =>
          rw [List.getD_cons_zero]
          exact (TCW_head C P ea (j1 :: js3) qs2 q0 ((cget C j0).cto) h4
            j1 rfl).symm
      | succ k2 =>
        rw [List.getD_cons_succ, List.getD_cons_succ]
        exact ih qs2 q0 ((cget C j0).cto) h4 k2 (by simp at hk; omega)

theorem mapGetD (js : List Nat) (f : Nat → Int) (k : Nat)
    (hk : k < js.length) :
    (js.map f).getD k 0 = f (js.getD k 0) := by
  rw [List.getD_eq_getElem _ _ (by rw [List.length_map]; exact hk),
    List.getD_eq_getElem _ _ hk, List.getElem_map]

theorem getD_mem (js : List Nat) (k : Nat) (hk : k < js.length) :
    js.getD k 0 ∈ js := by
  rw [List.getD_eq_getElem _ _ hk]
  exact List.getElem_mem _

/-- Claim C8: a contradictory forced prefix makes the filtered search return
not found: some forced id is banned, or no contact with the first forced id
leaves the source node, or for some consecutive pair of forced ids no contact
with the later id departs from the destination of any contact with the
earlier id.  The plan is assumed within the 10000 element walk cap of
compute_prefix_done. -/
theorem claim_C8 (C : List Contact) (P : CgrParams) (f : CgrFilters)
    (hC : ContactsOK C) (hB : EPS_BYTES < P.bundle_bytes)
    (hN : C.length ≤ 10000) (hf : f.forced_prefix_ids ≠ [])
    (hcontra :
      (∃ k, k < f.forced_prefix_ids.length ∧
        f.banned_ids.contains (f.forced_prefix_ids.getD k 0) = true) ∨
      (∀ c ∈ C, c.id = f.forced_prefix_ids.getD 0 0 →
        c.cfrom ≠ P.src_node) ∨
      (∃ k, k + 1 < f.forced_prefix_ids.length ∧
        ∀ c ∈ C, ∀ c2 ∈ C, c.id = f.forced_prefix_ids.getD k 0 →
          c2.id = f.forced_prefix_ids.getD (k + 1) 0 →
          c2.cfrom ≠ c.cto)) :
    (cgr_best_route_filtered C P (build_neighbor_index C)
      (some f)).found = false := by
  by_cases hfound : (cgr_best_route_filtered C P (build_neighbor_index C)
      (some f)).found = true
  · exfalso
    cases hni : build_neighbor_index C with
    | none =>
      rw [hni] at hfound
      exact absurd hfound (by simp [cgr_best_route_filtered, routeEmpty])
    | some ni =>
      rw [hni] at hfound
      rcases (filtered_master C P ni (some f) hC hB
          (byFrom_build_from C ni hni) hfound).2 with
        ⟨labF, ci, w, hflen, hfch, hfci, hfw, _, hfpre⟩
      have hpd : compute_prefix_done ci labF C (some f) =
          countMatch (((walkPrev labF 10001 (some ci)).reverse).map
            (fun j => (cget C j).id)) f.forced_prefix_ids := by
        unfold compute_prefix_done
        dsimp only
        rw [if_neg hf]
      have hlenF : f.forced_prefix_ids.length ≤
          compute_prefix_done ci labF C (some f) := by
        rcases hfpre with h | h
        · exact absurd h hf
        · exact h
      rw [hpd] at hlenF
      rcases walk_master C P (some f) (expiryAbs P) labF hC hB hflen hfch
          (labSet labF w).card ci w hfci hfw (le_refl _) 10001
          (by have h1 := labSet_card_le labF w; omega) with
        ⟨⟨rest, hLw⟩, hmemw, qs, q, hTCW, _, _⟩
      set js := (walkPrev labF 10001 (some ci)).reverse with hjs
      have hjslen : ∀ k, k < f.forced_prefix_ids.length →
          (cget C (js.getD k 0)).id = f.forced_prefix_ids.getD k 0 ∧
          k < js.length := by
        intro k hk
        rcases countMatch_spec (js.map (fun j => (cget C j).id))
            f.forced_prefix_ids k (by omega) with ⟨h1, h2, _⟩
        rw [List.length_map] at h2
        rw [mapGetD js _ k h2] at h1
        exact ⟨h1, h2⟩
      have hjsmem : ∀ k, k < js.length → js.getD k 0 < C.length ∧
          is_banned_id (cget C (js.getD k 0)).id (some f) = false := by
        intro k hk
        have hmem : js.getD k 0 ∈ walkPrev labF 10001 (some ci) := by
          have h := getD_mem js k hk
          rw [hjs, List.mem_reverse] at h
          exact h
        rcases hmemw _ hmem with ⟨ha, hb2, _⟩
        exact ⟨ha, hb2⟩
      rcases hcontra with ⟨k, hk, hban⟩ | hsrc | ⟨k, hk, hadj⟩
      · rcases hjslen k hk with ⟨hid, hklen⟩
        rcases hjsmem k hklen with ⟨_, hnb⟩
        rw [hid] at hnb
        unfold is_banned_id at hnb
        dsimp only at hnb
        rw [hban] at hnb
        exact absurd hnb (by simp)
      · have h0 : 0 < f.forced_prefix_ids.length := by
          cases hfp : f.forced_prefix_ids with
          | nil => exact absurd hfp hf
          | cons a l => simp
        rcases hjslen 0 h0 with ⟨hid, hklen⟩
        rcases hjsmem 0 hklen with ⟨hlt, _⟩
        have hhead : js.head? = some (js.getD 0 0) := by
          cases hjse : js with
          | nil =>
            rw [hjse] at hklen
            simp at hklen
          | cons j0 js2 => rfl
        have hfrom := TCW_head C P (expiryAbs P) js qs P.t0 P.src_node hTCW
          (js.getD 0 0) hhead
        exact hsrc (cget C (js.getD 0 0)) (cget_mem C _ hlt) hid hfrom
      · rcases hjslen k (by omega) with ⟨hidk, _⟩
        rcases hjslen (k + 1) hk with ⟨hidk1, hk1len⟩
        rcases hjsmem k (by omega) with ⟨hltk, _⟩
        rcases hjsmem (k + 1) hk1len with ⟨hltk1, _⟩
        have hadj2 := TCW_adj C P (expiryAbs P) js qs P.t0 P.src_node hTCW
          k hk1len
        exact hadj (cget C (js.getD k 0)) (cget_mem C _ hltk)
          (cget C (js.getD (k + 1) 0)) (cget_mem C _ hltk1)
          hidk hidk1 hadj2.symm
  · simpa using hfound

theorem claim_C8_witness :
    ContactsOK [wc0, wc1] ∧ EPS_BYTES < wP.bundle_bytes ∧
      ([wc0, wc1] : List Contact).length ≤ 10000 ∧
      (cgr_best_route_filtered [wc0, wc1] wP
        (build_neighbor_index [wc0, wc1])
        (some ⟨[5], [5]⟩)).found = false :=
  ⟨by decide, by decide, by decide,
    claim_C8 [wc0, wc1] wP ⟨[5], [5]⟩ (by decide) (by decide) (by decide)
      (by decide) (Or.inl ⟨0, by decide, by decide⟩)⟩

/-! ### Claim C1: optimality of the base search -/

instance TCWDecidable (C : List Contact) (P : CgrParams) (ea : ℚ) :
    ∀ (js : List Nat) (qs : List ℚ) (t : ℚ) (node : Int),
      Decidable (TemporalChainW C P ea t node js qs)
  | [], [], _, _ => Decidable.isTrue trivial
  | [], _ :: _, _, _ => Decidable.isFalse (fun h => h)
  | _ :: _, [], _, _ => Decidable.isFalse (fun h => h)
  | j :: js, q :: qs, _, _ =>
    letI : Decidable (TemporalChainW C P ea q ((cget C j).cto) js qs) :=
      TCWDecidable C P ea js qs q ((cget C j).cto)
    inferInstanceAs (Decidable (_ ∧ _ ∧ _ ∧ _))

theorem TCW_len (C : List Contact) (P : CgrParams) (ea : ℚ) :
    ∀ (js : List Nat) (qs : List ℚ) (t : ℚ) (node : Int),
      TemporalChainW C P ea t node js qs → js.length = qs.length := by
  intro js
  induction js with
  | nil =>
    intro qs t node hT
    cases qs with
    | nil => rfl
    | cons q qs2 => exact absurd hT (by simp [TemporalChainW])
  | cons j js2 ih =>
    intro qs t node hT
    cases qs with
    | nil => exact absurd hT (by simp [TemporalChainW])
    | cons q qs2 =>
      simp only [List.length_cons]
      rw [ih qs2 q ((cget C j).cto) hT.2.2.2]

/-- Per index reading of a temporally coherent chain: the first hop evaluates
from the chain entry, every later hop from the previous output. -/
theorem TCW_step (C : List Contact) (P : CgrParams) (ea : ℚ) :
    ∀ (js : List Nat) (qs : List ℚ) (t : ℚ) (node : Int),
      TemporalChainW C P ea t node js qs →
      (0 < js.length →
        eta_contact (cget C (js.getD 0 0)) t P.bundle_bytes ea =
          some (qs.getD 0 0)) ∧
      (∀ k, k + 1 < js.length →
        eta_contact (cget C (js.getD (k + 1) 0)) (qs.getD k 0)
          P.bundle_bytes ea = some (qs.getD (k + 1) 0)) := by
  intro js
  induction js with
  | nil =>
    intro qs t node hT
    exact ⟨by simp, by simp⟩
  | cons j js2 ih =>
    intro qs t node hT
    cases qs with
    | nil => exact absurd hT (by simp [TemporalChainW])
    | cons q qs2 =>
      rcases hT with ⟨h1, h2, h3, h4⟩
      constructor
      · intro _
        simp only [List.getD_cons_zero]
        exact h3
      · intro k hk
        cases k with
        | zero =>
          simp only [List.getD_cons_succ, List.getD_cons_zero]
          have hlen2 : 0 < js2.length := by simp at hk; omega
          exact (ih qs2 q ((cget C j).cto) h4).1 hlen2
        | succ k2 =>
          simp only [List.getD_cons_succ]
          exact (ih qs2 q ((cget C j).cto) h4).2 k2 (by simp at hk; omega)

/-- Chain arrivals are strictly increasing along the chain. -/
theorem TCW_incr (C : List Contact) (P : CgrParams) (ea : ℚ)
    (hC : ContactsOK C) (hB : EPS_BYTES < P.bundle_bytes)
    (js : List Nat) (qs : List ℚ) (t : ℚ) (node : Int)
    (hT : TemporalChainW C P ea t node js qs) :
    ∀ k, k + 1 < js.length → qs.getD k 0 < qs.getD (k + 1) 0 := by
  intro k hk
  have hstep := (TCW_step C P ea js qs t node hT).2 k hk
  have hjlt : js.getD (k + 1) 0 < C.length := by
    apply TCW_mem C P ea js qs t node hT
    exact getD_mem js (k + 1) hk
  rcases hC (cget C (js.getD (k + 1) 0)) (cget_mem C _ hjlt) with
    ⟨hsetup, hres, howlt⟩
  exact eta_arrival_lt _ _ _ _ _ hsetup hres howlt hB hstep

/-- Any chain arrival is at most the last one. -/
theorem TCW_le_last (C : List Contact) (P : CgrParams) (ea : ℚ)
    (hC : ContactsOK C) (hB : EPS_BYTES < P.bundle_bytes)
    (js : List Nat) (qs : List ℚ) (t : ℚ) (node : Int)
    (hT : TemporalChainW C P ea t node js qs) :
    ∀ i, i < js.length → qs.getD i 0 ≤ qs.getD (js.length - 1) 0 := by
  intro i hi
  have hd : ∀ d i2, i2 + d < js.length →
      qs.getD i2 0 ≤ qs.getD (i2 + d) 0 := by
    intro d
    induction d with
    | zero =>
      intro i2 _
      exact le_refl _
    | succ d ih =>
      intro i2 h2
      have h3 := ih i2 (by omega)
      have h4 := TCW_incr C P ea hC hB js qs t node hT (i2 + d) (by omega)
      calc qs.getD i2 0 ≤ qs.getD (i2 + d) 0 := h3
        _ ≤ qs.getD (i2 + d + 1) 0 := le_of_lt h4
  have := hd (js.length - 1 - i) i (by omega)
  rw [show i + (js.length - 1 - i) = js.length - 1 by omega] at this
  exact this

/-- Queue entries carry finite keys at least the last popped value and at
least the current label of their contact. -/
def PQInv (C : List Contact) (tau : ℚ) (lab pq : List Label) : Prop :=
  ∀ x ∈ pq, x.contact_idx < C.length ∧
    ∃ v, x.eta = some v ∧ tau ≤ v ∧ oleq (lget lab x.contact_idx).eta (some v)

/-- Finite labels are minimal among all single hop outputs still reachable:
no evaluation at an arrival at least the last popped value beats them. -/
def LabMin (C : List Contact) (P : CgrParams) (ea tau : ℚ)
    (lab : List Label) : Prop :=
  ∀ j, j < C.length → ∀ w, (lget lab j).eta = some w →
    ∀ t, tau ≤ t → ∀ q, eta_contact (cget C j) t P.bundle_bytes ea = some q →
      w ≤ q

/-- Every finite label still has a live queue entry at exactly its value, or
was already expanded at that value (recorded in the ghost list G). -/
def LabEnt (C : List Contact) (lab pq : List Label)
    (G : List (Nat × ℚ)) : Prop :=
  ∀ j, j < C.length → ∀ w, (lget lab j).eta = some w →
    (∃ x ∈ pq, x.contact_idx = j ∧ x.eta = some w) ∨ (j, w) ∈ G

/-- Ghost record of performed expansions: the expanded contact does not reach
the destination, and all its successors are already relaxed below any single
hop output from an arrival at least the expansion arrival. -/
def GInv (C : List Contact) (P : CgrParams) (NI : NeighborIndex) (ea : ℚ)
    (lab : List Label) (G : List (Nat × ℚ)) : Prop :=
  ∀ jv ∈ G, jv.1 < C.length ∧ (cget C jv.1).cto ≠ P.dst_node ∧
    ∀ nj ∈ byFromGet NI ((cget C jv.1).cto).toNat, ∀ t, jv.2 ≤ t →
      ∀ q, eta_contact (cget C nj) t P.bundle_bytes ea = some q →
        oleq (lget lab nj).eta (some q)

/-- Some position of the competitor chain is within reach: a queue entry at
most its arrival, or an expansion record at most its arrival. -/
def FrontierInv (pq : List Label) (G : List (Nat × ℚ))
    (js : List Nat) (qs : List ℚ) : Prop :=
  ∃ i, i < js.length ∧
    ((∃ x ∈ pq, x.contact_idx = js.getD i 0 ∧
        ∃ v, x.eta = some v ∧ v ≤ qs.getD i 0) ∨
      (∃ v, v ≤ qs.getD i 0 ∧ (js.getD i 0, v) ∈ G))

theorem isHeap_nil : IsHeap [] := by
  intro k hk0 hklen
  simp at hklen

theorem gInv_dec (C : List Contact) (P : CgrParams) (NI : NeighborIndex)
    (ea : ℚ) (lab lab2 : List Label) (G : List (Nat × ℚ))
    (hG : GInv C P NI ea lab G)
    (hdec : ∀ k, oleq (lget lab2 k).eta (lget lab k).eta) :
    GInv C P NI ea lab2 G := by
  intro jv hjv
  rcases hG jv hjv with ⟨h1, h2, h3⟩
  refine ⟨h1, h2, ?_⟩
  intro nj hnj t ht q hq
  exact oleq_trans (hdec nj) (h3 nj hnj t ht q hq)

theorem pqInv_dec (C : List Contact) (tau : ℚ) (lab lab2 pq : List Label)
    (hP : PQInv C tau lab pq)
    (hdec : ∀ k, oleq (lget lab2 k).eta (lget lab k).eta) :
    PQInv C tau lab2 pq := by
  intro x hx
  rcases hP x hx with ⟨h1, v, h2, h3, h4⟩
  exact ⟨h1, v, h2, h3, oleq_trans (hdec x.contact_idx) h4⟩

/-- The seeding loop of the normal mode with no filters: preserves the
optimality invariants at tau = t0 and leaves every feasible contact of the
worklist with a label at most its exact seed evaluation. -/
theorem seedNormal_opt (C : List Contact) (P : CgrParams) (ea : ℚ)
    (hC : ContactsOK C) (hB : EPS_BYTES < P.bundle_bytes) :
    ∀ (njs : List Nat) (lab pq : List Label),
      lab.length = C.length →
      (∀ nj ∈ njs, nj < C.length) →
      IsHeap pq →
      PQInv C P.t0 lab pq →
      LabMin C P ea P.t0 lab →
      LabEnt C lab pq [] →
      IsHeap (seedNormal C P none ea njs (lab, pq)).2 ∧
      (seedNormal C P none ea njs (lab, pq)).1.length = C.length ∧
      PQInv C P.t0 (seedNormal C P none ea njs (lab, pq)).1
        (seedNormal C P none ea njs (lab, pq)).2 ∧
      LabMin C P ea P.t0 (seedNormal C P none ea njs (lab, pq)).1 ∧
      LabEnt C (seedNormal C P none ea njs (lab, pq)).1
        (seedNormal C P none ea njs (lab, pq)).2 [] ∧
      (∀ k, oleq (lget (seedNormal C P none ea njs (lab, pq)).1 k).eta
        (lget lab k).eta) ∧
      (∀ nj ∈ njs, ∀ q0,
        eta_contact (cget C nj) P.t0 P.bundle_bytes ea = some q0 →
        ∃ w0, (lget (seedNormal C P none ea njs (lab, pq)).1 nj).eta =
          some w0 ∧ w0 ≤ q0) := by
  intro njs
  induction njs with
  | nil =>
    intro lab pq hlen hmem hH hPQ hLM hLE
    exact ⟨hH, hlen, hPQ, hLM, hLE, fun k => oleq_refl _,
      fun nj hnj => absurd hnj (by simp)⟩
  | cons ci rest ih =>
    intro lab pq hlen hmem hH hPQ hLM hLE
    have hci : ci < C.length := hmem ci (List.mem_cons_self _ _)
    have hrest : ∀ nj ∈ rest, nj < C.length :=
      fun nj hnj => hmem nj (List.mem_cons_of_mem _ hnj)
    rcases hC (cget C ci) (cget_mem C ci hci) with ⟨hsetup, hres, howlt⟩
    simp only [seedNormal]
    by_cases hban : is_banned_id (cget C ci).id none
    · simp [is_banned_id] at hban
    · rw [if_neg hban]
      by_cases hvia : ¬ contact_is_viable (cget C ci) P.t0 P.bundle_bytes
      · rw [if_pos hvia]
        rcases ih lab pq hlen hrest hH hPQ hLM hLE with
          ⟨a1, a2, a3, a4, a5, a6, a7⟩
        refine ⟨a1, a2, a3, a4, a5, a6, ?_⟩
        intro nj hnj q0 hq0
        rw [List.mem_cons] at hnj
        rcases hnj with hnj | hnj
        · subst hnj
          exact absurd (viable_of_eta_some _ _ _ _ _ hsetup hres hB hq0) hvia
        · exact a7 nj hnj q0 hq0
      · rw [if_neg hvia]
        cases heta : eta_contact (cget C ci) P.t0 P.bundle_bytes ea with
        | none =>
          rcases ih lab pq hlen hrest hH hPQ hLM hLE with
            ⟨a1, a2, a3, a4, a5, a6, a7⟩
          refine ⟨a1, a2, a3, a4, a5, a6, ?_⟩
          intro nj hnj q0 hq0
          rw [List.mem_cons] at hnj
          rcases hnj with hnj | hnj
          · subst hnj
            rw [heta] at hq0
            exact absurd hq0 (by simp)
          · exact a7 nj hnj q0 hq0
        | some eta =>
          dsimp only
          by_cases hrel : olt (some eta) (lget lab ci).eta
          · rw [if_pos hrel]
            have hdec1 : ∀ k, oleq
                (lget (lab.set ci ⟨ci, some eta, none⟩) k).eta
                (lget lab k).eta :=
              lget_set_dec lab ci _ (olt_oleq _ _ hrel)
            have hlab2 : (lget (lab.set ci ⟨ci, some eta, none⟩) ci).eta =
                some eta := by
              rw [lget_set, if_pos ⟨rfl, by omega⟩]
            have hPQ2 : PQInv C P.t0 (lab.set ci ⟨ci, some eta, none⟩)
                (heap_push pq ⟨ci, some eta, none⟩) := by
              intro x hx
              rcases (heap_push_mem x pq _).mp hx with hx2 | hx2
              · exact pqInv_dec C P.t0 lab _ pq hPQ hdec1 x hx2
              · subst hx2
                refine ⟨hci, eta, rfl, ?_, ?_⟩
                · exact le_of_lt (eta_arrival_lt _ _ _ _ _ hsetup hres
                    howlt hB heta)
                · rw [hlab2]
                  exact oleq_refl _
            have hLM2 : LabMin C P ea P.t0
                (lab.set ci ⟨ci, some eta, none⟩) := by
              intro j hj w hw t ht q hq
              rw [lget_set] at hw
              by_cases hje : ci = j ∧ ci < lab.length
              · rw [if_pos hje] at hw
                have hwe : w = eta := Option.some_injective _ hw.symm
                subst hwe
                rcases hje with ⟨hje, _⟩
                subst hje
                rcases eta_mono (cget C ci) P.t0 t P.bundle_bytes ea q
                    hsetup hres hB ht hq with ⟨q2, hq2, hq2le⟩
                have hq2w : q2 = w := Option.some_injective _ (hq2.symm.trans heta)
                rw [← hq2w]
                exact hq2le
              · rw [if_neg hje] at hw
                exact hLM j hj w hw t ht q hq
            have hLE2 : LabEnt C (lab.set ci ⟨ci, some eta, none⟩)
                (heap_push pq ⟨ci, some eta, none⟩) [] := by
              intro j hj w hw
              rw [lget_set] at hw
              by_cases hje : ci = j ∧ ci < lab.length
              · rw [if_pos hje] at hw
                have hwe : w = eta := Option.some_injective _ hw.symm
                subst hwe
                rcases hje with ⟨hje, _⟩
                subst hje
                left
                exact ⟨⟨ci, some w, none⟩,
                  (heap_push_mem _ pq _).mpr (Or.inr rfl), rfl, rfl⟩
              · rw [if_neg hje] at hw
                rcases hLE j hj w hw with ⟨x, hx, hx2, hx3⟩ | hg
                · left
                  exact ⟨x, (heap_push_mem x pq _).mpr (Or.inl hx), hx2, hx3⟩
                · exact absurd hg (by simp)
            rcases ih _ _ (by rw [List.length_set]; exact hlen) hrest
                (heap_push_isHeap pq _ hH) hPQ2 hLM2 hLE2 with
              ⟨a1, a2, a3, a4, a5, a6, a7⟩
            refine ⟨a1, a2, a3, a4, a5, ?_, ?_⟩
            · intro k
              exact oleq_trans (a6 k) (hdec1 k)
            · intro nj hnj q0 hq0
              rw [List.mem_cons] at hnj
              rcases hnj with hnj | hnj
              · subst hnj
                have hq0e : q0 = eta :=
                  Option.some_injective _ (hq0.symm.trans heta)
                subst hq0e
                have h6 := a6 nj
                rw [hlab2] at h6
                cases hwf : (lget (seedNormal C P none ea rest
                    (lab.set nj ⟨nj, some q0, none⟩,
                      heap_push pq ⟨nj, some q0, none⟩)).1 nj).eta with
                | none =>
                  rw [hwf] at h6
                  exact absurd h6 (by simp [oleq])
                | some wf =>
                  rw [hwf] at h6
                  exact ⟨wf, rfl, h6⟩
              · exact a7 nj hnj q0 hq0
          · rw [if_neg hrel]
            rcases ih lab pq hlen hrest hH hPQ hLM hLE with
              ⟨a1, a2, a3, a4, a5, a6, a7⟩
            refine ⟨a1, a2, a3, a4, a5, a6, ?_⟩
            intro nj hnj q0 hq0
            rw [List.mem_cons] at hnj
            rcases hnj with hnj | hnj
            · subst hnj
              have hq0e : q0 = eta :=
                Option.some_injective _ (hq0.symm.trans heta)
              subst hq0e
              have hle : oleq (lget lab nj).eta (some q0) :=
                not_olt_oleq _ _ hrel
              have h6 := a6 nj
              cases hw0 : (lget lab nj).eta with
              | none =>
                rw [hw0] at hle
                exact absurd hle (by simp [oleq])
              | some w0 =>
                rw [hw0] at hle h6
                cases hwf : (lget (seedNormal C P none ea rest
                    (lab, pq)).1 nj).eta with
                | none =>
                  rw [hwf] at h6
                  exact absurd h6 (by simp [oleq])
                | some wf =>
                  rw [hwf] at h6
                  refine ⟨wf, rfl, ?_⟩
                  have h7 : wf ≤ w0 := h6
                  have h8 : w0 ≤ q0 := hle
                  linarith
            · exact a7 nj hnj q0 hq0

/-- The expansion step with no filters: preserves the optimality invariants
at tau = the expansion arrival, only decreases labels, keeps every existing
queue entry alive, and leaves every successor of the worklist with a label at
most any single hop output from an arrival at least the expansion arrival. -/
theorem expandList_opt (C : List Contact) (P : CgrParams) (ea : ℚ)
    (hC : ContactsOK C) (hB : EPS_BYTES < P.bundle_bytes)
    (v0 : ℚ) (ci : Nat) (G : List (Nat × ℚ)) :
    ∀ (njs : List Nat) (lab pq : List Label),
      lab.length = C.length →
      (∀ nj ∈ njs, nj < C.length) →
      IsHeap pq →
      PQInv C v0 lab pq →
      LabMin C P ea v0 lab →
      LabEnt C lab pq G →
      IsHeap (expandList C P none ea v0 ci (-1) njs (lab, pq)).2 ∧
      (expandList C P none ea v0 ci (-1) njs (lab, pq)).1.length = C.length ∧
      PQInv C v0 (expandList C P none ea v0 ci (-1) njs (lab, pq)).1
        (expandList C P none ea v0 ci (-1) njs (lab, pq)).2 ∧
      LabMin C P ea v0 (expandList C P none ea v0 ci (-1) njs (lab, pq)).1 ∧
      LabEnt C (expandList C P none ea v0 ci (-1) njs (lab, pq)).1
        (expandList C P none ea v0 ci (-1) njs (lab, pq)).2 G ∧
      (∀ k, oleq (lget (expandList C P none ea v0 ci (-1) njs (lab, pq)).1 k).eta
        (lget lab k).eta) ∧
      (∀ x ∈ pq, x ∈ (expandList C P none ea v0 ci (-1) njs (lab, pq)).2) ∧
      (∀ nj ∈ njs, ∀ t, v0 ≤ t →
        ∀ q, eta_contact (cget C nj) t P.bundle_bytes ea = some q →
        oleq (lget (expandList C P none ea v0 ci (-1) njs (lab, pq)).1 nj).eta
          (some q)) := by
  intro njs
  induction njs with
  | nil =>
    intro lab pq hlen hmem hH hPQ hLM hLE
    exact ⟨hH, hlen, hPQ, hLM, hLE, fun k => oleq_refl _, fun x hx => hx,
      fun nj hnj => absurd hnj (by simp)⟩
  | cons nj rest ih =>
    intro lab pq hlen hmem hH hPQ hLM hLE
    have hnjC : nj < C.length := hmem nj (List.mem_cons_self _ _)
    have hrest : ∀ x ∈ rest, x < C.length :=
      fun x hx => hmem x (List.mem_cons_of_mem _ hx)
    rcases hC (cget C nj) (cget_mem C nj hnjC) with ⟨hsetup, hres, howlt⟩
    simp only [expandList]
    rw [if_neg (by simp)]
    by_cases hban : is_banned_id (cget C nj).id none
    · simp [is_banned_id] at hban
    · rw [if_neg hban]
      by_cases hvia : ¬ contact_is_viable (cget C nj) v0 P.bundle_bytes
      · rw [if_pos hvia]
        rcases ih lab pq hlen hrest hH hPQ hLM hLE with
          ⟨a1, a2, a3, a4, a5, a6, a7, a8⟩
        refine ⟨a1, a2, a3, a4, a5, a6, a7, ?_⟩
        intro x hx t ht q hq
        rw [List.mem_cons] at hx
        rcases hx with hx | hx
        · subst hx
          have hnone : eta_contact (cget C x) v0 P.bundle_bytes ea = none :=
            eta_none_of_not_viable _ _ _ _ hsetup hres hB hvia
          have := eta_none_mono (cget C x) v0 t P.bundle_bytes ea
            hsetup hres hB ht hnone
          rw [this] at hq
          exact absurd hq (by simp)
        · exact a8 x hx t ht q hq
      · rw [if_neg hvia]
        cases heta : eta_contact (cget C nj) v0 P.bundle_bytes ea with
        | none =>
          rcases ih lab pq hlen hrest hH hPQ hLM hLE with
            ⟨a1, a2, a3, a4, a5, a6, a7, a8⟩
          refine ⟨a1, a2, a3, a4, a5, a6, a7, ?_⟩
          intro x hx t ht q hq
          rw [List.mem_cons] at hx
          rcases hx with hx | hx
          · subst hx
            have := eta_none_mono (cget C x) v0 t P.bundle_bytes ea
              hsetup hres hB ht heta
            rw [this] at hq
            exact absurd hq (by simp)
          · exact a8 x hx t ht q hq
        | some eta_n =>
          dsimp only
          by_cases hrel : olt (some (eta_n + EPS_TIME)) (lget lab nj).eta
          · rw [if_pos hrel]
            have hdec1 : ∀ k, oleq
                (lget (lab.set nj ⟨nj, some eta_n, some ci⟩) k).eta
                (lget lab k).eta := by
              apply lget_set_dec
              have h1 := olt_oleq _ _ hrel
              cases hv : (lget lab nj).eta with
              | none => trivial
              | some v =>
                rw [hv] at h1
                have h2 : eta_n + EPS_TIME ≤ v := h1
                have heps := eps_time_pos
                show (eta_n : ℚ) ≤ v
                linarith
            have hlab2 : (lget (lab.set nj ⟨nj, some eta_n, some ci⟩) nj).eta =
                some eta_n := by
              rw [lget_set, if_pos ⟨rfl, by omega⟩]
            have hPQ2 : PQInv C v0 (lab.set nj ⟨nj, some eta_n, some ci⟩)
                (heap_push pq ⟨nj, some eta_n, some ci⟩) := by
              intro x hx
              rcases (heap_push_mem x pq _).mp hx with hx2 | hx2
              · exact pqInv_dec C v0 lab _ pq hPQ hdec1 x hx2
              · subst hx2
                refine ⟨hnjC, eta_n, rfl, ?_, ?_⟩
                · exact le_of_lt (eta_arrival_lt _ _ _ _ _ hsetup hres
                    howlt hB heta)
                · rw [hlab2]
                  exact oleq_refl _
            have hLM2 : LabMin C P ea v0
                (lab.set nj ⟨nj, some eta_n, some ci⟩) := by
              intro j hj w hw t ht q hq
              rw [lget_set] at hw
              by_cases hje : nj = j ∧ nj < lab.length
              · rw [if_pos hje] at hw
                have hwe : w = eta_n := Option.some_injective _ hw.symm
                rcases hje with ⟨hje, _⟩
                rw [← hje] at hq
                rcases eta_mono (cget C nj) v0 t P.bundle_bytes ea q
                    hsetup hres hB ht hq with ⟨q2, hq2, hq2le⟩
                have hq2w : q2 = eta_n :=
                  Option.some_injective _ (hq2.symm.trans heta)
                rw [hwe, ← hq2w]
                exact hq2le
              · rw [if_neg hje] at hw
                exact hLM j hj w hw t ht q hq
            have hLE2 : LabEnt C (lab.set nj ⟨nj, some eta_n, some ci⟩)
                (heap_push pq ⟨nj, some eta_n, some ci⟩) G := by
              intro j hj w hw
              rw [lget_set] at hw
              by_cases hje : nj = j ∧ nj < lab.length
              · rw [if_pos hje] at hw
                have hwe : w = eta_n := Option.some_injective _ hw.symm
                rcases hje with ⟨hje, _⟩
                left
                refine ⟨⟨nj, some eta_n, some ci⟩,
                  (heap_push_mem _ pq _).mpr (Or.inr rfl), ?_, ?_⟩
                · exact hje
                · rw [hwe]
              · rw [if_neg hje] at hw
                rcases hLE j hj w hw with ⟨x, hx, hx2, hx3⟩ | hg
                · left
                  exact ⟨x, (heap_push_mem x pq _).mpr (Or.inl hx), hx2, hx3⟩
                · exact Or.inr hg
            rcases ih _ _ (by rw [List.length_set]; exact hlen) hrest
                (heap_push_isHeap pq _ hH) hPQ2 hLM2 hLE2 with
              ⟨a1, a2, a3, a4, a5, a6, a7, a8⟩
            refine ⟨a1, a2, a3, a4, a5, ?_, ?_, ?_⟩
            · intro k
              exact oleq_trans (a6 k) (hdec1 k)
            · intro x hx
              exact a7 x ((heap_push_mem x pq _).mpr (Or.inl hx))
            · intro x hx t ht q hq
              rw [List.mem_cons] at hx
              rcases hx with hx | hx
              · subst hx
                rcases eta_mono (cget C x) v0 t P.bundle_bytes ea q
                    hsetup hres hB ht hq with ⟨q2, hq2, hq2le⟩
                have hq2e : q2 = eta_n :=
                  Option.some_injective _ (hq2.symm.trans heta)
                have h6 := a6 x
                rw [hlab2] at h6
                apply oleq_trans h6
                show eta_n ≤ q
                rw [← hq2e]
                exact hq2le
              · exact a8 x hx t ht q hq
          · rw [if_neg hrel]
            rcases ih lab pq hlen hrest hH hPQ hLM hLE with
              ⟨a1, a2, a3, a4, a5, a6, a7, a8⟩
            refine ⟨a1, a2, a3, a4, a5, a6, a7, ?_⟩
            intro x hx t ht q hq
            rw [List.mem_cons] at hx
            rcases hx with hx | hx
            · subst hx
              have hfin : oleq (lget lab x).eta (some (eta_n + EPS_TIME)) :=
                not_olt_oleq _ _ hrel
              cases hw1 : (lget lab x).eta with
              | none =>
                rw [hw1] at hfin
                exact absurd hfin (by simp [oleq])
              | some w1 =>
                have hw1q : w1 ≤ q := hLM x hnjC w1 hw1 t ht q hq
                have h6 := a6 x
                rw [hw1] at h6
                apply oleq_trans h6
                exact hw1q
            · exact a8 x hx t ht q hq

end CgrLive
